import Mathlib

/-!
Verification development for the battery-news-agent collection, dedupe and
ranking pipeline.  The Python sources under `src/` are embedded shallowly:
strings become `List Char` (operations are lifted to `String` at the API
boundary), integers become `Nat`/`Int`, floats become `Rat` (exact rational
arithmetic; the pipeline only compares similarity values against coarse
thresholds, far from any float-rounding boundary), external HTTP and LLM
collaborators become explicit oracle parameters, and Python exceptions become
`Option`/`Except` results.
-/

/-! ### Python string primitives -/

/-- Character of `s` at position `i` (`s[i]` on an in-range index). -/
def charAt (s : List Char) (i : Nat) : Char :=
  s.getD i (Char.ofNat 0)

/-- Python `str.lower()` restricted to the ASCII range.  All strings reaching
`lower()` in theorems of this file are ASCII/Hangul, where this coincides
with Python's Unicode lowercasing (Hangul has no case). -/
def pyLowerChar (c : Char) : Char :=
  if 'A' ≤ c ∧ c ≤ 'Z' then Char.ofNat (c.toNat + 32) else c

/-- `str.lower()` over a character list. -/
def pyLower (s : List Char) : List Char :=
  s.map pyLowerChar

/-! ### difflib.SequenceMatcher (CPython 3.11), as used by the repository

Both call sites (`dedupe.title_similarity` and
`naver_collector._title_similarity`) construct `SequenceMatcher(None, a, b)`:
`isjunk` is `None`, so the b-junk set is empty, while the `autojunk`
heuristic (default `True`) still removes "popular" elements from `b2j`. -/

/-- Number of occurrences of `c` in `b` (`len(b2j[c])`). -/
def countElem (c : Char) (b : List Char) : Nat :=
  (b.filter (fun x => x == c)).length

/-- The autojunk popularity test from `SequenceMatcher.__chain_b`: with
`n = len(b) >= 200`, elements occurring more than `n // 100 + 1` times are
dropped from `b2j`. -/
def isPopular (b : List Char) (c : Char) : Bool :=
  decide (200 ≤ b.length) && decide (b.length / 100 + 1 < countElem c b)

/-- Ascending positions of `c` in `b` (`b2j[c]` before the popularity purge,
built by `for i, elt in enumerate(b)`). -/
def elemPositions (c : Char) (b : List Char) : List Nat :=
  (List.range b.length).filter (fun j => charAt b j == c)

/-- `b2j.get(c, [])` after the autojunk purge. -/
def b2jGet (b : List Char) (c : Char) : List Nat :=
  if isPopular b c then [] else elemPositions c b

/-- `isbjunk = self.bjunk.__contains__`: the repository always passes
`isjunk=None`, so `bjunk` is empty and this is constantly `false`. -/
def isbjunk (_c : Char) : Bool :=
  false

/-- Running best match of `find_longest_match`. -/
structure FlmState where
  besti : Nat
  bestj : Nat
  bestsize : Nat
deriving Repr, DecidableEq

/-- One `j` step of the `find_longest_match` inner loop: read the chain length
ending at `j-1` in the previous row, extend it, record it in the new row, and
update the best block on a strict improvement. -/
def dpStep (i : Nat) (j2len : Nat → Nat) (acc : FlmState × (Nat → Nat)) (j : Nat) :
    FlmState × (Nat → Nat) :=
  let prev := if j = 0 then 0 else j2len (j - 1)
  let k := prev + 1
  let nj := fun j' => if j' = j then k else acc.2 j'
  let st := if acc.1.bestsize < k then FlmState.mk (i + 1 - k) (j + 1 - k) k else acc.1
  (st, nj)

/-- The `j` values visited in row `i`:  `b2j.get(a[i], [])`, skipping `j < blo`
(`continue`) and stopping at the first `j >= bhi` (`break`; the position list
is ascending, so the break is a `takeWhile`). -/
def rowPositions (a b : List Char) (blo bhi i : Nat) : List Nat :=
  ((b2jGet b (charAt a i)).filter (fun j => decide (blo ≤ j))).takeWhile
    (fun j => decide (j < bhi))

/-- One row (`for i in range(alo, ahi)`) of the `find_longest_match` DP. -/
def dpRow (a b : List Char) (blo bhi : Nat) (st : FlmState × (Nat → Nat)) (i : Nat) :
    FlmState × (Nat → Nat) :=
  let folded := (rowPositions a b blo bhi i).foldl (dpStep i st.2) (st.1, fun _ => 0)
  (folded.1, folded.2)

/-- The full DP phase of `find_longest_match`, starting from
`besti, bestj, bestsize = alo, blo, 0` and an empty `j2len`. -/
def dpLoop (a b : List Char) (alo ahi blo bhi : Nat) : FlmState :=
  ((List.range' alo (ahi - alo)).foldl (dpRow a b blo bhi) (FlmState.mk alo blo 0, fun _ => 0)).1

/-- First extension loop of `find_longest_match`: grow the best block
leftwards over non-junk equal elements.  The `fuel` argument makes the
`while` loop structurally recursive; each iteration decrements `besti`, so
any fuel `>= besti` is enough for the loop to run to its guard. -/
def extLeftNonjunk (a b : List Char) (alo blo : Nat) : Nat -> FlmState -> FlmState
  | 0, st => st
  | fuel + 1, st =>
    if alo < st.besti ∧ blo < st.bestj ∧ isbjunk (charAt b (st.bestj - 1)) = false ∧
        charAt a (st.besti - 1) = charAt b (st.bestj - 1) then
      extLeftNonjunk a b alo blo fuel (FlmState.mk (st.besti - 1) (st.bestj - 1) (st.bestsize + 1))
    else st

/-- Second extension loop: grow the best block rightwards over non-junk equal
elements.  Each iteration increments `bestsize` while `besti + bestsize < ahi`,
so any fuel `>= ahi` is enough. -/
def extRightNonjunk (a b : List Char) (ahi bhi : Nat) : Nat -> FlmState -> FlmState
  | 0, st => st
  | fuel + 1, st =>
    if st.besti + st.bestsize < ahi ∧ st.bestj + st.bestsize < bhi ∧
        isbjunk (charAt b (st.bestj + st.bestsize)) = false ∧
        charAt a (st.besti + st.bestsize) = charAt b (st.bestj + st.bestsize) then
      extRightNonjunk a b ahi bhi fuel (FlmState.mk st.besti st.bestj (st.bestsize + 1))
    else st

/-- Third extension loop: grow the best block leftwards over junk elements
(dead code here since `isbjunk` is constantly false, kept for fidelity). -/
def extLeftJunk (a b : List Char) (alo blo : Nat) : Nat -> FlmState -> FlmState
  | 0, st => st
  | fuel + 1, st =>
    if alo < st.besti ∧ blo < st.bestj ∧ isbjunk (charAt b (st.bestj - 1)) = true ∧
        charAt a (st.besti - 1) = charAt b (st.bestj - 1) then
      extLeftJunk a b alo blo fuel (FlmState.mk (st.besti - 1) (st.bestj - 1) (st.bestsize + 1))
    else st

/-- Fourth extension loop: grow the best block rightwards over junk elements
(dead code here since `isbjunk` is constantly false, kept for fidelity). -/
def extRightJunk (a b : List Char) (ahi bhi : Nat) : Nat -> FlmState -> FlmState
  | 0, st => st
  | fuel + 1, st =>
    if st.besti + st.bestsize < ahi ∧ st.bestj + st.bestsize < bhi ∧
        isbjunk (charAt b (st.bestj + st.bestsize)) = true ∧
        charAt a (st.besti + st.bestsize) = charAt b (st.bestj + st.bestsize) then
      extRightJunk a b ahi bhi fuel (FlmState.mk st.besti st.bestj (st.bestsize + 1))
    else st

/-- `SequenceMatcher.find_longest_match(alo, ahi, blo, bhi)`. -/
def findLongestMatch (a b : List Char) (alo ahi blo bhi : Nat) : FlmState :=
  let d := dpLoop a b alo ahi blo bhi
  let e1 := extLeftNonjunk a b alo blo d.besti d
  let e2 := extRightNonjunk a b ahi bhi ahi e1
  let e3 := extLeftJunk a b alo blo e2.besti e2
  extRightJunk a b ahi bhi ahi e3

/-- Total size of the matching blocks of `get_matching_blocks` restricted to
the range `a[alo:ahi]` / `b[blo:bhi]`: the recursive structure of the
worklist in `get_matching_blocks` (left part only when both sides are
nonempty, same on the right); the final sort/collapse steps do not change the
sum of block sizes.  `fuel` bounds the recursion depth; the top-level call in
`matchTotal` supplies `len(a)+len(b)+1`, which exceeds the true depth
because `(ahi-alo)+(bhi-blo)` strictly decreases along every recursive
call. -/
def matchTotalF (a b : List Char) : Nat → Nat → Nat → Nat → Nat → Nat
  | 0, _, _, _, _ => 0
  | fuel + 1, alo, ahi, blo, bhi =>
    let st := findLongestMatch a b alo ahi blo bhi
    if st.bestsize = 0 then 0
    else
      st.bestsize +
        (if alo < st.besti ∧ blo < st.bestj then
          matchTotalF a b fuel alo st.besti blo st.bestj
        else 0) +
        (if st.besti + st.bestsize < ahi ∧ st.bestj + st.bestsize < bhi then
          matchTotalF a b fuel (st.besti + st.bestsize) ahi (st.bestj + st.bestsize) bhi
        else 0)

/-- `M`: the number of matched elements between `a` and `b`
(`sum(triple[-1] for triple in get_matching_blocks())`). -/
def matchTotal (a b : List Char) : Nat :=
  matchTotalF a b (a.length + b.length + 1) 0 a.length 0 b.length

/-- `SequenceMatcher.ratio()`, via `_calculate_ratio`:  `2M / T` with
`T = len(a) + len(b)`, and `1.0` when `T = 0`.  The quotient is written with
`mkRat` (exact rational division, `Rat.mkRat_eq_div`). -/
def ratioOf (a b : List Char) : Rat :=
  if a.length + b.length = 0 then 1
  else mkRat (2 * (matchTotal a b : Int)) (a.length + b.length)

/-! ### dedupe.py and naver_collector.py: title similarity -/

/-- `dedupe.title_similarity(a, b)`:
`SequenceMatcher(None, a.lower(), b.lower()).ratio()`. -/
def title_similarity (a b : String) : Rat :=
  ratioOf (pyLower a.toList) (pyLower b.toList)

/-- Python `\s` for the ASCII whitespace characters (all whitespace appearing
in inputs considered here is ASCII). -/
def isPySpace (c : Char) : Bool :=
  c = ' ' || c = '\t' || c = '\n' || c = '\r' || c = '\x0b' || c = '\x0c'

/-- `re.sub(r"\s+", " ", s)`: collapse each maximal whitespace run to one
space. -/
def collapseWs (s : List Char) : List Char :=
  s.foldr
    (fun c acc =>
      if isPySpace c then (if acc.head? == some ' ' then acc else ' ' :: acc)
      else c :: acc) []

/-- Python `str.strip()` (ASCII whitespace). -/
def pyStrip (s : List Char) : List Char :=
  ((s.dropWhile isPySpace).reverse.dropWhile isPySpace).reverse

/-- Scan for the closing `>` of an HTML-ish tag: the remainder after the
first `>` (the tag body `[^>]+` cannot cross a `>`), `none` when the body
would be empty or no `>` follows. -/
def dropToGt : List Char → Option (List Char)
  | [] => none
  | '>' :: r => some r
  | _ :: r => dropToGt r

/-- End of a `<[^>]+>` match given the characters after `<`. -/
def findTagEnd : List Char → Option (List Char)
  | [] => none
  | '>' :: _ => none
  | _ :: r => dropToGt r

/-- `re.sub(r"<[^>]+>", "", s)`: left-to-right non-overlapping tag removal.
`fuel >= len(s)` makes the scan structural; every step consumes at least one
character. -/
def stripTagsF : Nat → List Char → List Char
  | 0, s => s
  | fuel + 1, s =>
    match s with
    | [] => []
    | '<' :: rest =>
      match findTagEnd rest with
      | some rem => stripTagsF fuel rem
      | none => '<' :: stripTagsF fuel rest
    | c :: rest => c :: stripTagsF fuel rest

/-- Python `str.replace(pat, repl)` (left-to-right, non-overlapping), fueled
by the string length. -/
def replaceAllF : Nat → List Char → List Char → List Char → List Char
  | 0, s, _, _ => s
  | fuel + 1, s, pat, repl =>
    match s with
    | [] => []
    | c :: rest =>
      if pat ≠ [] ∧ pat.isPrefixOf s then
        repl ++ replaceAllF fuel (s.drop pat.length) pat repl
      else c :: replaceAllF fuel rest pat repl

/-- `naver_collector._strip_html`: drop tags, decode the three entities,
collapse whitespace and strip. -/
def strip_html (s : List Char) : List Char :=
  let s1 := stripTagsF (s.length + 1) s
  let s2 := replaceAllF (s1.length + 1) s1 "&quot;".toList "\"".toList
  let s3 := replaceAllF (s2.length + 1) s2 "&apos;".toList "'".toList
  let s4 := replaceAllF (s3.length + 1) s3 "&amp;".toList "&".toList
  pyStrip (collapseWs s4)

/-- Python `\w` as relevant here: ASCII alphanumerics, underscore, and
Hangul syllables (the only word characters occurring in the embedded
marker words and titles). -/
def isWordChar (c : Char) : Bool :=
  ('0' ≤ c && c ≤ '9') || ('a' ≤ c && c ≤ 'z') || ('A' ≤ c && c ≤ 'Z') || c = '_' ||
    (0xAC00 ≤ c.toNat && c.toNat ≤ 0xD7A3)

/-- The editorial marker words of
`re.sub(r"\b(속보|단독|종합|인터뷰|분석|기획|칼럼|포토)\b", " ", t)`, in
alternation order. -/
def markerWords : List (List Char) :=
  ["속보".toList, "단독".toList, "종합".toList, "인터뷰".toList,
   "분석".toList, "기획".toList, "칼럼".toList, "포토".toList]

/-- One marker-word match attempt at the current position: the matched word,
if its characters are a prefix here, the previous character is not a word
character, and the following character is not a word character. -/
def matchMarker (prev : Option Char) (s : List Char) : Option (List Char) :=
  markerWords.find? (fun w =>
    w.isPrefixOf s &&
      (match prev with
       | none => true
       | some p => !isWordChar p) &&
      (match (s.drop w.length).head? with
       | none => true
       | some n => !isWordChar n))

/-- The marker-word substitution scan (word boundaries are judged on the
original text, as `re.sub` does). -/
def subMarkersF : Nat → Option Char → List Char → List Char
  | 0, _, s => s
  | fuel + 1, prev, s =>
    match s with
    | [] => []
    | c :: rest =>
      match matchMarker prev s with
      | some w => ' ' :: subMarkersF fuel w.getLast? (s.drop w.length)
      | none => c :: subMarkersF fuel (some c) rest

/-- Lazy search for the first closing bracket within `12 - k` further
characters (`.{0,12}?[\]\)\>]`; `.` does not match a newline). -/
def scanClose : List Char → Nat → Option (List Char)
  | [], _ => none
  | c :: rr, k =>
    if c = ']' || c = ')' || c = '>' then some rr
    else if 12 ≤ k then none
    else if c = '\n' then none
    else scanClose rr (k + 1)

/-- `re.sub(r"^\s*[\[\(\<].{0,12}?[\]\)\>]\s*", "", t)`: strip one leading
bracketed annotation (the `^` anchor allows at most one substitution). -/
def stripLeadBracket (s : List Char) : List Char :=
  let rest := s.dropWhile isPySpace
  match rest with
  | c :: r =>
    if c = '[' || c = '(' || c = '<' then
      match scanClose r 0 with
      | some rem => rem.dropWhile isPySpace
      | none => s
    else s
  | [] => s

/-- Greedy search for the closing character `close` within `limit - k`
further characters, where the body class excludes `close`. -/
def scanStop (close : Char) (limit : Nat) : List Char → Nat → Option (List Char)
  | [], _ => none
  | c :: rr, k =>
    if c = close then some rr
    else if limit ≤ k then none
    else scanStop close limit rr (k + 1)

/-- `re.sub(r"\([^)]{0,24}\)", " ", t)` (and the analogous `[...]` rule):
replace each short parenthesised group by a space. -/
def subGroupsF (openc close : Char) : Nat → List Char → List Char
  | 0, s => s
  | fuel + 1, s =>
    match s with
    | [] => []
    | c :: rest =>
      if c = openc then
        match scanStop close 24 rest 0 with
        | some rem => ' ' :: subGroupsF openc close fuel rem
        | none => c :: subGroupsF openc close fuel rest
      else c :: subGroupsF openc close fuel rest

/-- `[^0-9a-z가-힣\s]` replaced by a space: keep digits, lowercase ASCII,
Hangul syllables and whitespace. -/
def keepOrSpace (c : Char) : Char :=
  if ('0' ≤ c && c ≤ '9') || ('a' ≤ c && c ≤ 'z') ||
      (0xAC00 ≤ c.toNat && c.toNat ≤ 0xD7A3) || isPySpace c then c
  else ' '

/-- `naver_collector._normalize_title_for_similarity`. -/
def normalize_title_for_similarity (title : List Char) : List Char :=
  let t0 := pyLower (strip_html title)
  let t1 := subMarkersF (t0.length + 1) none t0
  let t2 := stripLeadBracket t1
  let t3 := subGroupsF '(' ')' (t2.length + 1) t2
  let t4 := subGroupsF '[' ']' (t3.length + 1) t3
  let t5 := t4.map keepOrSpace
  pyStrip (collapseWs t5)

/-- `naver_collector._title_similarity`: similarity on normalized titles,
`0.0` when either normalization is empty. -/
def naver_title_similarity (a b : String) : Rat :=
  if normalize_title_for_similarity a.toList = [] ∨ normalize_title_for_similarity b.toList = []
  then 0
  else ratioOf (normalize_title_for_similarity a.toList) (normalize_title_for_similarity b.toList)

/-- `naver_collector.NaverNewsItem` (the `datetime` field is an epoch
timestamp in KST, as an integer). -/
structure NaverNewsItem where
  title : String
  description : String
  link : String
  source : String
  published_dt_kst : Int
  rank : Nat
deriving Repr, DecidableEq

/-- `naver_collector.dedupe_by_title_similarity`: greedy keep-first pairwise
dedupe (an item is dropped when it matches any kept representative at or
above the threshold). -/
def dedupe_by_title_similarity (items : List NaverNewsItem)
    (threshold : Rat := mkRat 88 100) : List NaverNewsItem :=
  items.foldl
    (fun kept it =>
      if kept.any (fun k => threshold ≤ naver_title_similarity it.title k.title) then kept
      else kept ++ [it])
    []

/-! ### urllib.parse (CPython 3.11), as used by `utils.normalize_url`

Strings are `List Char`, bytes are `Nat` (< 256).  The two validation
helpers that need Unicode tables or IP-address parsing
(`_check_bracketed_host` and the NFKC check of `_checknetloc`) are oracle
parameters; both normalization passes see the same netloc, so any fixed
oracle makes the two passes agree. -/

/-- UTF-8 encoding of one scalar value (`str.encode('utf-8')`; Lean `Char`
carries no surrogates, so encoding never fails). -/
def utf8EncodeChar (c : Char) : List Nat :=
  let n := c.toNat
  if n < 0x80 then [n]
  else if n < 0x800 then [0xC0 + n / 0x40, 0x80 + n % 0x40]
  else if n < 0x10000 then
    [0xE0 + n / 0x1000, 0x80 + (n / 0x40) % 0x40, 0x80 + n % 0x40]
  else
    [0xF0 + n / 0x40000, 0x80 + (n / 0x1000) % 0x40, 0x80 + (n / 0x40) % 0x40, 0x80 + n % 0x40]

/-- `str.encode('utf-8')`. -/
def utf8Encode (s : List Char) : List Nat :=
  (s.map utf8EncodeChar).flatten

/-- One step of CPython's UTF-8 decoder with `errors='replace'`: decode one
scalar, or consume the maximal subpart of an invalid sequence and produce
U+FFFD. -/
def utf8Step (b : Nat) (rest : List Nat) : Char × List Nat :=
  let repl := Char.ofNat 0xFFFD
  if b < 0x80 then (Char.ofNat b, rest)
  else if b < 0xC2 then (repl, rest)
  else if b < 0xE0 then
    match rest with
    | b2 :: r2 =>
      if 0x80 ≤ b2 ∧ b2 < 0xC0 then (Char.ofNat ((b - 0xC0) * 0x40 + (b2 - 0x80)), r2)
      else (repl, rest)
    | [] => (repl, [])
  else if b < 0xF0 then
    match rest with
    | b2 :: r2 =>
      if (if b = 0xE0 then 0xA0 else 0x80) ≤ b2 ∧ b2 ≤ (if b = 0xED then 0x9F else 0xBF) then
        match r2 with
        | b3 :: r3 =>
          if 0x80 ≤ b3 ∧ b3 < 0xC0 then
            (Char.ofNat ((b - 0xE0) * 0x1000 + (b2 - 0x80) * 0x40 + (b3 - 0x80)), r3)
          else (repl, r2)
        | [] => (repl, [])
      else (repl, rest)
    | [] => (repl, [])
  else if b < 0xF5 then
    match rest with
    | b2 :: r2 =>
      if (if b = 0xF0 then 0x90 else 0x80) ≤ b2 ∧ b2 ≤ (if b = 0xF4 then 0x8F else 0xBF) then
        match r2 with
        | b3 :: r3 =>
          if 0x80 ≤ b3 ∧ b3 < 0xC0 then
            match r3 with
            | b4 :: r4 =>
              if 0x80 ≤ b4 ∧ b4 < 0xC0 then
                (Char.ofNat ((b - 0xF0) * 0x40000 + (b2 - 0x80) * 0x1000 +
                  (b3 - 0x80) * 0x40 + (b4 - 0x80)), r4)
              else (repl, r3)
            | [] => (repl, [])
          else (repl, r2)
        | [] => (repl, [])
      else (repl, rest)
    | [] => (repl, [])
  else (repl, rest)

/-- `bytes.decode('utf-8', 'replace')`, fueled by the byte count (every step
consumes at least one byte). -/
def utf8DecodeReplaceF : Nat → List Nat → List Char
  | 0, _ => []
  | _ + 1, [] => []
  | fuel + 1, b :: rest =>
    let s := utf8Step b rest
    s.1 :: utf8DecodeReplaceF fuel s.2

/-- `bytes.decode('utf-8', 'replace')`. -/
def utf8DecodeReplace (bs : List Nat) : List Char :=
  utf8DecodeReplaceF bs.length bs

/-- `_ALWAYS_SAFE` of urllib.parse, as a byte predicate. -/
def isAlwaysSafe (b : Nat) : Bool :=
  (0x41 ≤ b && b ≤ 0x5A) || (0x61 ≤ b && b ≤ 0x7A) || (0x30 ≤ b && b ≤ 0x39) ||
    b = 0x5F || b = 0x2E || b = 0x2D || b = 0x7E

/-- Upper-case hex digit (`'%{:02X}'`). -/
def hexUpper (n : Nat) : Char :=
  "0123456789ABCDEF".toList.getD n '0'

/-- One byte through `_Quoter.__missing__`: the byte's character when safe,
otherwise `%XX`. -/
def quoteByte (safe : List Nat) (b : Nat) : List Char :=
  if isAlwaysSafe b || safe.contains b then [Char.ofNat b]
  else ['%', hexUpper (b / 16), hexUpper (b % 16)]

/-- `quote_from_bytes(bs, safe)` (its all-safe and empty fast paths return
the same value as the general byte-by-byte path). -/
def quote_from_bytes (bs : List Nat) (safe : List Nat) : List Char :=
  (bs.map (quoteByte safe)).flatten

/-- `quote(string, safe)` for `str` input with UTF-8 encoding. -/
def pyQuote (s : List Char) (safe : List Nat) : List Char :=
  quote_from_bytes (utf8Encode s) safe

/-- `quote_plus(string, safe='')` as used by `urlencode`: when the string
contains a space, quote with space marked safe and then turn spaces into
`+`. -/
def quote_plus (s : List Char) : List Char :=
  if s.contains ' ' then
    (pyQuote s [0x20]).map (fun c => if c = ' ' then '+' else c)
  else pyQuote s []

/-- Hex digit value (`_hextobyte` accepts both cases). -/
def hexVal (c : Char) : Option Nat :=
  let n := c.toNat
  if 0x30 ≤ n ∧ n ≤ 0x39 then some (n - 0x30)
  else if 0x41 ≤ n ∧ n ≤ 0x46 then some (n - 0x41 + 10)
  else if 0x61 ≤ n ∧ n ≤ 0x66 then some (n - 0x61 + 10)
  else none

/-- `unquote_to_bytes` on an ASCII chunk: each `%` followed by two hex
digits becomes a byte; otherwise the `%` stays literal.  Fueled by the
chunk length. -/
def unquoteBytesF : Nat → List Char → List Nat
  | 0, _ => []
  | _ + 1, [] => []
  | fuel + 1, c :: rest =>
    if c = '%' then
      match rest with
      | h1 :: h2 :: r2 =>
        match hexVal h1, hexVal h2 with
        | some v1, some v2 => (v1 * 16 + v2) :: unquoteBytesF fuel r2
        | _, _ => c.toNat :: unquoteBytesF fuel rest
      | _ => c.toNat :: unquoteBytesF fuel rest
    else c.toNat :: unquoteBytesF fuel rest

/-- `unquote(string, 'utf-8', 'replace')`: split into maximal ASCII runs
(non-ASCII characters pass through unchanged, they cannot be part of a `%XX`
escape), percent-decode each run to bytes and UTF-8-decode with replacement.
The `'%' not in string` fast path of CPython returns the string unchanged,
which coincides with this general path.  Fueled by the string length. -/
def pyUnquoteF : Nat → List Char → List Char
  | 0, _ => []
  | _ + 1, [] => []
  | fuel + 1, c :: rest =>
    if c.toNat < 0x80 then
      let chunk := (c :: rest).takeWhile (fun x => decide (x.toNat < 0x80))
      let after := (c :: rest).drop chunk.length
      utf8DecodeReplace (unquoteBytesF chunk.length chunk) ++ pyUnquoteF fuel after
    else c :: pyUnquoteF fuel rest

/-- `unquote(string, 'utf-8', 'replace')`. -/
def pyUnquote (s : List Char) : List Char :=
  pyUnquoteF s.length s

/-- Python `str.split(sep)` for a one-character separator (keeps empty
pieces). -/
def splitOnChar (sep : Char) : List Char → List (List Char)
  | [] => [[]]
  | c :: rest =>
    let r := splitOnChar sep rest
    if c = sep then [] :: r
    else
      match r with
      | h :: t => (c :: h) :: t
      | [] => [[c]]

/-- Python `s.split(sep, 1)` collapsed with the `keep_blank_values=True`
handling of `parse_qsl`: the part before the first separator and the part
after it (empty when the separator is absent). -/
def splitOnceAt (ch : Char) : List Char → List Char × List Char
  | [] => ([], [])
  | c :: rest =>
    if c = ch then ([], rest)
    else
      let r := splitOnceAt ch rest
      (c :: r.1, r.2)

/-- `'+'` to `' '` (the `nv.replace('+', ' ')` step of `parse_qsl`). -/
def replacePlus (s : List Char) : List Char :=
  s.map (fun c => if c = '+' then ' ' else c)

/-- `parse_qsl(qs, keep_blank_values=True)` (CPython 3.11: split on `&`,
skip empty fields, a field without `=` becomes a blank value, both sides
`+`-restored and percent-decoded). -/
def parse_qsl (qs : List Char) : List (List Char × List Char) :=
  let pairs := if qs = [] then [] else splitOnChar '&' qs
  pairs.foldl
    (fun r nv =>
      if nv = [] then r
      else
        let s := splitOnceAt '=' nv
        r ++ [(pyUnquote (replacePlus s.1), pyUnquote (replacePlus s.2))])
    []

/-- `urlencode(q, doseq=True)` over string pairs: `quote_plus` each side and
join with `&` (with string values, `doseq` behaves as the plain path). -/
def urlencode (q : List (List Char × List Char)) : List Char :=
  List.intercalate ['&'] (q.map (fun kv => quote_plus kv.1 ++ '=' :: quote_plus kv.2))

/-- Valid scheme characters (`scheme_chars`). -/
def isSchemeChar (c : Char) : Bool :=
  ('a' ≤ c && c ≤ 'z') || ('A' ≤ c && c ≤ 'Z') || ('0' ≤ c && c ≤ '9') ||
    c = '+' || c = '-' || c = '.'

/-- ASCII alphabetic (`url[0].isascii() and url[0].isalpha()`). -/
def isAsciiAlpha (c : Char) : Bool :=
  ('a' ≤ c && c ≤ 'z') || ('A' ≤ c && c ≤ 'Z')

/-- `_WHATWG_C0_CONTROL_OR_SPACE` membership. -/
def isC0OrSpace (c : Char) : Bool :=
  c.toNat ≤ 0x20

/-- The `urlsplit` result. -/
structure SplitResult where
  scheme : List Char
  netloc : List Char
  path : List Char
  query : List Char
  fragment : List Char
deriving Repr, DecidableEq

/-- `uses_netloc` (CPython 3.11). -/
def uses_netloc : List (List Char) :=
  ["".toList, "ftp".toList, "http".toList, "gopher".toList, "nntp".toList, "telnet".toList,
   "imap".toList, "wais".toList, "file".toList, "mms".toList, "https".toList, "shttp".toList,
   "snews".toList, "prospero".toList, "rtsp".toList, "rtsps".toList, "rtspu".toList,
   "rsync".toList, "svn".toList, "svn+ssh".toList, "sftp".toList, "nfs".toList, "git".toList,
   "git+ssh".toList, "ws".toList, "wss".toList]

/-- `uses_params` (CPython 3.11). -/
def uses_params : List (List Char) :=
  ["".toList, "ftp".toList, "hdl".toList, "prospero".toList, "http".toList, "imap".toList,
   "https".toList, "shttp".toList, "rtsp".toList, "rtsps".toList, "rtspu".toList, "sip".toList,
   "sips".toList, "mms".toList, "sftp".toList, "tel".toList]

/-- The text between the first `[` and the following first `]` of the
netloc (`netloc.partition('[')[2].partition(']')[0]`). -/
def bracketedHostOf (netloc : List Char) : List Char :=
  ((splitOnceAt '[' netloc).2.takeWhile (fun c => decide (c ≠ ']')))

/-- `urlsplit(url)` (CPython 3.11, `allow_fragments=True`, default scheme
`''`): lstrip C0-control/space, remove tab/CR/LF, split off a valid scheme,
then `//netloc` (with bracket and NFKC validation, the latter two through
the oracles), then fragment, then query.  `Except` models `ValueError`.
`netlocChar` is the `_splitnetloc` delimiter test (stop at `/`, `?` or
`#`). -/
def netlocChar (c : Char) : Bool :=
  !(c = '/' || c = '?' || c = '#')

/-- See `netlocChar` above: `urlsplit` itself. -/
def urlsplitE (bracketOk netlocOk : List Char → Bool) (url0 : List Char) :
    Except Unit SplitResult :=
  let url1 := (url0.dropWhile isC0OrSpace).filter
    (fun c => !(c = '\t' || c = '\r' || c = '\n'))
  let sr :=
    match url1.findIdx? (fun c => c = ':') with
    | some i =>
      if 0 < i ∧ isAsciiAlpha (charAt url1 0) ∧ (url1.take i).all isSchemeChar then
        (pyLower (url1.take i), url1.drop (i + 1))
      else (([] : List Char), url1)
    | none => (([] : List Char), url1)
  let nr :=
    if sr.2.take 2 = ['/', '/'] then
      ((sr.2.drop 2).takeWhile netlocChar,
        (sr.2.drop 2).drop ((sr.2.drop 2).takeWhile netlocChar).length)
    else (([] : List Char), sr.2)
  let netloc := nr.1
  if ('[' ∈ netloc ∧ ']' ∉ netloc) ∨ (']' ∈ netloc ∧ '[' ∉ netloc) then
    Except.error ()
  else if '[' ∈ netloc ∧ ']' ∈ netloc ∧ ¬ bracketOk (bracketedHostOf netloc) then
    Except.error ()
  else
    let fr := if '#' ∈ nr.2 then splitOnceAt '#' nr.2 else (nr.2, ([] : List Char))
    let qr := if '?' ∈ fr.1 then splitOnceAt '?' fr.1 else (fr.1, ([] : List Char))
    if netloc ≠ [] ∧ ¬ netloc.all (fun c => decide (c.toNat < 0x80)) ∧ ¬ netlocOk netloc then
      Except.error ()
    else Except.ok (SplitResult.mk sr.1 netloc qr.1 qr.2 fr.2)

/-- The `urlparse` result. -/
structure ParseResult where
  scheme : List Char
  netloc : List Char
  path : List Char
  params : List Char
  query : List Char
  fragment : List Char
deriving Repr, DecidableEq

/-- The last path segment (the text after the last `/`), used by
`_splitparams`. -/
def lastSeg (p : List Char) : List Char :=
  (p.reverse.takeWhile (fun c => decide (c ≠ '/'))).reverse

/-- See `lastSeg`: the segment after the last `/` (`url.find(';',
url.rfind('/'))` searches only there). -/
def splitparams (p : List Char) : List Char × List Char :=
  if '/' ∈ p then
    if ';' ∈ lastSeg p then
      (p.take (p.length - (lastSeg p).length) ++ (splitOnceAt ';' (lastSeg p)).1,
        (splitOnceAt ';' (lastSeg p)).2)
    else (p, [])
  else
    ((splitOnceAt ';' p).1, (splitOnceAt ';' p).2)

/-- `urlparse(url)`: `urlsplit` plus the params split for schemes in
`uses_params`. -/
def urlparseE (bracketOk netlocOk : List Char → Bool) (url : List Char) :
    Except Unit ParseResult :=
  match urlsplitE bracketOk netlocOk url with
  | .error e => .error e
  | .ok sp =>
    if uses_params.contains sp.scheme ∧ ';' ∈ sp.path then
      .ok (ParseResult.mk sp.scheme sp.netloc (splitparams sp.path).1 (splitparams sp.path).2
        sp.query sp.fragment)
    else .ok (ParseResult.mk sp.scheme sp.netloc sp.path [] sp.query sp.fragment)

/-- `urlunsplit(components)` (CPython 3.11: `//` is re-added when there is a
netloc, or when the scheme is a netloc-using scheme and the path does not
already start with `//`). -/
def urlunsplit (scheme netloc path query fragment : List Char) : List Char :=
  let u1 :=
    if netloc ≠ [] ∨ (scheme ≠ [] ∧ uses_netloc.contains scheme ∧ path.take 2 ≠ ['/', '/'])
    then
      let p := if path ≠ [] ∧ path.take 1 ≠ ['/'] then '/' :: path else path
      '/' :: '/' :: (netloc ++ p)
    else path
  let u2 := if scheme ≠ [] then scheme ++ ':' :: u1 else u1
  let u3 := if query ≠ [] then u2 ++ '?' :: query else u2
  if fragment ≠ [] then u3 ++ '#' :: fragment else u3

/-- `urlunparse(components)`. -/
def urlunparse (pr : ParseResult) : List Char :=
  urlunsplit pr.scheme pr.netloc
    (if pr.params ≠ [] then pr.path ++ ';' :: pr.params else pr.path)
    pr.query pr.fragment

/-- The tracking keys dropped by `utils.normalize_url`. -/
def isTrackingKey (k : List Char) : Bool :=
  "utm_".toList.isPrefixOf (pyLower k) ||
    pyLower k = "fbclid".toList || pyLower k = "gclid".toList ||
    pyLower k = "mc_cid".toList || pyLower k = "mc_eid".toList

/-- `utils.normalize_url`: parse, drop tracking query parameters, re-encode
the query and unparse; any `ValueError` from parsing returns the input
unchanged (`except Exception: return url`). -/
def normalize_url (bracketOk netlocOk : List Char → Bool) (url : List Char) : List Char :=
  if url = [] then url
  else
    match urlparseE bracketOk netlocOk url with
    | .error _ => url
    | .ok p =>
      let q := (parse_qsl p.query).filter (fun kv => !isTrackingKey kv.1)
      let newQuery := urlencode q
      urlunparse (ParseResult.mk p.scheme p.netloc p.path p.params newQuery p.fragment)

/-! ### dedupe.py: `dedupe_items` -/

/-- An input item of `dedupe_items` (a run.py dict): the fields the function
reads, plus an opaque payload for the remaining keys. -/
structure RawItem where
  title : List Char
  link : List Char
  payload : Nat
deriving Repr, DecidableEq

/-- An item after `dedupe_items` has normalized its link and attached
`related_links`. -/
structure DedupedItem where
  title : List Char
  link : List Char
  related_links : List (List Char)
  payload : Nat
deriving Repr, DecidableEq

/-- The fields of an item that `dedupe_items` never mutates after the
normalization pass. -/
def itemBase (d : DedupedItem) : List Char × List Char × Nat :=
  (d.title, d.link, d.payload)

/-- The inner `for k in kept` loop of `dedupe_items`: find the first kept
representative whose title is similar enough, update its `related_links`
under the source's guards, and report whether a merge happened. -/
def mergeInto (thr : Rat) (it : DedupedItem) : List DedupedItem → List DedupedItem × Bool
  | [] => ([], false)
  | k :: rest =>
    if thr ≤ title_similarity (String.mk it.title) (String.mk k.title) then
      ((DedupedItem.mk k.title k.link
        (if it.link ≠ [] ∧ it.link ≠ k.link ∧ k.related_links.length < 2 ∧
            it.link ∉ k.related_links
         then k.related_links ++ [it.link] else k.related_links) k.payload) :: rest, true)
    else
      let r := mergeInto thr it rest
      (k :: r.1, r.2)

/-- One iteration of the outer `for it in items` loop of `dedupe_items`. -/
def dedupeStep (thr : Rat) (kept : List DedupedItem) (it : DedupedItem) : List DedupedItem :=
  let r := mergeInto thr it kept
  if r.2 then r.1 else r.1 ++ [it]

/-- `dedupe.dedupe_items(raw_items, sim_threshold)`: normalize every link
(`it.get("link", "")` is the empty string for a missing key), start every
item with empty `related_links`, then greedily merge near-duplicate titles
into the first similar kept representative.  The caller in run.py passes
`sim_threshold=0.88`, i.e. `mkRat 88 100`. -/
def dedupe_items (bk nk : List Char → Bool) (raw : List RawItem) (thr : Rat) :
    List DedupedItem :=
  let items := raw.map (fun it =>
    DedupedItem.mk it.title (normalize_url bk nk it.link) [] it.payload)
  items.foldl (dedupeStep thr) []

/-- The per-representative invariant of claim C10: at most two related
links, pairwise distinct, non-empty, and none equal to the
representative's own (normalized) link. -/
def RelLinksOk (d : DedupedItem) : Prop :=
  d.related_links.length ≤ 2 ∧ d.related_links.Nodup ∧
    ∀ l ∈ d.related_links, l ≠ [] ∧ l ≠ d.link

/-! ### collector.py: `_fetch_url` and `collect_from_rss`

Network, feedparser and dateutil are external collaborators, passed in as
oracles.  `bytes` fetch results are opaque tokens (`Nat`). -/

/-- The outcome of one `requests.get` call inside `_fetch_url`: a transport
exception, or a response with a status code and (opaque) body. -/
inductive FetchOutcome where
  | transportError : FetchOutcome
  | response (status : Nat) (content : Nat) : FetchOutcome
deriving Repr, DecidableEq

/-- The `try` body of one `_fetch_url` attempt: `None` when the attempt
raises (a transport error, or the `raise RuntimeError` on status ≥ 400),
otherwise the body. -/
def fetchAttempt (o : FetchOutcome) : Option Nat :=
  match o with
  | .transportError => none
  | .response st c => if 400 ≤ st then none else some c

/-- The `for attempt in range(retries + 1)` loop of `_fetch_url`, structural
on the number of remaining attempts. -/
def fetchLoop (attempts : Nat → FetchOutcome) : Nat → Nat → Option Nat
  | _, 0 => none
  | attempt, remaining + 1 =>
    match fetchAttempt (attempts attempt) with
    | some c => some c
    | none => fetchLoop attempts (attempt + 1) remaining

/-- `collector._fetch_url(url, ..., retries)`: first successful attempt's
body, `None` after all `retries + 1` attempts fail. -/
def fetch_url (attempts : Nat → FetchOutcome) (retries : Nat) : Option Nat :=
  fetchLoop attempts 0 (retries + 1)

/-- A feedparser entry, reduced to the fields `collect_from_rss` reads
(absent keys are the empty string; `source` is the publisher title CPython
extracts from a dict or string field, `none` when absent). -/
structure RssEntry where
  title : List Char
  link : List Char
  summary : List Char
  description : List Char
  source : Option (List Char)
deriving Repr, DecidableEq

/-- An output dict of `collect_from_rss`. -/
structure RssItem where
  title : List Char
  published_at : List Char
  source : List Char
  link : List Char
  description : List Char
deriving Repr, DecidableEq

/-- The index of the last occurrence of `" - "` (Python `rsplit(" - ", 1)`
splits there; `none` means `" - " not in title`). -/
def lastSepIdx (t : List Char) : Option Nat :=
  ((List.range t.length).filter (fun i => " - ".toList.isPrefixOf (t.drop i))).getLast?

/-- `collector._extract_publisher_from_google_news` on the publisher field
and the (already stripped) title. -/
def extract_publisher (src : Option (List Char)) (title : List Char) :
    List Char × Option (List Char) :=
  let publisher0 : Option (List Char) :=
    match src with
    | some s => let t := pyStrip s; if t = [] then none else some t
    | none => none
  match lastSepIdx title with
  | none => (title, publisher0)
  | some i =>
    let base := title.take i
    let tail := pyStrip (title.drop (i + 3))
    if 2 ≤ tail.length ∧ tail.length ≤ 60 then
      let publisher := match publisher0 with | none => tail | some p => p
      if tail = publisher ∧ pyStrip base ≠ [] then (pyStrip base, some publisher)
      else (title, some publisher)
    else (title, publisher0)

/-- `collector.collect_from_rss(url, source_name, target_date)`:
`_fetch_url` with `retries=2`; on `None` return `[]`, otherwise process the
parsed entries in order.  `feedEntries` stands for
`feedparser.parse(content).entries`, `parseDate` for `_parse_date`
(dateutil) and `toKstDate` for `_to_kst_date_str`. -/
def collect_from_rss (attempts : Nat → FetchOutcome)
    (feedEntries : Nat → List RssEntry) (parseDate : RssEntry → Option Int)
    (toKstDate : Int → List Char) (bk nk : List Char → Bool)
    (source_name : List Char) (target_date : List Char) : List RssItem :=
  match fetch_url attempts 2 with
  | none => []
  | some content =>
    (feedEntries content).foldl
      (fun out e =>
        let title0 := pyStrip e.title
        let link := normalize_url bk nk (pyStrip e.link)
        match parseDate e with
        | none => out
        | some dt =>
          let published_at := toKstDate dt
          if published_at ≠ target_date then out
          else
            let description :=
              collapseWs (pyStrip (if e.summary ≠ [] then e.summary else e.description))
            let tp :=
              if "google news".toList.isPrefixOf (pyLower source_name) then
                extract_publisher e.source title0
              else (title0, none)
            let real_source := match tp.2 with | some p => p | none => source_name
            out ++ [RssItem.mk tp.1 published_at real_source link description])
      []

/-! ### naver_collector.py: `collect_naver_last24h`

The Naver API (`requests.get` + `r.json()`) is an oracle from
`(start, display)` to a status code and raw items; `_parse_pubdate_kst`
(dateutil + timezone conversion) is an oracle to an epoch timestamp in
seconds.  A raised `RuntimeError` is `Except.error`. -/

/-- A raw item of the Naver API response. -/
structure NaverRawItem where
  pubDate : List Char
  title : List Char
  description : List Char
  originallink : List Char
  link : List Char
deriving Repr, DecidableEq

/-- One page of the Naver API: HTTP status and items (absent/empty `items`
is `[]`). -/
structure NaverApiResp where
  status : Nat
  items : List NaverRawItem
deriving Repr, DecidableEq

/-- `naver_collector._clean_title_tail_publisher`. -/
def clean_title_tail_publisher (title : List Char) : List Char × Option (List Char) :=
  match lastSepIdx title with
  | none => (pyStrip title, none)
  | some i =>
    let base := pyStrip (title.take i)
    let tail := pyStrip (title.drop (i + 3))
    if base ≠ [] ∧ 2 ≤ tail.length ∧ tail.length ≤ 60 then (base, some tail)
    else (pyStrip title, none)

/-- `naver_collector._domain`: the netloc of `urlparse(url)`, `""` when
parsing raises. -/
def domainOf (bk nk : List Char → Bool) (url : List Char) : List Char :=
  match urlsplitE bk nk url with
  | .error _ => []
  | .ok sp => sp.netloc

/-- The mutable state of the collection loops of `collect_naver_last24h`. -/
structure NaverScan where
  out : List NaverNewsItem
  seen : List (List Char)
  rank : Nat
  older : Bool
deriving Repr

/-- Build one collected `NaverNewsItem`: cleaned title, stripped
description, origin link, source fallback chain
`tail_pub or _domain(origin) or "NAVER"`. -/
def naverBuildItem (bk nk : List Char → Bool) (titleRaw descRaw origin : List Char)
    (pub : Int) (rank : Nat) : NaverNewsItem :=
  let ct := clean_title_tail_publisher (strip_html titleRaw)
  let src :=
    match ct.2 with
    | some t => t
    | none =>
      let d := domainOf bk nk origin
      if d ≠ [] then d else "NAVER".toList
  NaverNewsItem.mk (String.mk ct.1) (String.mk (strip_html descRaw)) (String.mk origin)
    (String.mk src) pub rank

/-- The `for it in items` loop of `collect_naver_last24h`: skip unparseable
dates, flag and skip items older than the cutoff, skip empty or
already-seen origin links, build the item, and stop at `max_fetch`. -/
def naverItemsLoop (parsePub : List Char → Option Int) (bk nk : List Char → Bool)
    (cutoff : Int) (max_fetch : Nat) : List NaverRawItem → NaverScan → NaverScan
  | [], s => s
  | it :: rest, s =>
    match parsePub it.pubDate with
    | none => naverItemsLoop parsePub bk nk cutoff max_fetch rest s
    | some pub =>
      if pub < cutoff then
        naverItemsLoop parsePub bk nk cutoff max_fetch rest (NaverScan.mk s.out s.seen s.rank true)
      else
        let origin := pyStrip (if it.originallink ≠ [] then it.originallink else it.link)
        if origin = [] then naverItemsLoop parsePub bk nk cutoff max_fetch rest s
        else if origin ∈ s.seen then naverItemsLoop parsePub bk nk cutoff max_fetch rest s
        else
          let item := naverBuildItem bk nk it.title it.description origin pub s.rank
          let s' := NaverScan.mk (s.out ++ [item]) (origin :: s.seen) (s.rank + 1) s.older
          if max_fetch ≤ s'.out.length then s'
          else naverItemsLoop parsePub bk nk cutoff max_fetch rest s'

/-- The `while start <= 1000 and len(out) < max_fetch` loop of
`collect_naver_last24h`, structural on a fuel that dominates the at most 10
iterations (`start` grows by 100 from 1). -/
def naverPageLoop (api : Nat → Nat → NaverApiResp) (parsePub : List Char → Option Int)
    (bk nk : List Char → Bool) (cutoff : Int) (max_fetch : Nat) (sortDate : Bool) :
    Nat → Nat → NaverScan → Except Unit (List NaverNewsItem)
  | 0, _, s => Except.ok s.out
  | fuel + 1, start, s =>
    if start ≤ 1000 ∧ s.out.length < max_fetch then
      let display := min 100 (max_fetch - s.out.length)
      let r := api start display
      if 400 ≤ r.status then Except.error ()
      else if r.items = [] then Except.ok s.out
      else
        let st := naverItemsLoop parsePub bk nk cutoff max_fetch r.items
          (NaverScan.mk s.out s.seen s.rank false)
        if sortDate ∧ st.older then Except.ok st.out
        else naverPageLoop api parsePub bk nk cutoff max_fetch sortDate fuel (start + 100) st
    else Except.ok s.out

/-- `naver_collector.collect_naver_last24h`: cutoff is 24 hours (86400 s)
before `now`; the loop starts at page offset 1 with everything empty.
`sortDate` is `sort == "date"` (the default). -/
def collect_naver_last24h (api : Nat → Nat → NaverApiResp)
    (parsePub : List Char → Option Int) (bk nk : List Char → Bool)
    (now : Int) (max_fetch : Nat) (sortDate : Bool) : Except Unit (List NaverNewsItem) :=
  naverPageLoop api parsePub bk nk (now - 86400) max_fetch sortDate 11 1
    (NaverScan.mk [] [] 0 false)

/-- A fresh (within-24h) raw item for the C5 scenario, with a distinct
link. -/
def C5_rawFresh (i : Nat) : NaverRawItem :=
  NaverRawItem.mk "new".toList "t".toList "d".toList ('l' :: Nat.toDigits 10 i) []

/-- A stale (25+ hours old) raw item for the C5 scenario. -/
def C5_rawOld (i : Nat) : NaverRawItem :=
  NaverRawItem.mk "old".toList "t".toList "d".toList ('l' :: Nat.toDigits 10 i) []

/-- The C5 scenario API: newest-first pages of 150 candidates, the last 10
of which are stale. -/
def C5_api (start _display : Nat) : NaverApiResp :=
  if start = 1 then NaverApiResp.mk 200 ((List.range 100).map C5_rawFresh)
  else if start = 101 then
    NaverApiResp.mk 200
      ((List.range' 100 50).map (fun i => if 140 ≤ i then C5_rawOld i else C5_rawFresh i))
  else NaverApiResp.mk 200 []

/-- The C5 scenario date parser: stale items are 25 hours old, fresh items
100 seconds old, relative to `now = 0`. -/
def C5_parsePub (s : List Char) : Option Int :=
  if s = "old".toList then some (-90000) else some (-100)

/-! ### naver_collector.py: importance scoring and top-k selection -/

/-- Python `pat in s` for strings: contiguous substring test. -/
def isSubstring (pat s : List Char) : Bool :=
  (List.range (s.length + 1)).any (fun i => pat.isPrefixOf (s.drop i))

/-- The `high` keyword list of `heuristic_importance_scores`. -/
def high_keywords : List (List Char) :=
  (["투자", "조원", "억원", "수주", "공급", "계약", "협약", "mou", "deal", "agreement",
    "증설", "공장", "양산", "생산", "캐파", "capacity", "plant", "gigafactory",
    "규제", "관세", "보조금", "정책", "ira", "eu", "battery regulation",
    "리콜", "화재", "사고", "안전",
    "전고체", "나트륨", "solid-state", "sodium-ion", "breakthrough",
    "실적", "매출", "영업이익", "earnings", "profit",
    "m&a", "인수", "합병"] : List String).map String.toList

/-- The `mid` keyword list of `heuristic_importance_scores`. -/
def mid_keywords : List (List Char) :=
  (["출시", "개발", "연구", "협력", "파트너", "파트너십", "pilot", "prototype"] :
    List String).map String.toList

/-- `naver_collector.heuristic_importance_scores`: 10 base, +10 per matching
high keyword, +4 per matching mid keyword, clamped at 100, over the
lowercased title. -/
def heuristic_importance_scores (items : List NaverNewsItem) : List Int :=
  items.map (fun it =>
    let t := pyLower it.title.toList
    let s : Int := 10 +
      10 * ((high_keywords.filter (fun k => isSubstring (pyLower k) t)).length : Int) +
      4 * ((mid_keywords.filter (fun k => isSubstring (pyLower k) t)).length : Int)
    min 100 s)

/-- A placeholder item for (always in-bounds) `items[idx]` reads. -/
def defaultNaverItem : NaverNewsItem :=
  NaverNewsItem.mk "" "" "" "" 0 0

/-- The mapping a parsed `ImportanceResp` builds: `mapping[int(sc.index)] =
int(sc.score)` in order, so the last binding of a key wins. -/
def lookupLastD (m : List (Int × Int)) (i : Int) : Option Int :=
  (m.reverse.find? (fun p => p.1 == i)).map (fun p => p.2)

/-- The `for attempt in range(retries + 1)` retry loop around
`_llm_score_chunk`: the first attempt that does not raise, else `None`. -/
def firstSome {α : Type} (f : Nat → Option α) : Nat → Nat → Option α
  | _, 0 => none
  | a, r + 1 =>
    match f a with
    | some v => some v
    | none => firstSome f (a + 1) r

/-- Python `range(0, n, cs)` for `cs > 0` (the chunk start offsets). -/
def chunkStarts (n cs : Nat) : List Nat :=
  (List.range ((n + cs - 1) / cs)).map (fun k => k * cs)

/-- The per-chunk score writes of `score_importance_by_llm`: on a failed
chunk (`mapping is None`) the chunk's heuristic scores, otherwise the
returned score per index with an individual heuristic fallback for missing
indices. -/
def writeChunkScores (items : List NaverNewsItem) (start : Nat)
    (chunk : List NaverNewsItem) (mres : Option (List (Int × Int)))
    (sc : List Int) : List Int :=
  match mres with
  | none =>
    let hs := heuristic_importance_scores chunk
    (List.range chunk.length).foldl (fun s i => s.set (start + i) (hs.getD i 0)) sc
  | some m =>
    (List.range chunk.length).foldl
      (fun s i =>
        match lookupLastD m (Int.ofNat (start + i)) with
        | some v => s.set (start + i) v
        | none =>
          s.set (start + i)
            ((heuristic_importance_scores [items.getD (start + i) defaultNaverItem]).headD 0))
      sc

/-- The value `score_importance_by_llm` assigns to position `start + i` of
a chunk (read off the branches of `writeChunkScores`). -/
def chunkValue (items : List NaverNewsItem) (start : Nat)
    (chunk : List NaverNewsItem) (mres : Option (List (Int × Int))) (i : Nat) : Int :=
  match mres with
  | none => (heuristic_importance_scores chunk).getD i 0
  | some m =>
    match lookupLastD m (Int.ofNat (start + i)) with
    | some v => v
    | none => (heuristic_importance_scores [items.getD (start + i) defaultNaverItem]).headD 0

/-- `naver_collector.score_importance_by_llm`: heuristic scores when no API
key is set; otherwise a zero-initialised score array written chunk by chunk.
`hasKey` is `bool(GEMINI_API_KEY)`, `llm start attempt` the outcome of
`_llm_score_chunk` for the chunk at `start` on a given attempt (`none` =
raised), `retries` is `LLM_IMPORTANCE_RETRIES`.  Python raises `ValueError`
on `chunk_size <= 0` (`range` with step 0), so claims assume
`0 < chunk_size`. -/
def score_importance_by_llm (hasKey : Bool) (llm : Nat → Nat → Option (List (Int × Int)))
    (retries : Nat) (items : List NaverNewsItem) (chunk_size : Nat) : List Int :=
  if hasKey = false then heuristic_importance_scores items
  else
    (chunkStarts items.length chunk_size).foldl
      (fun sc start =>
        writeChunkScores items start ((items.drop start).take chunk_size)
          (firstSome (llm start) 0 (retries + 1)) sc)
      (items.map (fun _ => 0))

/-- The sort key of the top-k step:
`idxs.sort(key=lambda i: (-scores[i], deduped[i].rank))`. -/
def selKey (deduped : List NaverNewsItem) (scores : List Int) (i : Nat) : Int × Int :=
  (-(scores.getD i 0), ((deduped.getD i defaultNaverItem).rank : Int))

/-- Non-strict lexicographic order on pairs (the comparison under a stable
sort by key). -/
def lexLe2 (x y : Int × Int) : Bool :=
  decide (x.1 < y.1) || (decide (x.1 = y.1) && decide (x.2 ≤ y.2))

/-- The top-k selection step of
`collect_naver_top15_last24h_deduped_and_ranked`: index sort (Python's
stable sort by key equals insertion sort on the non-strict key order),
truncation to `top_k`, and aligned item/score projection. -/
def topkSelect (deduped : List NaverNewsItem) (scores : List Int) (top_k : Nat) :
    List NaverNewsItem × List Int :=
  let idxs := List.range deduped.length
  let sorted := List.insertionSort
    (fun i j => lexLe2 (selKey deduped scores i) (selKey deduped scores j) = true) idxs
  let picked := sorted.take top_k
  (picked.map (fun i => deduped.getD i defaultNaverItem),
    picked.map (fun i => scores.getD i 0))

/-! ### run.py steps 4-5 with tagger.py and ranker.py: the final selection -/

/-- The `CATEGORIES` table of tagger.py. -/
def CATEGORIES : List (List Char × List (List Char)) :=
  [("cathode".toList, (["cathode", "양극", "양극재", "ncm", "lfp", "lco", "nca", "nickel",
      "망간", "코발트", "철인산"] : List String).map String.toList),
   ("anode".toList, (["anode", "음극", "음극재", "silicon", "graphite", "흑연", "실리콘"] :
      List String).map String.toList),
   ("electrolyte".toList, (["electrolyte", "전해질", "liquid electrolyte", "salt", "염",
      "additive", "첨가제"] : List String).map String.toList),
   ("separator".toList, (["separator", "분리막", "membrane"] : List String).map String.toList),
   ("전고체".toList, (["solid-state", "all-solid-state", "전고체", "고체전해질", "sulfide",
      "oxide", "polymer"] : List String).map String.toList),
   ("나트륨".toList, (["sodium-ion", "나트륨", "na-ion", "na ion"] : List String).map
      String.toList),
   ("재활용".toList, (["recycling", "recycle", "재활용", "black mass", "블랙매스",
      "hydrometallurgy", "pyrometallurgy"] : List String).map String.toList),
   ("장비".toList, (["equipment", "장비", "coater", "캘린더", "dry electrode", "건식",
      "formation", "조립", "코팅"] : List String).map String.toList),
   ("정책".toList, (["policy", "regulation", "규제", "subsidy", "보조금", "ira", "crma",
      "cbam", "tariff", "관세"] : List String).map String.toList)]

/-- `tagger.classify_category`: first category whose keyword list hits the
lowercased `f"{title} {description}"`, else `"기타"`. -/
def classify_category (title description : List Char) : List Char :=
  let text := pyLower (title ++ ' ' :: description)
  match CATEGORIES.find? (fun ck => ck.2.any (fun k => isSubstring (pyLower k) text)) with
  | some ck => ck.1
  | none => "기타".toList

/-- The line loop of `tagger.extract_companies` (skip blank and `#` lines,
add a lowercased-substring hit once, stop once `max_n` found). -/
def extractCompaniesGo (text : List Char) (max_n : Nat) :
    List (List Char) → List (List Char) → List (List Char)
  | [], found => found
  | line :: rest, found =>
    let name := pyStrip line
    if name = [] ∨ name.take 1 = ['#'] then extractCompaniesGo text max_n rest found
    else
      let found' :=
        if isSubstring (pyLower name) text ∧ name ∉ found then found ++ [name] else found
      if max_n ≤ found'.length then found'
      else extractCompaniesGo text max_n rest found'

/-- `tagger.extract_companies`: `none` for a missing `config/companies.txt`
(returns `[]`), otherwise its lines. -/
def extract_companies (companiesFile : Option (List (List Char)))
    (title description : List Char) (max_n : Nat) : List (List Char) :=
  match companiesFile with
  | none => []
  | some lines => extractCompaniesGo (pyLower (title ++ ' ' :: description)) max_n lines []

/-- `utils.domain_of`: the lowercased netloc, `""` when parsing raises. -/
def domain_of (bk nk : List Char → Bool) (url : List Char) : List Char :=
  pyLower (domainOf bk nk url)

/-- `ranker.infer_tier`: first configured tier one of whose domain patterns
is a (lowercased) substring of the link's domain, else 3.  `tiers` is
`sources_config["tiers"]` in dict order. -/
def infer_tier (bk nk : List Char → Bool) (tiers : List (Int × List (List Char)))
    (link : List Char) : Int :=
  let d := domain_of bk nk link
  match tiers.find? (fun tc => tc.2.any (fun pat => isSubstring (pyLower pat) d)) with
  | some tc => tc.1
  | none => 3

/-- `ranker.popularity_signal_from_source`. -/
def popularity_signal_from_source (source_name : List Char) : List Char :=
  let s := pyLower source_name
  if isSubstring "most read".toList s || isSubstring "mostread".toList s then
    "most_read".toList
  else if isSubstring "trending".toList s || isSubstring "popular".toList s ||
      isSubstring "top".toList s then
    "trending".toList
  else "unknown".toList

/-- A merged, deduped item entering run.py step 4 (the dict fields steps
4-5 read; `popularity_signal` is `some` when already set, making
`setdefault` a no-op). -/
structure RunItem where
  title : List Char
  description : List Char
  link : List Char
  source : List Char
  monitor_score : Int
  battery_relevance : Option Int
  popularity_signal : Option (List Char)
deriving Repr, DecidableEq

/-- An item after run.py step 4's annotations. -/
structure AnnItem where
  base : RunItem
  tier : Int
  category : List Char
  companies : List (List Char)
  pop_signal : List Char
deriving Repr, DecidableEq

/-- Step 4 of `run.main` for one item: tier, category, companies, and the
`setdefault` of `popularity_signal`. -/
def annotateItem (bk nk : List Char → Bool) (tiers : List (Int × List (List Char)))
    (companiesFile : Option (List (List Char))) (it : RunItem) : AnnItem :=
  AnnItem.mk it (infer_tier bk nk tiers it.link)
    (classify_category it.title it.description)
    (extract_companies companiesFile it.title it.description 3)
    (match it.popularity_signal with
     | some p => p
     | none => popularity_signal_from_source it.source)

/-- `_sort_key` of `run.main` step 5: `(tier, -monitor_score, -relevance)`
with a `None` relevance read as 0. -/
def runSortKey (a : AnnItem) : Int × Int × Int :=
  (a.tier, -a.base.monitor_score,
    -(match a.base.battery_relevance with | some r => r | none => 0))

/-- Non-strict lexicographic order on triples. -/
def lexLe3 (x y : Int × Int × Int) : Bool :=
  decide (x.1 < y.1) ||
    (decide (x.1 = y.1) &&
      (decide (x.2.1 < y.2.1) || (decide (x.2.1 = y.2.1) && decide (x.2.2 ≤ y.2.2))))

/-- Steps 4-5 of `run.main` on the merged, deduped list: annotate every
item, stable-sort by `_sort_key` (Python's stable sort by key equals
insertion sort on the non-strict key order), truncate to `max_items`.  No
diversity filtering of any kind occurs. -/
def select_final (bk nk : List Char → Bool) (tiers : List (Int × List (List Char)))
    (companiesFile : Option (List (List Char))) (raws : List RunItem)
    (max_items : Nat) : List AnnItem :=
  let ann := raws.map (annotateItem bk nk tiers companiesFile)
  (List.insertionSort (fun a b => lexLe3 (runSortKey a) (runSortKey b) = true) ann).take
    max_items

/-- Four distinct final-stage items all naming the same company and all in
the same category (for the C2 counterexample). -/
def C2_items : List RunItem :=
  [RunItem.mk "삼성SDI 양극재 공급 계약 체결".toList [] "http://a.example".toList "s".toList
     90 none none,
   RunItem.mk "삼성SDI 양극재 신공장 착공".toList [] "http://b.example".toList "s".toList
     80 none none,
   RunItem.mk "삼성SDI 양극재 증설 발표".toList [] "http://c.example".toList "s".toList
     70 none none,
   RunItem.mk "삼성SDI 양극재 수주 확대".toList [] "http://d.example".toList "s".toList
     60 none none]

/-- The companies file of the C2 counterexample. -/
def C2_companies : List (List Char) :=
  ["삼성SDI".toList]

/-- Four concrete items exhibiting non-monotonicity of the pairwise dedupe
in its threshold (their pairwise `_title_similarity` values are
`20/23 ~ 0.870` for items 0-1, `10/11 ~ 0.909` for items 1-2 and 1-3, and
`0.8`-`0.834` for the remaining pairs). -/
def C7_items : List NaverNewsItem :=
  [NaverNewsItem.mk "kkkkkkkkkkxyz" "" "" "" 0 0,
   NaverNewsItem.mk "kkkkkkkkkk" "" "" "" 0 1,
   NaverNewsItem.mk "kkkkkkkkkkpq" "" "" "" 0 2,
   NaverNewsItem.mk "vwkkkkkkkkkk" "" "" "" 0 3]

/-- Validity region for a `find_longest_match` result: the block lies inside
the requested ranges. -/
def FlmValid (alo ahi blo bhi : Nat) (st : FlmState) : Prop :=
  alo ≤ st.besti ∧ st.besti + st.bestsize ≤ ahi ∧ blo ≤ st.bestj ∧ st.bestj + st.bestsize ≤ bhi

/-- Specification of the `j2len` table after processing row `i` of the DP in
the self-comparison `find_longest_match(x, x, lo, hi, lo, hi)` (proof-only,
used to show the DP always returns a diagonal block on equal inputs). -/
def cl (x : List Char) (lo hi : Nat) : Nat → Nat → Nat
  | 0, j => if j ∈ rowPositions x x lo hi 0 then 1 else 0
  | i + 1, j =>
    if j ∈ rowPositions x x lo hi (i + 1) then
      (if lo < i + 1 ∧ 0 < j then cl x lo hi i (j - 1) else 0) + 1
    else 0

theorem mem_elemPositions {c : Char} {b : List Char} {j : Nat} :
    j ∈ elemPositions c b ↔ j < b.length ∧ charAt b j = c := by
  simp [elemPositions, List.mem_filter, List.mem_range]

theorem elemPositions_pairwise (c : Char) (b : List Char) :
    (elemPositions c b).Pairwise (· < ·) :=
  (List.pairwise_lt_range _).filter _

theorem rowPositions_pairwise (a b : List Char) (blo bhi i : Nat) :
    (rowPositions a b blo bhi i).Pairwise (· < ·) := by
  have h1 : (b2jGet b (charAt a i)).Pairwise (· < ·) := by
    unfold b2jGet
    split
    · exact List.Pairwise.nil
    · exact elemPositions_pairwise _ _
  exact ((h1.filter _).sublist (List.takeWhile_sublist _))

theorem mem_takeWhile_of_sorted {l : List Nat} (hl : l.Pairwise (· < ·)) {j bhi : Nat}
    (hj : j ∈ l) (hlt : j < bhi) : j ∈ l.takeWhile (fun x => decide (x < bhi)) := by
  induction l with
  | nil => cases hj
  | cons x xs ih =>
    rcases List.mem_cons.mp hj with rfl | hx
    · simp only [List.takeWhile_cons]
      rw [if_pos (by simpa using hlt)]
      exact List.mem_cons_self _ _
    · have hxlt : x < j := (List.pairwise_cons.mp hl).1 j hx
      simp only [List.takeWhile_cons]
      rw [if_pos (by simp only [decide_eq_true_eq]; omega)]
      exact List.mem_cons.mpr (Or.inr (ih (List.pairwise_cons.mp hl).2 hx))

theorem mem_rowPositions_iff {a b : List Char} {blo bhi i j : Nat} :
    j ∈ rowPositions a b blo bhi i ↔
      j ∈ b2jGet b (charAt a i) ∧ blo ≤ j ∧ j < bhi := by
  have hfp : ((b2jGet b (charAt a i)).filter (fun j => decide (blo ≤ j))).Pairwise (· < ·) := by
    have h1 : (b2jGet b (charAt a i)).Pairwise (· < ·) := by
      unfold b2jGet
      split
      · exact List.Pairwise.nil
      · exact elemPositions_pairwise _ _
    exact h1.filter _
  constructor
  · intro h
    have hmem := (List.takeWhile_sublist _).subset h
    have hlt := List.mem_takeWhile_imp h
    have hf := List.mem_filter.mp hmem
    simp only [decide_eq_true_eq] at hlt hf
    exact ⟨hf.1, hf.2, hlt⟩
  · rintro ⟨hb, hblo, hbhi⟩
    have hmemf : j ∈ (b2jGet b (charAt a i)).filter (fun j => decide (blo ≤ j)) :=
      List.mem_filter.mpr ⟨hb, by simpa using hblo⟩
    exact mem_takeWhile_of_sorted hfp hmemf hbhi

theorem dpStep_valid {alo ahi blo bhi i : Nat} {j2len : Nat → Nat}
    (hi1 : alo ≤ i) (hi2 : i < ahi)
    (hj2 : ∀ j', j2len j' ≤ j' + 1 - blo ∧ j2len j' ≤ i - alo)
    {acc : FlmState × (Nat → Nat)} {j : Nat} (hjlo : blo ≤ j) (hjhi : j < bhi)
    (hv : FlmValid alo ahi blo bhi acc.1)
    (hnj : ∀ j', acc.2 j' ≤ j' + 1 - blo ∧ acc.2 j' ≤ i + 1 - alo) :
    FlmValid alo ahi blo bhi (dpStep i j2len acc j).1 ∧
      ∀ j', (dpStep i j2len acc j).2 j' ≤ j' + 1 - blo ∧
        (dpStep i j2len acc j).2 j' ≤ i + 1 - alo := by
  obtain ⟨v1, v2, v3, v4⟩ := hv
  have hprev1 : (if j = 0 then 0 else j2len (j - 1)) ≤ j - blo := by
    split
    · omega
    · have := (hj2 (j - 1)).1
      omega
  have hprev2 : (if j = 0 then 0 else j2len (j - 1)) ≤ i - alo := by
    split
    · omega
    · exact (hj2 (j - 1)).2
  have hmain : ∀ (K : Nat), 1 ≤ K → K ≤ j + 1 - blo → K ≤ i + 1 - alo →
      FlmValid alo ahi blo bhi
        (if acc.1.bestsize < K then FlmState.mk (i + 1 - K) (j + 1 - K) K else acc.1) := by
    intro K hK1 hK2 hK3
    split
    · refine ⟨?_, ?_, ?_, ?_⟩ <;> dsimp only <;> omega
    · exact ⟨v1, v2, v3, v4⟩
  constructor
  · simpa only [dpStep] using
      hmain ((if j = 0 then 0 else j2len (j - 1)) + 1) (by omega) (by omega) (by omega)
  · intro j'
    simp only [dpStep]
    split
    · omega
    · exact hnj j'

theorem dpRow_valid {a b : List Char} {alo ahi blo bhi i : Nat}
    (hi1 : alo ≤ i) (hi2 : i < ahi)
    {st : FlmState × (Nat → Nat)}
    (hv : FlmValid alo ahi blo bhi st.1)
    (hj2 : ∀ j', st.2 j' ≤ j' + 1 - blo ∧ st.2 j' ≤ i - alo) :
    FlmValid alo ahi blo bhi (dpRow a b blo bhi st i).1 ∧
      ∀ j', (dpRow a b blo bhi st i).2 j' ≤ j' + 1 - blo ∧
        (dpRow a b blo bhi st i).2 j' ≤ i + 1 - alo := by
  unfold dpRow
  have hgen : ∀ (js : List Nat), (∀ j ∈ js, blo ≤ j ∧ j < bhi) →
      ∀ (acc : FlmState × (Nat → Nat)), FlmValid alo ahi blo bhi acc.1 →
      (∀ j', acc.2 j' ≤ j' + 1 - blo ∧ acc.2 j' ≤ i + 1 - alo) →
      FlmValid alo ahi blo bhi (js.foldl (dpStep i st.2) acc).1 ∧
        ∀ j', (js.foldl (dpStep i st.2) acc).2 j' ≤ j' + 1 - blo ∧
          (js.foldl (dpStep i st.2) acc).2 j' ≤ i + 1 - alo := by
    intro js
    induction js with
    | nil => intro _ acc hva hnja; exact ⟨hva, hnja⟩
    | cons x xs ih =>
      intro hmem acc hva hnja
      have hx := hmem x (List.mem_cons_self _ _)
      have hstep := dpStep_valid hi1 hi2 hj2 hx.1 hx.2 hva hnja
      exact ih (fun j hj => hmem j (List.mem_cons.mpr (Or.inr hj))) _ hstep.1 hstep.2
  refine hgen _ (fun j hj => ?_) (st.1, fun _ => 0) hv (fun j' => by dsimp only; omega)
  have := mem_rowPositions_iff.mp hj
  exact ⟨this.2.1, this.2.2⟩

theorem dpLoop_valid {a b : List Char} {alo ahi blo bhi : Nat}
    (h1 : alo ≤ ahi) (h2 : blo ≤ bhi) :
    FlmValid alo ahi blo bhi (dpLoop a b alo ahi blo bhi) := by
  unfold dpLoop
  have hgen : ∀ (n r : Nat), alo ≤ r → r + n ≤ ahi →
      ∀ (acc : FlmState × (Nat → Nat)), FlmValid alo ahi blo bhi acc.1 →
      (∀ j', acc.2 j' ≤ j' + 1 - blo ∧ acc.2 j' ≤ r - alo) →
      FlmValid alo ahi blo bhi ((List.range' r n).foldl (dpRow a b blo bhi) acc).1 := by
    intro n
    induction n with
    | zero => intro r _ _ acc hva _; exact hva
    | succ m ih =>
      intro r hr1 hr2 acc hva hnja
      simp only [List.range'_succ, List.foldl_cons]
      have hrow := @dpRow_valid a b alo ahi blo bhi r hr1 (by omega) acc hva hnja
      exact ih (r + 1) (by omega) (by omega) _ hrow.1
        (fun j' => ⟨(hrow.2 j').1, by have := (hrow.2 j').2; omega⟩)
  refine hgen (ahi - alo) alo (le_refl _) (by omega) (FlmState.mk alo blo 0, fun _ => 0) ?_
    (fun j' => by dsimp only; omega)
  refine ⟨?_, ?_, ?_, ?_⟩ <;> dsimp only <;> omega

theorem extLeftNonjunk_valid {a b : List Char} {alo ahi blo bhi : Nat} :
    ∀ (fuel : Nat) (st : FlmState), FlmValid alo ahi blo bhi st →
      FlmValid alo ahi blo bhi (extLeftNonjunk a b alo blo fuel st) := by
  intro fuel
  induction fuel with
  | zero => intro st h; exact h
  | succ m ih =>
    intro st h
    obtain ⟨v1, v2, v3, v4⟩ := h
    unfold extLeftNonjunk
    split
    · rename_i hcond
      obtain ⟨hc1, hc2, hc3, hc4⟩ := hcond
      refine ih _ ?_
      refine ⟨?_, ?_, ?_, ?_⟩ <;> dsimp only <;> omega
    · exact ⟨v1, v2, v3, v4⟩

theorem extRightNonjunk_valid {a b : List Char} {alo ahi blo bhi : Nat} :
    ∀ (fuel : Nat) (st : FlmState), FlmValid alo ahi blo bhi st →
      FlmValid alo ahi blo bhi (extRightNonjunk a b ahi bhi fuel st) := by
  intro fuel
  induction fuel with
  | zero => intro st h; exact h
  | succ m ih =>
    intro st h
    obtain ⟨v1, v2, v3, v4⟩ := h
    unfold extRightNonjunk
    split
    · rename_i hcond
      obtain ⟨hc1, hc2, hc3, hc4⟩ := hcond
      refine ih _ ?_
      refine ⟨?_, ?_, ?_, ?_⟩ <;> dsimp only <;> omega
    · exact ⟨v1, v2, v3, v4⟩

theorem extLeftJunk_valid {a b : List Char} {alo ahi blo bhi : Nat} :
    ∀ (fuel : Nat) (st : FlmState), FlmValid alo ahi blo bhi st →
      FlmValid alo ahi blo bhi (extLeftJunk a b alo blo fuel st) := by
  intro fuel
  induction fuel with
  | zero => intro st h; exact h
  | succ m ih =>
    intro st h
    obtain ⟨v1, v2, v3, v4⟩ := h
    unfold extLeftJunk
    split
    · rename_i hcond
      obtain ⟨hc1, hc2, hc3, hc4⟩ := hcond
      refine ih _ ?_
      refine ⟨?_, ?_, ?_, ?_⟩ <;> dsimp only <;> omega
    · exact ⟨v1, v2, v3, v4⟩

theorem extRightJunk_valid {a b : List Char} {alo ahi blo bhi : Nat} :
    ∀ (fuel : Nat) (st : FlmState), FlmValid alo ahi blo bhi st →
      FlmValid alo ahi blo bhi (extRightJunk a b ahi bhi fuel st) := by
  intro fuel
  induction fuel with
  | zero => intro st h; exact h
  | succ m ih =>
    intro st h
    obtain ⟨v1, v2, v3, v4⟩ := h
    unfold extRightJunk
    split
    · rename_i hcond
      obtain ⟨hc1, hc2, hc3, hc4⟩ := hcond
      refine ih _ ?_
      refine ⟨?_, ?_, ?_, ?_⟩ <;> dsimp only <;> omega
    · exact ⟨v1, v2, v3, v4⟩

/-- The block returned by `find_longest_match` lies inside the requested
ranges. -/
theorem findLongestMatch_valid {a b : List Char} {alo ahi blo bhi : Nat}
    (h1 : alo ≤ ahi) (h2 : blo ≤ bhi) :
    FlmValid alo ahi blo bhi (findLongestMatch a b alo ahi blo bhi) := by
  unfold findLongestMatch
  exact extRightJunk_valid _ _ (extLeftJunk_valid _ _ (extRightNonjunk_valid _ _
    (extLeftNonjunk_valid _ _ (dpLoop_valid h1 h2))))

theorem matchTotalF_le (a b : List Char) :
    ∀ (fuel alo ahi blo bhi : Nat), alo ≤ ahi → blo ≤ bhi →
      matchTotalF a b fuel alo ahi blo bhi ≤ min (ahi - alo) (bhi - blo) := by
  intro fuel
  induction fuel with
  | zero => intro _ _ _ _ _ _; exact Nat.zero_le _
  | succ m ih =>
    intro alo ahi blo bhi h1 h2
    obtain ⟨v1, v2, v3, v4⟩ := findLongestMatch_valid (a := a) (b := b) h1 h2
    simp only [matchTotalF]
    split
    · exact Nat.zero_le _
    · have hL : (if alo < (findLongestMatch a b alo ahi blo bhi).besti ∧
          blo < (findLongestMatch a b alo ahi blo bhi).bestj then
            matchTotalF a b m alo (findLongestMatch a b alo ahi blo bhi).besti blo
              (findLongestMatch a b alo ahi blo bhi).bestj
          else 0) ≤ min ((findLongestMatch a b alo ahi blo bhi).besti - alo)
            ((findLongestMatch a b alo ahi blo bhi).bestj - blo) := by
        split
        · exact ih _ _ _ _ (by omega) (by omega)
        · exact Nat.zero_le _
      have hR : (if (findLongestMatch a b alo ahi blo bhi).besti +
            (findLongestMatch a b alo ahi blo bhi).bestsize < ahi ∧
            (findLongestMatch a b alo ahi blo bhi).bestj +
            (findLongestMatch a b alo ahi blo bhi).bestsize < bhi then
            matchTotalF a b m
              ((findLongestMatch a b alo ahi blo bhi).besti +
                (findLongestMatch a b alo ahi blo bhi).bestsize) ahi
              ((findLongestMatch a b alo ahi blo bhi).bestj +
                (findLongestMatch a b alo ahi blo bhi).bestsize) bhi
          else 0) ≤ min (ahi - ((findLongestMatch a b alo ahi blo bhi).besti +
            (findLongestMatch a b alo ahi blo bhi).bestsize))
            (bhi - ((findLongestMatch a b alo ahi blo bhi).bestj +
              (findLongestMatch a b alo ahi blo bhi).bestsize)) := by
        split
        · exact ih _ _ _ _ (by omega) (by omega)
        · exact Nat.zero_le _
      omega

/-- `M` is at most the length of either sequence. -/
theorem matchTotal_le_min (a b : List Char) :
    matchTotal a b ≤ min a.length b.length :=
  matchTotalF_le a b _ 0 a.length 0 b.length (Nat.zero_le _) (Nat.zero_le _)

theorem ratioOf_nonneg (a b : List Char) : 0 ≤ ratioOf a b := by
  unfold ratioOf
  split
  · norm_num
  · rw [Rat.mkRat_eq_div]
    positivity

theorem ratioOf_le_one (a b : List Char) : ratioOf a b ≤ 1 := by
  unfold ratioOf
  split
  · norm_num
  · rename_i hT
    rw [Rat.mkRat_eq_div]
    rw [div_le_one (by positivity)]
    have hm := matchTotal_le_min a b
    have h2 : 2 * matchTotal a b ≤ a.length + b.length := by omega
    exact_mod_cast h2

theorem mem_rowPositions_self_iff {x : List Char} {lo hi i j : Nat} :
    j ∈ rowPositions x x lo hi i ↔
      isPopular x (charAt x i) = false ∧ j < x.length ∧ charAt x j = charAt x i ∧
        lo ≤ j ∧ j < hi := by
  rw [mem_rowPositions_iff]
  unfold b2jGet
  constructor
  · rintro ⟨hb, h1, h2⟩
    split at hb
    · cases hb
    · rename_i hpop
      have := mem_elemPositions.mp hb
      exact ⟨by simpa using hpop, this.1, this.2, h1, h2⟩
  · rintro ⟨hpop, h1, h2, h3, h4⟩
    rw [if_neg (by simp [hpop])]
    exact ⟨mem_elemPositions.mpr ⟨h1, h2⟩, h3, h4⟩

theorem mem_row_self_diag {x : List Char} {lo hi i j r : Nat}
    (h : j ∈ rowPositions x x lo hi i) (hr1 : lo ≤ r) (hr2 : r < hi) (hr3 : r < x.length)
    (hc : charAt x r = charAt x i) :
    r ∈ rowPositions x x lo hi r := by
  obtain ⟨hpop, _, _, _, _⟩ := mem_rowPositions_self_iff.mp h
  exact mem_rowPositions_self_iff.mpr ⟨by rw [hc]; exact hpop, hr3, rfl, hr1, hr2⟩

theorem cl_eq_of_mem {x : List Char} {lo hi r j : Nat}
    (h : j ∈ rowPositions x x lo hi r) :
    cl x lo hi r j = (if lo < r ∧ 0 < j then cl x lo hi (r - 1) (j - 1) else 0) + 1 := by
  cases r with
  | zero =>
    simp only [cl, if_pos h]
    rw [if_neg (by omega)]
  | succ m =>
    simp only [cl, if_pos h]
    rw [Nat.add_sub_cancel]

theorem cl_eq_zero_of_not_mem {x : List Char} {lo hi r j : Nat}
    (h : j ∉ rowPositions x x lo hi r) : cl x lo hi r j = 0 := by
  cases r with
  | zero => simp only [cl, if_neg h]
  | succ m => simp only [cl, if_neg h]

theorem cl_pos_of_mem {x : List Char} {lo hi r j : Nat}
    (h : j ∈ rowPositions x x lo hi r) : 1 ≤ cl x lo hi r j := by
  rw [cl_eq_of_mem h]
  omega

/-- Chains are dominated by earlier diagonal chains: for `j ≤ i` the chain at
`(i, j)` is at most the self-chain at `(j, j)`. -/
theorem cl_le_diagL (x : List Char) (lo hi : Nat) :
    ∀ j i, j ≤ i → cl x lo hi i j ≤ cl x lo hi j j := by
  intro j
  induction j with
  | zero =>
    intro i _
    by_cases hm : (0 : Nat) ∈ rowPositions x x lo hi i
    · obtain ⟨hpop, hlen, hc, hlo, hhi⟩ := mem_rowPositions_self_iff.mp hm
      have hm0 : (0 : Nat) ∈ rowPositions x x lo hi 0 :=
        mem_row_self_diag hm hlo hhi hlen hc
      rw [cl_eq_of_mem hm, cl_eq_of_mem hm0]
      rw [if_neg (by omega), if_neg (by omega)]
    · rw [cl_eq_zero_of_not_mem hm]
      exact Nat.zero_le _
  | succ j ih =>
    intro i hji
    by_cases hm : (j + 1) ∈ rowPositions x x lo hi i
    · obtain ⟨hpop, hlen, hc, hlo, hhi⟩ := mem_rowPositions_self_iff.mp hm
      have hmj : (j + 1) ∈ rowPositions x x lo hi (j + 1) :=
        mem_row_self_diag hm hlo hhi hlen hc
      rw [cl_eq_of_mem hm, cl_eq_of_mem hmj]
      by_cases hcase : lo < i ∧ 0 < j + 1
      · rw [if_pos hcase]
        by_cases hcase2 : lo < j + 1
        · rw [if_pos ⟨hcase2, by omega⟩]
          have := ih (i - 1) (by omega)
          simpa using this
        · -- lo ≥ j + 1 together with lo ≤ j + 1 forces lo = j + 1,
          -- so the previous column j is below blo and its chain is 0.
          have hlo' : lo = j + 1 := by omega
          rw [if_neg (by omega)]
          have hz : cl x lo hi (i - 1) j = 0 := by
            by_cases hm2 : j ∈ rowPositions x x lo hi (i - 1)
            · obtain ⟨_, _, _, hlo2, _⟩ := mem_rowPositions_self_iff.mp hm2
              omega
            · exact cl_eq_zero_of_not_mem hm2
          simp [hz]
      · rw [if_neg hcase]
        omega
    · rw [cl_eq_zero_of_not_mem hm]
      exact Nat.zero_le _

/-- Chains are dominated by the diagonal of their own row: for `lo ≤ i ≤ j`
the chain at `(i, j)` is at most the self-chain at `(i, i)`. -/
theorem cl_le_diagR (x : List Char) (lo hi : Nat) :
    ∀ i j, lo ≤ i → i ≤ j → cl x lo hi i j ≤ cl x lo hi i i := by
  intro i
  induction i with
  | zero =>
    intro j hlo hij
    by_cases hm : j ∈ rowPositions x x lo hi 0
    · obtain ⟨hpop, hlen, hc, hjlo, hjhi⟩ := mem_rowPositions_self_iff.mp hm
      have hm0 : (0 : Nat) ∈ rowPositions x x lo hi 0 :=
        mem_row_self_diag hm hlo (by omega) (by omega) rfl
      simp only [cl, if_pos hm, if_pos hm0]
      omega
    · simp only [cl, if_neg hm]
      exact Nat.zero_le _
  | succ i ih =>
    intro j hlo hij
    by_cases hm : j ∈ rowPositions x x lo hi (i + 1)
    · obtain ⟨hpop, hlen, hc, hjlo, hjhi⟩ := mem_rowPositions_self_iff.mp hm
      have hmi : (i + 1) ∈ rowPositions x x lo hi (i + 1) :=
        mem_row_self_diag hm hlo (by omega) (by omega) rfl
      rw [cl_eq_of_mem hm, cl_eq_of_mem hmi]
      by_cases hcase : lo < i + 1
      · rw [if_pos ⟨hcase, by omega⟩, if_pos ⟨hcase, by omega⟩]
        have := ih (j - 1) (by omega) (by omega)
        simpa using this
      · rw [if_neg (by omega), if_neg (by omega)]
    · rw [cl_eq_zero_of_not_mem hm]
      exact Nat.zero_le _

/-- On a self-comparison, every strict improvement found in a DP row happens
on the diagonal, so the running best block stays diagonal, the new `j2len`
table is described by `cl`, and the best size dominates all chains seen so
far. -/
theorem dpRowDiag (x : List Char) (lo hi r : Nat) (hr : lo ≤ r)
    (j2l : Nat → Nat)
    (hj2l : ∀ j, j2l j = if lo < r then cl x lo hi (r - 1) j else 0)
    (st : FlmState) (hdiag : st.besti = st.bestj)
    (hcov : ∀ i' j', lo ≤ i' → i' < r → cl x lo hi i' j' ≤ st.bestsize) :
    (dpRow x x lo hi (st, j2l) r).1.besti = (dpRow x x lo hi (st, j2l) r).1.bestj ∧
      (∀ i' j', lo ≤ i' → i' < r + 1 → cl x lo hi i' j' ≤ (dpRow x x lo hi (st, j2l) r).1.bestsize) ∧
      (∀ j, (dpRow x x lo hi (st, j2l) r).2 j = cl x lo hi r j) := by
  have hpw := rowPositions_pairwise x x lo hi r
  have hinner : ∀ (S P : List Nat), rowPositions x x lo hi r = P ++ S →
      ∀ (acc : FlmState × (Nat → Nat)),
        acc.1.besti = acc.1.bestj →
        (∀ i' j', lo ≤ i' → i' < r → cl x lo hi i' j' ≤ acc.1.bestsize) →
        (∀ j' ∈ P, cl x lo hi r j' ≤ acc.1.bestsize) →
        (∀ j', acc.2 j' = if j' ∈ P then cl x lo hi r j' else 0) →
        (S.foldl (dpStep r j2l) acc).1.besti = (S.foldl (dpStep r j2l) acc).1.bestj ∧
          (∀ i' j', lo ≤ i' → i' < r → cl x lo hi i' j' ≤ (S.foldl (dpStep r j2l) acc).1.bestsize) ∧
          (∀ j' ∈ P ++ S, cl x lo hi r j' ≤ (S.foldl (dpStep r j2l) acc).1.bestsize) ∧
          (∀ j', (S.foldl (dpStep r j2l) acc).2 j' =
            if j' ∈ P ++ S then cl x lo hi r j' else 0) := by
    intro S
    induction S with
    | nil =>
      intro P hsplit acc h1 h2 h3 h4
      refine ⟨h1, h2, by simpa using h3, by simpa using h4⟩
    | cons j rest ih =>
      intro P hsplit acc h1 h2 h3 h4
      have hjmem : j ∈ rowPositions x x lo hi r := by
        rw [hsplit]
        exact List.mem_append.mpr (Or.inr (List.mem_cons_self _ _))
      obtain ⟨hpop, hjlen, hjc, hjlo, hjhi⟩ := mem_rowPositions_self_iff.mp hjmem
      -- the computed chain value is exactly cl r j
      have hkval : (if j = 0 then 0 else j2l (j - 1)) + 1 = cl x lo hi r j := by
        rw [cl_eq_of_mem hjmem]
        congr 1
        by_cases h0 : j = 0
        · rw [if_pos h0, if_neg (by omega)]
        · rw [if_neg h0, hj2l (j - 1)]
          by_cases hlor : lo < r
          · rw [if_pos hlor, if_pos ⟨hlor, by omega⟩]
          · rw [if_neg hlor, if_neg (by omega)]
      -- a strict improvement forces the diagonal
      have hforce : acc.1.bestsize < cl x lo hi r j → j = r := by
        intro hlt
        by_contra hne
        rcases Nat.lt_or_ge j r with hjr | hrj
        · have hd1 : cl x lo hi r j ≤ cl x lo hi j j := cl_le_diagL x lo hi j r (by omega)
          have hd2 : cl x lo hi j j ≤ acc.1.bestsize := h2 j j hjlo hjr
          omega
        · have hrjlt : r < j := by omega
          have hrmem : r ∈ rowPositions x x lo hi r :=
            mem_row_self_diag hjmem hr (by omega) (by omega) rfl
          have hrP : r ∈ P := by
            have := hrmem
            rw [hsplit] at this
            rcases List.mem_append.mp this with h | h
            · exact h
            · rcases List.mem_cons.mp h with rfl | h
              · omega
              · exfalso
                have hpw2 : (P ++ j :: rest).Pairwise (· < ·) := by
                  rw [hsplit] at hpw
                  exact hpw
                have := ((List.pairwise_append.mp hpw2).2.1)
                have hjr2 : j < r := (List.pairwise_cons.mp this).1 r h
                omega
          have hd1 : cl x lo hi r j ≤ cl x lo hi r r := cl_le_diagR x lo hi r j hr (by omega)
          have hd2 : cl x lo hi r r ≤ acc.1.bestsize := h3 r hrP
          omega
      -- one step
      have hstep :
          (dpStep r j2l acc j).1.besti = (dpStep r j2l acc j).1.bestj ∧
            (∀ i' j', lo ≤ i' → i' < r → cl x lo hi i' j' ≤ (dpStep r j2l acc j).1.bestsize) ∧
            (∀ j' ∈ P ++ [j], cl x lo hi r j' ≤ (dpStep r j2l acc j).1.bestsize) ∧
            (∀ j', (dpStep r j2l acc j).2 j' =
              if j' ∈ P ++ [j] then cl x lo hi r j' else 0) := by
        simp only [dpStep]
        rw [hkval]
        by_cases hup : acc.1.bestsize < cl x lo hi r j
        · have hjr := hforce hup
          subst hjr
          rw [if_pos hup]
          refine ⟨rfl, ?_, ?_, ?_⟩
          · intro i' j' hi1 hi2
            have := h2 i' j' hi1 hi2
            dsimp only
            omega
          · intro j' hj'
            rcases List.mem_append.mp hj' with h | h
            · have := h3 j' h
              dsimp only
              omega
            · rcases List.mem_cons.mp h with rfl | h
              · dsimp only
                omega
              · cases h
          · intro j'
            by_cases he : j' = j
            · subst he
              rw [if_pos rfl, if_pos (List.mem_append.mpr (Or.inr (List.mem_cons_self _ _)))]
            · rw [if_neg he, h4 j']
              by_cases hp : j' ∈ P
              · rw [if_pos hp, if_pos (List.mem_append.mpr (Or.inl hp))]
              · rw [if_neg hp, if_neg (by
                  intro hcon
                  rcases List.mem_append.mp hcon with h | h
                  · exact hp h
                  · rcases List.mem_cons.mp h with h | h
                    · exact he h
                    · cases h)]
        · rw [if_neg hup]
          refine ⟨h1, h2, ?_, ?_⟩
          · intro j' hj'
            rcases List.mem_append.mp hj' with h | h
            · exact h3 j' h
            · rcases List.mem_cons.mp h with rfl | h
              · omega
              · cases h
          · intro j'
            by_cases he : j' = j
            · subst he
              rw [if_pos rfl, if_pos (List.mem_append.mpr (Or.inr (List.mem_cons_self _ _)))]
            · rw [if_neg he, h4 j']
              by_cases hp : j' ∈ P
              · rw [if_pos hp, if_pos (List.mem_append.mpr (Or.inl hp))]
              · rw [if_neg hp, if_neg (by
                  intro hcon
                  rcases List.mem_append.mp hcon with h | h
                  · exact hp h
                  · rcases List.mem_cons.mp h with h | h
                    · exact he h
                    · cases h)]
      have hrec := ih (P ++ [j]) (by rw [hsplit, List.append_assoc]; rfl) (dpStep r j2l acc j)
        hstep.1 hstep.2.1 hstep.2.2.1 hstep.2.2.2
      simp only [List.foldl_cons]
      refine ⟨hrec.1, hrec.2.1, ?_, ?_⟩
      · intro j' hj'
        refine hrec.2.2.1 j' ?_
        rw [List.append_assoc]
        simpa using hj'
      · intro j'
        rw [hrec.2.2.2 j']
        rw [List.append_assoc]
        rfl
  have hmain := hinner (rowPositions x x lo hi r) [] rfl (st, fun _ => 0) hdiag hcov
    (by intro j' hj'; cases hj') (by intro j'; rw [if_neg (List.not_mem_nil j')])
  simp only [List.nil_append] at hmain
  unfold dpRow
  dsimp only
  refine ⟨hmain.1, ?_, ?_⟩
  · intro i' j' hi1 hi2
    rcases Nat.lt_or_ge i' r with h | h
    · exact hmain.2.1 i' j' hi1 h
    · have hir : i' = r := by omega
      subst hir
      by_cases hm : j' ∈ rowPositions x x lo hi i'
      · exact hmain.2.2.1 j' hm
      · rw [cl_eq_zero_of_not_mem hm]
        exact Nat.zero_le _
  · intro j
    rw [hmain.2.2.2 j]
    by_cases hm : j ∈ rowPositions x x lo hi r
    · rw [if_pos hm]
    · rw [if_neg hm, cl_eq_zero_of_not_mem hm]

/-- On a self-comparison the whole DP keeps the best block diagonal. -/
theorem dpLoop_diag (x : List Char) (lo hi : Nat) :
    (dpLoop x x lo hi lo hi).besti = (dpLoop x x lo hi lo hi).bestj := by
  unfold dpLoop
  have hgen : ∀ (n r : Nat), lo ≤ r →
      ∀ (acc : FlmState × (Nat → Nat)),
        acc.1.besti = acc.1.bestj →
        (∀ i' j', lo ≤ i' → i' < r → cl x lo hi i' j' ≤ acc.1.bestsize) →
        (∀ j, acc.2 j = if lo < r then cl x lo hi (r - 1) j else 0) →
        ((List.range' r n).foldl (dpRow x x lo hi) acc).1.besti =
          ((List.range' r n).foldl (dpRow x x lo hi) acc).1.bestj := by
    intro n
    induction n with
    | zero => intro r _ acc h1 _ _; exact h1
    | succ m ih =>
      intro r hr acc h1 h2 h3
      simp only [List.range'_succ, List.foldl_cons]
      have hrow := dpRowDiag x lo hi r hr acc.2 h3 acc.1 h1 h2
      have haccsplit : (acc.1, acc.2) = acc := rfl
      rw [haccsplit] at hrow
      refine ih (r + 1) (by omega) _ hrow.1 ?_ ?_
      · intro i' j' hi1 hi2
        exact hrow.2.1 i' j' hi1 (by omega)
      · intro j
        rw [if_pos (by omega)]
        have := hrow.2.2 j
        simpa using this
  refine hgen (hi - lo) lo (le_refl _) (FlmState.mk lo lo 0, fun _ => 0) rfl ?_ ?_
  · intro i' j' hi1 hi2
    omega
  · intro j
    rw [if_neg (by omega)]

theorem extLeftNonjunk_self (x : List Char) (lo : Nat) :
    ∀ (fuel : Nat) (st : FlmState), st.besti = st.bestj → lo ≤ st.besti →
      st.besti - lo ≤ fuel →
      extLeftNonjunk x x lo lo fuel st = FlmState.mk lo lo (st.bestsize + (st.besti - lo)) := by
  intro fuel
  induction fuel with
  | zero =>
    intro st h1 h2 h3
    cases st with
    | mk bi bj bs =>
      simp only at h1 h2 h3
      have : bi = lo := by omega
      subst this
      subst h1
      simp [extLeftNonjunk]
  | succ m ih =>
    intro st h1 h2 h3
    cases st with
    | mk bi bj bs =>
      simp only at h1 h2 h3
      subst h1
      unfold extLeftNonjunk
      by_cases hlt : lo < bi
      · rw [if_pos ⟨hlt, hlt, rfl, rfl⟩]
        have := ih (FlmState.mk (bi - 1) (bi - 1) (bs + 1)) rfl
          (show lo ≤ bi - 1 by omega) (show bi - 1 - lo ≤ m by omega)
        rw [this]
        have harg : bs + 1 + (bi - 1 - lo) = bs + (bi - lo) := by omega
        rw [harg]
      · rw [if_neg (by
          intro hcon
          have h' : lo < bi := hcon.1
          omega)]
        have hbi : bi = lo := by omega
        subst hbi
        congr 1
        show bs = bs + (bi - bi)
        omega

theorem extRightNonjunk_self (x : List Char) (hi : Nat) :
    ∀ (fuel : Nat) (st : FlmState), st.besti = st.bestj → st.besti + st.bestsize ≤ hi →
      hi - (st.besti + st.bestsize) ≤ fuel →
      extRightNonjunk x x hi hi fuel st =
        FlmState.mk st.besti st.bestj (st.bestsize + (hi - (st.besti + st.bestsize))) := by
  intro fuel
  induction fuel with
  | zero =>
    intro st h1 h2 h3
    cases st with
    | mk bi bj bs =>
      simp only at h1 h2 h3
      have hz : hi - (bi + bs) = 0 := by omega
      simp [extRightNonjunk, hz]
  | succ m ih =>
    intro st h1 h2 h3
    cases st with
    | mk bi bj bs =>
      simp only at h1 h2 h3
      subst h1
      by_cases hlt : bi + bs < hi
      · unfold extRightNonjunk
        rw [if_pos ⟨hlt, hlt, rfl, rfl⟩]
        have := ih (FlmState.mk bi bi (bs + 1)) rfl
          (show bi + (bs + 1) ≤ hi by omega) (show hi - (bi + (bs + 1)) ≤ m by omega)
        rw [this]
        show FlmState.mk bi bi (bs + 1 + (hi - (bi + (bs + 1)))) =
          FlmState.mk bi bi (bs + (hi - (bi + bs)))
        have harg : bs + 1 + (hi - (bi + (bs + 1))) = bs + (hi - (bi + bs)) := by omega
        rw [harg]
      · unfold extRightNonjunk
        rw [if_neg (by
          intro hcon
          have h' : bi + bs < hi := hcon.1
          omega)]
        congr 1
        show bs = bs + (hi - (bi + bs))
        omega

theorem extLeftJunk_id (a b : List Char) (alo blo : Nat) :
    ∀ (fuel : Nat) (st : FlmState), extLeftJunk a b alo blo fuel st = st := by
  intro fuel
  cases fuel with
  | zero => intro st; rfl
  | succ m =>
    intro st
    unfold extLeftJunk
    rw [if_neg (by intro hcon; exact absurd hcon.2.2.1 (by simp [isbjunk]))]

theorem extRightJunk_id (a b : List Char) (ahi bhi : Nat) :
    ∀ (fuel : Nat) (st : FlmState), extRightJunk a b ahi bhi fuel st = st := by
  intro fuel
  cases fuel with
  | zero => intro st; rfl
  | succ m =>
    intro st
    unfold extRightJunk
    rw [if_neg (by intro hcon; exact absurd hcon.2.2.1 (by simp [isbjunk]))]

/-- On a self-comparison, `find_longest_match` returns the whole range as one
block (whatever the DP found is diagonal, and the two non-junk extension
loops stretch it to the range's ends because every element equals itself). -/
theorem findLongestMatch_self (x : List Char) (lo hi : Nat) (h : lo ≤ hi) :
    findLongestMatch x x lo hi lo hi = FlmState.mk lo lo (hi - lo) := by
  obtain ⟨v1, v2, v3, v4⟩ := @dpLoop_valid x x lo hi lo hi h h
  have hd := dpLoop_diag x lo hi
  have h1 : extLeftNonjunk x x lo lo (dpLoop x x lo hi lo hi).besti (dpLoop x x lo hi lo hi) =
      FlmState.mk lo lo ((dpLoop x x lo hi lo hi).bestsize +
        ((dpLoop x x lo hi lo hi).besti - lo)) :=
    extLeftNonjunk_self x lo _ _ hd v1 (by omega)
  have h2 : extRightNonjunk x x hi hi hi
      (FlmState.mk lo lo ((dpLoop x x lo hi lo hi).bestsize +
        ((dpLoop x x lo hi lo hi).besti - lo))) =
      FlmState.mk lo lo (((dpLoop x x lo hi lo hi).bestsize +
        ((dpLoop x x lo hi lo hi).besti - lo)) +
        (hi - (lo + ((dpLoop x x lo hi lo hi).bestsize +
          ((dpLoop x x lo hi lo hi).besti - lo))))) :=
    extRightNonjunk_self x hi hi _ rfl
      (show lo + ((dpLoop x x lo hi lo hi).bestsize +
        ((dpLoop x x lo hi lo hi).besti - lo)) ≤ hi by omega)
      (show hi - (lo + ((dpLoop x x lo hi lo hi).bestsize +
        ((dpLoop x x lo hi lo hi).besti - lo))) ≤ hi by omega)
  calc findLongestMatch x x lo hi lo hi
      = extRightJunk x x hi hi hi (extLeftJunk x x lo lo
          (extRightNonjunk x x hi hi hi (extLeftNonjunk x x lo lo
            (dpLoop x x lo hi lo hi).besti (dpLoop x x lo hi lo hi))).besti
          (extRightNonjunk x x hi hi hi (extLeftNonjunk x x lo lo
            (dpLoop x x lo hi lo hi).besti (dpLoop x x lo hi lo hi)))) := rfl
    _ = FlmState.mk lo lo (hi - lo) := by
        rw [h1, h2, extLeftJunk_id, extRightJunk_id]
        have harg : ((dpLoop x x lo hi lo hi).bestsize +
            ((dpLoop x x lo hi lo hi).besti - lo)) +
            (hi - (lo + ((dpLoop x x lo hi lo hi).bestsize +
              ((dpLoop x x lo hi lo hi).besti - lo)))) = hi - lo := by
          omega
        rw [harg]

/-- On a self-comparison every element is matched. -/
theorem matchTotal_self (x : List Char) : matchTotal x x = x.length := by
  unfold matchTotal
  have hflm := findLongestMatch_self x 0 x.length (Nat.zero_le _)
  simp only [matchTotalF, hflm]
  by_cases hz : x.length = 0
  · simp [hz]
  · rw [if_neg (by omega)]
    rw [if_neg (by omega), if_neg (by omega)]
    omega

/-- `ratio()` of any sequence with itself is `1`. -/
theorem ratioOf_self (x : List Char) : ratioOf x x = 1 := by
  unfold ratioOf
  split
  · rfl
  · rename_i hT
    rw [matchTotal_self]
    have hne : ((x.length + x.length : Nat) : Rat) ≠ 0 := Nat.cast_ne_zero.mpr (by omega)
    rw [Rat.mkRat_eq_div]
    rw [div_eq_one_iff_eq (by exact_mod_cast hne)]
    push_cast
    ring

theorem matchTotal_zero_of_empty {a b : List Char} (h : a = [] ∨ b = []) :
    matchTotal a b = 0 := by
  have hlen : min a.length b.length = 0 := by
    rcases h with h | h <;> subst h <;> simp
  have := matchTotal_le_min a b
  omega

theorem ratioOf_zero_of_one_empty {a b : List Char} (h : a = [] ∨ b = [])
    (hne : a.length + b.length ≠ 0) : ratioOf a b = 0 := by
  unfold ratioOf
  rw [if_neg hne, matchTotal_zero_of_empty h]
  simp

theorem pyLower_eq_nil_iff {s : List Char} : pyLower s = [] ↔ s = [] := by
  unfold pyLower
  simp

theorem title_similarity_self (a : String) : title_similarity a a = 1 :=
  ratioOf_self _

theorem title_similarity_bounds (a b : String) :
    0 ≤ title_similarity a b ∧ title_similarity a b ≤ 1 :=
  ⟨ratioOf_nonneg _ _, ratioOf_le_one _ _⟩

theorem naver_title_similarity_bounds (a b : String) :
    0 ≤ naver_title_similarity a b ∧ naver_title_similarity a b ≤ 1 := by
  unfold naver_title_similarity
  split
  · norm_num
  · exact ⟨ratioOf_nonneg _ _, ratioOf_le_one _ _⟩

theorem naver_title_similarity_self (a : String)
    (h : normalize_title_for_similarity a.toList ≠ []) :
    naver_title_similarity a a = 1 := by
  unfold naver_title_similarity
  rw [if_neg (by simpa using h)]
  exact ratioOf_self _

theorem toList_eq_nil_iff (s : String) : s.toList = [] ↔ s = "" := by
  cases s with
  | mk l =>
    constructor
    · intro h
      simp only [String.toList] at h
      subst h
      rfl
    · intro h
      rw [h]
      rfl

theorem title_similarity_zero_of_empty_left (a b : String) (ha : a = "") (hb : b ≠ "") :
    title_similarity a b = 0 ∧ title_similarity b a = 0 := by
  subst ha
  have hbn : b.toList ≠ [] := fun hcon => hb ((toList_eq_nil_iff b).mp hcon)
  have hlen : 0 < b.toList.length := List.length_pos.mpr hbn
  constructor
  · refine ratioOf_zero_of_one_empty (Or.inl (by rfl)) ?_
    simp only [pyLower, List.length_map]
    simp only [String.toList] at hlen ⊢
    omega
  · refine ratioOf_zero_of_one_empty (Or.inr (by rfl)) ?_
    simp only [pyLower, List.length_map]
    simp only [String.toList] at hlen ⊢
    omega

/-- **C4** (amended): both title-similarity functions take values in `[0, 1]`,
`title_similarity(a, a) = 1` for every string, and
`_title_similarity(a, a) = 1` for every string whose normalized form is
non-empty.  (The symmetry part of the original claim is false, see
`C4_counterexample`: `SequenceMatcher.ratio` is order-sensitive.) -/
theorem C4_similarity_bounds_refl :
    (∀ a b : String, 0 ≤ title_similarity a b ∧ title_similarity a b ≤ 1 ∧
      0 ≤ naver_title_similarity a b ∧ naver_title_similarity a b ≤ 1) ∧
    (∀ a : String, title_similarity a a = 1) ∧
    (∀ a : String, normalize_title_for_similarity a.toList ≠ [] →
      naver_title_similarity a a = 1) := by
  refine ⟨fun a b => ?_, title_similarity_self, naver_title_similarity_self⟩
  obtain ⟨h1, h2⟩ := title_similarity_bounds a b
  obtain ⟨h3, h4⟩ := naver_title_similarity_bounds a b
  exact ⟨h1, h2, h3, h4⟩

/-- **C4** counterexample: similarity is *not* symmetric.  On the pair
`"tide"` / `"diet"`, `title_similarity` gives `1/4` one way and `1/2` the
other (and likewise `_title_similarity`, whose normalization leaves these
ASCII strings unchanged), refuting `similarity(a,b) == similarity(b,a)`. -/
theorem C4_counterexample :
    title_similarity "tide" "diet" = mkRat 1 4 ∧
      title_similarity "diet" "tide" = mkRat 1 2 ∧
      title_similarity "tide" "diet" ≠ title_similarity "diet" "tide" ∧
      naver_title_similarity "tide" "diet" ≠ naver_title_similarity "diet" "tide" := by
  refine ⟨by decide, by decide, by decide, by decide⟩

/-- Witness for `C4_similarity_bounds_refl` at concrete inputs. -/
theorem C4_witness :
    (0 ≤ title_similarity "abc" "bcd" ∧ title_similarity "abc" "bcd" ≤ 1 ∧
      0 ≤ naver_title_similarity "abc" "bcd" ∧ naver_title_similarity "abc" "bcd" ≤ 1) ∧
      title_similarity "ab" "ab" = 1 ∧ naver_title_similarity "ab" "ab" = 1 :=
  ⟨C4_similarity_bounds_refl.1 "abc" "bcd", C4_similarity_bounds_refl.2.1 "ab",
    C4_similarity_bounds_refl.2.2 "ab" (by decide)⟩

/-- **C9** counterexample: with both inputs empty (empty after the `lower()`
normalization of `dedupe.title_similarity`), the similarity is `1.0`, not
`0`; and a whitespace-only string is not normalized away by `lower()`, so it
can score `1/2` against `"a b"`. -/
theorem C9_counterexample :
    title_similarity "" "" = 1 ∧ ¬ title_similarity "" "" = 0 ∧
      title_similarity " " "a b" = mkRat 1 2 ∧ ¬ title_similarity " " "a b" = 0 := by
  refine ⟨by decide, by decide, by decide, by decide⟩

/-- **C9** (amended): `_title_similarity` returns `0` whenever either input
normalizes to the empty string; `title_similarity` (whose only normalization
is `lower()`) returns `0` when exactly one input is empty, but returns `1`
on two empty inputs and does not treat whitespace-only strings as empty. -/
theorem C9_empty_similarity :
    (∀ a b : String, normalize_title_for_similarity a.toList = [] ∨
      normalize_title_for_similarity b.toList = [] → naver_title_similarity a b = 0) ∧
    (∀ a b : String, a = "" → b ≠ "" →
      title_similarity a b = 0 ∧ title_similarity b a = 0) := by
  constructor
  · intro a b h
    unfold naver_title_similarity
    rw [if_pos h]
  · exact title_similarity_zero_of_empty_left

/-- Witness for `C9_empty_similarity` at concrete inputs (`"!?"` normalizes
to the empty string under `_normalize_title_for_similarity`). -/
theorem C9_witness :
    naver_title_similarity "!?" "xy" = 0 ∧
      title_similarity "" "xy" = 0 ∧ title_similarity "xy" "" = 0 :=
  ⟨C9_empty_similarity.1 "!?" "xy" (Or.inl (by decide)),
    (C9_empty_similarity.2 "" "xy" rfl (by decide)).1,
    (C9_empty_similarity.2 "" "xy" rfl (by decide)).2⟩

set_option maxRecDepth 40000 in
set_option maxHeartbeats 1000000 in
/-- **C7** counterexample: on `C7_items`, raising the dedupe threshold from
`0.85` to `0.90` *decreases* the number of kept representatives from 3 to 2,
refuting monotonicity of the pairwise grouping in its threshold. -/
theorem C7_counterexample :
    (mkRat 85 100 : Rat) ≤ mkRat 90 100 ∧
      (dedupe_by_title_similarity C7_items (mkRat 85 100)).length = 3 ∧
      (dedupe_by_title_similarity C7_items (mkRat 90 100)).length = 2 := by
  refine ⟨by decide, by decide, by decide⟩

/-- **C7** (amended): for candidate sets of at most three items, raising the
duplicate-similarity threshold never decreases the number of kept
representatives; with four or more items this can fail
(`C7_counterexample`). -/
theorem C7_dedupe_monotone_upto3 :
    ∀ (items : List NaverNewsItem) (t1 t2 : Rat), items.length ≤ 3 → t1 ≤ t2 →
      (dedupe_by_title_similarity items t1).length ≤
        (dedupe_by_title_similarity items t2).length := by
  intro items t1 t2 hlen hle
  match items with
  | [] => simp [dedupe_by_title_similarity]
  | [a] => simp [dedupe_by_title_similarity]
  | [a, b] =>
    by_cases hA1 : t1 ≤ naver_title_similarity b.title a.title <;>
      by_cases hA2 : t2 ≤ naver_title_similarity b.title a.title <;>
      simp only [dedupe_by_title_similarity, List.foldl_cons, List.foldl_nil, List.any_nil,
        List.any_cons, Bool.or_false, Bool.false_eq_true, if_false, List.nil_append,
        List.cons_append, hA1, hA2, decide_True, decide_False, Bool.true_or, Bool.false_or, Bool.or_true,
        if_true, List.length_cons, List.length_nil] <;>
      first | omega | linarith
  | [a, b, c] =>
    by_cases hA1 : t1 ≤ naver_title_similarity b.title a.title <;>
      by_cases hA2 : t2 ≤ naver_title_similarity b.title a.title <;>
      by_cases hca1 : t1 ≤ naver_title_similarity c.title a.title <;>
      by_cases hca2 : t2 ≤ naver_title_similarity c.title a.title <;>
      by_cases hcb1 : t1 ≤ naver_title_similarity c.title b.title <;>
      by_cases hcb2 : t2 ≤ naver_title_similarity c.title b.title <;>
      simp only [dedupe_by_title_similarity, List.foldl_cons, List.foldl_nil, List.any_nil,
        List.any_cons, Bool.or_false, Bool.false_eq_true, if_false, List.nil_append,
        List.cons_append, hA1, hA2, hca1, hca2, hcb1, hcb2, decide_True, decide_False, Bool.true_or,
        Bool.false_or, Bool.or_true, if_true, List.length_cons, List.length_nil] <;>
      first | omega | linarith
  | _ :: _ :: _ :: _ :: _ => simp at hlen

/-- Witness for `C7_dedupe_monotone_upto3` on the first three `C7_items`. -/
theorem C7_witness :
    (dedupe_by_title_similarity (C7_items.take 3) (mkRat 85 100)).length ≤
      (dedupe_by_title_similarity (C7_items.take 3) (mkRat 90 100)).length :=
  C7_dedupe_monotone_upto3 (C7_items.take 3) (mkRat 85 100) (mkRat 90 100)
    (by decide) (by decide)

/-- `mergeInto` never changes the immutable fields of the kept list. -/
lemma mergeInto_map_itemBase (thr : Rat) (it : DedupedItem) :
    ∀ kept : List DedupedItem,
      ((mergeInto thr it kept).1).map itemBase = kept.map itemBase := by
  intro kept
  induction kept with
  | nil => rfl
  | cons k rest ih =>
    simp only [mergeInto]
    split
    · simp [itemBase]
    · simp only [List.map_cons, ih]

/-- `mergeInto` preserves the related-links invariant of every kept item. -/
lemma mergeInto_relLinksOk (thr : Rat) (it : DedupedItem) :
    ∀ kept : List DedupedItem, (∀ k ∈ kept, RelLinksOk k) →
      ∀ k ∈ (mergeInto thr it kept).1, RelLinksOk k := by
  intro kept
  induction kept with
  | nil => intro _ k hk; simp [mergeInto] at hk
  | cons k0 rest ih =>
    intro hall k hk
    simp only [mergeInto] at hk
    split at hk
    · rcases List.mem_cons.mp hk with hk | hk
      · subst hk
        have h0 : RelLinksOk k0 := hall k0 (by simp)
        unfold RelLinksOk at h0 ⊢
        dsimp only at h0 ⊢
        by_cases hg : it.link ≠ [] ∧ it.link ≠ k0.link ∧ k0.related_links.length < 2 ∧
            it.link ∉ k0.related_links
        · rw [if_pos hg]
          refine ⟨?_, ?_, ?_⟩
          · have hlt := hg.2.2.1
            simp only [List.length_append, List.length_cons, List.length_nil]
            omega
          · refine List.Nodup.append h0.2.1 (List.nodup_singleton _) ?_
            intro l hl hl'
            simp only [List.mem_singleton] at hl'
            subst hl'
            exact hg.2.2.2 hl
          · intro l hl
            rcases List.mem_append.mp hl with hl | hl
            · exact h0.2.2 l hl
            · simp only [List.mem_singleton] at hl
              subst hl
              exact ⟨hg.1, hg.2.1⟩
        · rw [if_neg hg]
          exact h0
      · exact hall k (List.mem_cons_of_mem _ hk)
    · rcases List.mem_cons.mp hk with hk | hk
      · subst hk; exact hall k (by simp)
      · exact ih (fun x hx => hall x (List.mem_cons_of_mem _ hx)) k hk

/-- The outer fold of `dedupe_items`: the kept list's immutable fields stay
a subsequence of the processed input, and every representative keeps the
related-links invariant. -/
lemma dedupe_foldl_invariant (thr : Rat) :
    ∀ (items kept : List DedupedItem) (A : List (List Char × List Char × Nat)),
      (∀ k ∈ kept, RelLinksOk k) →
      (kept.map itemBase).Sublist A →
      (∀ i ∈ items, i.related_links = []) →
      (∀ k ∈ items.foldl (dedupeStep thr) kept, RelLinksOk k) ∧
        ((items.foldl (dedupeStep thr) kept).map itemBase).Sublist
          (A ++ items.map itemBase) := by
  intro items
  induction items with
  | nil => intro kept A h1 h2 _; simpa using ⟨h1, h2⟩
  | cons it rest ih =>
    intro kept A h1 h2 h3
    simp only [List.foldl_cons, List.map_cons]
    have hres := ih (dedupeStep thr kept it) (A ++ [itemBase it]) ?_ ?_ ?_
    · refine ⟨hres.1, ?_⟩
      have : A ++ [itemBase it] ++ rest.map itemBase = A ++ itemBase it :: rest.map itemBase := by
        simp
      rw [this] at hres
      exact hres.2
    · intro k hk
      simp only [dedupeStep] at hk
      split at hk
      · exact mergeInto_relLinksOk thr it kept h1 k hk
      · rcases List.mem_append.mp hk with hk | hk
        · exact mergeInto_relLinksOk thr it kept h1 k hk
        · simp only [List.mem_singleton] at hk
          subst hk
          refine ⟨?_, ?_, ?_⟩ <;>
            simp [RelLinksOk, h3 k (by simp)]
    · simp only [dedupeStep]
      split
      · rw [mergeInto_map_itemBase]
        exact h2.trans (List.sublist_append_left A [itemBase it])
      · rw [List.map_append, mergeInto_map_itemBase]
        exact List.Sublist.append h2 (List.Sublist.refl _)
    · intro i hi; exact h3 i (List.mem_cons_of_mem _ hi)

set_option maxHeartbeats 800000 in
/-- C10: for every oracle pair, threshold and input list, `dedupe_items`
returns (up to its link normalization and `related_links` attachment) a
subsequence of its input in the original order, and every returned
representative carries at most 2 related links, pairwise distinct, all
non-empty, and none equal to the representative's own normalized link. -/
theorem C10_dedupe_items_invariants (bk nk : List Char → Bool) (thr : Rat)
    (raw : List RawItem) :
    ((dedupe_items bk nk raw thr).map itemBase).Sublist
        (raw.map (fun it => (it.title, normalize_url bk nk it.link, it.payload))) ∧
      ∀ d ∈ dedupe_items bk nk raw thr,
        d.related_links.length ≤ 2 ∧ d.related_links.Nodup ∧
          ∀ l ∈ d.related_links, l ≠ [] ∧ l ≠ d.link := by
  have h := dedupe_foldl_invariant thr
    (raw.map (fun it => DedupedItem.mk it.title (normalize_url bk nk it.link) [] it.payload))
    [] [] (by intro k hk; simp at hk) (by simp) ?_
  · constructor
    · have h2 := h.2
      simp only [List.nil_append, List.map_map] at h2
      simpa [dedupe_items, Function.comp, itemBase] using h2
    · intro d hd
      exact h.1 d (by simpa [dedupe_items] using hd)
  · intro i hi
    simp only [List.mem_map] at hi
    obtain ⟨x, _, hx⟩ := hi
    subst hx
    rfl

set_option maxRecDepth 10000 in
/-- C8 counterexample: `normalize_url` is not idempotent.  On the URL
`"////"` the first pass parses scheme `""`, netloc `""`, path `"//"` and
unparses to `"//"`; the second pass parses `"//"` as an empty netloc with
empty path and unparses to `""`.  The oracles are irrelevant here (the
netloc is empty and bracket-free). -/
theorem C8_counterexample :
    normalize_url (fun _ => true) (fun _ => true)
        (normalize_url (fun _ => true) (fun _ => true) "////".toList) ≠
      normalize_url (fun _ => true) (fun _ => true) "////".toList := by
  decide

/-- All-failing attempts drive `fetchLoop` to `none`. -/
lemma fetchLoop_none (attempts : Nat → FetchOutcome)
    (hfail : ∀ i, fetchAttempt (attempts i) = none) :
    ∀ remaining attempt, fetchLoop attempts attempt remaining = none := by
  intro remaining
  induction remaining with
  | zero => intro attempt; rfl
  | succ r ih =>
    intro attempt
    simp only [fetchLoop, hfail attempt]
    exact ih (attempt + 1)

/-- C1 counterexample: an HTTP error status does propagate an exception out
of `collect_naver_last24h` — a first Naver API page with status 500 makes
the collector raise `RuntimeError` (modelled as `Except.error`), rather
than return an empty result. -/
theorem C1_counterexample :
    collect_naver_last24h (fun _ _ => NaverApiResp.mk 500 []) (fun _ => none)
        (fun _ => true) (fun _ => true) 0 150 true = Except.error () := by
  rfl

/-- C1 (amended): failed fetches are contained for the RSS collector — when
every attempt of `_fetch_url` fails (transport error or status ≥ 400),
`collect_from_rss` returns `[]` — while for the Naver collector an HTTP
error status on the first requested page propagates as an exception. -/
theorem C1_fetch_error_containment (attempts : Nat → FetchOutcome)
    (feedEntries : Nat → List RssEntry) (parseDate : RssEntry → Option Int)
    (toKstDate : Int → List Char) (bk nk : List Char → Bool) (sn td : List Char)
    (api : Nat → Nat → NaverApiResp) (pp : List Char → Option Int)
    (bk2 nk2 : List Char → Bool) (now : Int) (mf : Nat) (sd : Bool)
    (hfail : ∀ i, fetchAttempt (attempts i) = none) (hmf : 0 < mf)
    (hst : 400 ≤ (api 1 (min 100 mf)).status) :
    collect_from_rss attempts feedEntries parseDate toKstDate bk nk sn td = [] ∧
      collect_naver_last24h api pp bk2 nk2 now mf sd = Except.error () := by
  constructor
  · simp only [collect_from_rss, fetch_url, fetchLoop_none attempts hfail]
  · simp only [collect_naver_last24h, naverPageLoop]
    rw [if_pos (by simp [hmf])]
    simp only [List.length_nil, Nat.sub_zero]
    rw [if_pos hst]

/-- Witness for C1: a transport-error-only RSS fetch yields `[]`, and a
status-500 Naver API makes the Naver collector raise. -/
theorem C1_witness :
    collect_from_rss (fun _ => FetchOutcome.transportError) (fun _ => []) (fun _ => none)
        (fun _ => []) (fun _ => true) (fun _ => true) [] [] = [] ∧
      collect_naver_last24h (fun _ _ => NaverApiResp.mk 500 []) (fun _ => none)
        (fun _ => true) (fun _ => true) 0 150 true = Except.error () :=
  C1_fetch_error_containment (fun _ => FetchOutcome.transportError) (fun _ => [])
    (fun _ => none) (fun _ => []) (fun _ => true) (fun _ => true) [] []
    (fun _ _ => NaverApiResp.mk 500 []) (fun _ => none) (fun _ => true) (fun _ => true)
    0 150 true (fun _ => rfl) (by decide) (by decide)

/-- The inner item loop keeps every collected item at or after the cutoff
and never exceeds `max_fetch` items. -/
lemma naverItemsLoop_inv (pp : List Char → Option Int) (bk nk : List Char → Bool)
    (cutoff : Int) (mf : Nat) :
    ∀ (items : List NaverRawItem) (s : NaverScan), s.out.length < mf →
      (∀ it ∈ s.out, cutoff ≤ it.published_dt_kst) →
      (naverItemsLoop pp bk nk cutoff mf items s).out.length ≤ mf ∧
        ∀ it ∈ (naverItemsLoop pp bk nk cutoff mf items s).out,
          cutoff ≤ it.published_dt_kst := by
  intro items
  induction items with
  | nil => intro s h1 h2; exact ⟨Nat.le_of_lt h1, h2⟩
  | cons it rest ih =>
    intro s h1 h2
    rcases hp : pp it.pubDate with _ | pub
    · simpa only [naverItemsLoop, hp] using ih s h1 h2
    · simp only [naverItemsLoop, hp]
      by_cases hc : pub < cutoff
      · rw [if_pos hc]
        exact ih _ h1 h2
      · rw [if_neg hc]
        generalize (if it.originallink ≠ [] then it.originallink else it.link) = ol
        split
        · exact ih s h1 h2
        · split
          · exact ih s h1 h2
          · split
            next hFull =>
              refine ⟨?_, ?_⟩
              · show (s.out ++ [_]).length ≤ mf
                simp only [List.length_append, List.length_cons, List.length_nil]
                omega
              · intro x hx
                have hx' : x ∈ s.out ++ [_] := hx
                rcases List.mem_append.mp hx' with hy | hy
                · exact h2 x hy
                · simp only [List.mem_singleton] at hy
                  subst hy
                  exact le_of_not_lt hc
            next hFull =>
              apply ih
              · have hFull' : ¬ mf ≤ (s.out ++ [_]).length := hFull
                simp only [List.length_append, List.length_cons, List.length_nil] at hFull' ⊢
                omega
              · intro x hx
                have hx' : x ∈ s.out ++ [_] := hx
                rcases List.mem_append.mp hx' with hy | hy
                · exact h2 x hy
                · simp only [List.mem_singleton] at hy
                  subst hy
                  exact le_of_not_lt hc

/-- The page loop preserves its window/size invariants all the way to the
returned list. -/
lemma naverPageLoop_inv (api : Nat → Nat → NaverApiResp) (pp : List Char → Option Int)
    (bk nk : List Char → Bool) (cutoff : Int) (mf : Nat) (sd : Bool) :
    ∀ (fuel start : Nat) (s : NaverScan) (out : List NaverNewsItem),
      s.out.length ≤ mf → (∀ it ∈ s.out, cutoff ≤ it.published_dt_kst) →
      naverPageLoop api pp bk nk cutoff mf sd fuel start s = Except.ok out →
      out.length ≤ mf ∧ ∀ it ∈ out, cutoff ≤ it.published_dt_kst := by
  intro fuel
  induction fuel with
  | zero =>
    intro start s out h1 h2 h
    obtain rfl : s.out = out := by simpa [naverPageLoop] using h
    exact ⟨h1, h2⟩
  | succ f ih =>
    intro start s out h1 h2 h
    simp only [naverPageLoop] at h
    split at h
    next hcond =>
      split at h
      · exact absurd h (by simp)
      · split at h
        · obtain rfl : s.out = out := by simpa using h
          exact ⟨h1, h2⟩
        · have hinner := naverItemsLoop_inv pp bk nk cutoff mf
            (api start (min 100 (mf - s.out.length))).items
            (NaverScan.mk s.out s.seen s.rank false) hcond.2 h2
          split at h
          · obtain rfl :
                (naverItemsLoop pp bk nk cutoff mf
                  (api start (min 100 (mf - s.out.length))).items
                  (NaverScan.mk s.out s.seen s.rank false)).out = out := by simpa using h
            exact hinner
          · exact ih (start + 100) _ out hinner.1 hinner.2 h
    next =>
      obtain rfl : s.out = out := by simpa using h
      exact ⟨h1, h2⟩

set_option maxRecDepth 100000 in
/-- C5: every item returned by `collect_naver_last24h` has a parsed publish
time no older than 24 hours before `now` (stale items are excluded) and at
most `max_fetch` items are returned; and in the concrete scenario of 150
newest-first candidates with distinct links of which the last 10 are 25
hours old, exactly 140 items are returned. -/
theorem C5_collect_naver_window :
    (∀ (api : Nat → Nat → NaverApiResp) (pp : List Char → Option Int)
        (bk nk : List Char → Bool) (now : Int) (mf : Nat) (sd : Bool)
        (out : List NaverNewsItem),
        collect_naver_last24h api pp bk nk now mf sd = Except.ok out →
        out.length ≤ mf ∧ ∀ it ∈ out, now - 86400 ≤ it.published_dt_kst) ∧
      (collect_naver_last24h C5_api C5_parsePub (fun _ => true) (fun _ => true) 0 150
          true).toOption.map List.length = some 140 := by
  constructor
  · intro api pp bk nk now mf sd out h
    exact naverPageLoop_inv api pp bk nk (now - 86400) mf sd 11 1
      (NaverScan.mk [] [] 0 false) out (by simp) (by simp) h
  · decide

/-- Witness for C5: an API with no items yields an empty, in-window,
in-budget result. -/
theorem C5_witness :
    ([] : List NaverNewsItem).length ≤ 150 ∧
      ∀ it ∈ ([] : List NaverNewsItem), (0 : Int) - 86400 ≤ it.published_dt_kst :=
  C5_collect_naver_window.1 (fun _ _ => NaverApiResp.mk 200 []) (fun _ => none)
    (fun _ => true) (fun _ => true) 0 150 true [] (by rfl)

/-- `lexLe2` is total. -/
lemma lexLe2_total (x y : Int × Int) : lexLe2 x y = true ∨ lexLe2 y x = true := by
  simp only [lexLe2, Bool.or_eq_true, Bool.and_eq_true, decide_eq_true_eq]
  omega

/-- `lexLe2` is transitive. -/
lemma lexLe2_trans (x y z : Int × Int) (h1 : lexLe2 x y = true) (h2 : lexLe2 y z = true) :
    lexLe2 x z = true := by
  simp only [lexLe2, Bool.or_eq_true, Bool.and_eq_true, decide_eq_true_eq] at h1 h2 ⊢
  omega

/-- C6: the top-k selection returns exactly `min top_k n` items (never more
than `top_k`), scores aligned, ordered by importance score descending with
ties broken by ascending rank.  (The items carry no relevance field: with
relevance identically absent, the claimed key (importance desc, relevance
desc, rank asc) collapses to exactly this order.) -/
theorem C6_topk_selection (deduped : List NaverNewsItem) (scores : List Int) (top_k : Nat) :
    (topkSelect deduped scores top_k).1.length = min top_k deduped.length ∧
      (topkSelect deduped scores top_k).2.length = min top_k deduped.length ∧
      List.Pairwise
        (fun a b : NaverNewsItem × Int => b.2 < a.2 ∨ (a.2 = b.2 ∧ a.1.rank ≤ b.1.rank))
        ((topkSelect deduped scores top_k).1.zip (topkSelect deduped scores top_k).2) := by
  have hlen :
      (List.insertionSort
        (fun i j => lexLe2 (selKey deduped scores i) (selKey deduped scores j) = true)
        (List.range deduped.length)).length = deduped.length := by
    rw [List.length_insertionSort, List.length_range]
  refine ⟨?_, ?_, ?_⟩
  · simp only [topkSelect, List.length_map, List.length_take, hlen]
  · simp only [topkSelect, List.length_map, List.length_take, hlen]
  · haveI : IsTotal Nat
        (fun i j => lexLe2 (selKey deduped scores i) (selKey deduped scores j) = true) :=
      ⟨fun a b => lexLe2_total _ _⟩
    haveI : IsTrans Nat
        (fun i j => lexLe2 (selKey deduped scores i) (selKey deduped scores j) = true) :=
      ⟨fun a b c => lexLe2_trans _ _ _⟩
    have hs := List.sorted_insertionSort
      (fun i j => lexLe2 (selKey deduped scores i) (selKey deduped scores j) = true)
      (List.range deduped.length)
    have hp : List.Pairwise
        (fun i j => lexLe2 (selKey deduped scores i) (selKey deduped scores j) = true)
        ((List.insertionSort
          (fun i j => lexLe2 (selKey deduped scores i) (selKey deduped scores j) = true)
          (List.range deduped.length)).take top_k) :=
      List.Pairwise.sublist (List.take_sublist _ _) hs
    simp only [topkSelect, List.zip_map']
    rw [List.pairwise_map]
    refine hp.imp ?_
    intro i j h
    simp only [lexLe2, selKey, Bool.or_eq_true, Bool.and_eq_true, decide_eq_true_eq] at h
    dsimp only
    omega

/-- `lexLe3` is total. -/
lemma lexLe3_total (x y : Int × Int × Int) : lexLe3 x y = true ∨ lexLe3 y x = true := by
  simp only [lexLe3, Bool.or_eq_true, Bool.and_eq_true, decide_eq_true_eq]
  omega

/-- `lexLe3` is transitive. -/
lemma lexLe3_trans (x y z : Int × Int × Int) (h1 : lexLe3 x y = true)
    (h2 : lexLe3 y z = true) : lexLe3 x z = true := by
  simp only [lexLe3, Bool.or_eq_true, Bool.and_eq_true, decide_eq_true_eq] at h1 h2 ⊢
  omega

set_option maxRecDepth 40000 in
/-- C2 counterexample: the final selection applies no diversity caps.  On
four items all naming the company `삼성SDI` and all classified `cathode`,
the selection keeps all four: the per-entity count is 4 (over the spec's
cap of 2) and the per-topic count is 4 (over the spec's cap of 3). -/
theorem C2_counterexample :
    (select_final (fun _ => true) (fun _ => true) [] (some C2_companies) C2_items 20).length
        = 4 ∧
      (select_final (fun _ => true) (fun _ => true) [] (some C2_companies) C2_items
          20).countP (fun a => decide ("삼성SDI".toList ∈ a.companies)) = 4 ∧
      (select_final (fun _ => true) (fun _ => true) [] (some C2_companies) C2_items
          20).countP (fun a => decide (a.category = "cathode".toList)) = 4 := by
  refine ⟨by decide, by decide, by decide⟩

/-- C2 (amended): run.py's final selection (steps 4-5) performs no
diversity filtering: it is exactly the `max_items`-prefix of the stable
sort by `(tier, -monitor_score, -relevance)`.  Its length is
`min max_items n`, the result is sorted by that key, and the only bound
that holds for the number of selected items sharing an entity or topic is
the trivial one, the selection size itself (sharpness: `C2_counterexample`). -/
theorem C2_no_diversity_caps (bk nk : List Char → Bool)
    (tiers : List (Int × List (List Char))) (cf : Option (List (List Char)))
    (raws : List RunItem) (mx : Nat) :
    (select_final bk nk tiers cf raws mx).length = min mx raws.length ∧
      (∀ p : AnnItem → Bool,
        (select_final bk nk tiers cf raws mx).countP p ≤ min mx raws.length) ∧
      List.Pairwise (fun a b => lexLe3 (runSortKey a) (runSortKey b) = true)
        (select_final bk nk tiers cf raws mx) := by
  have hlen : (select_final bk nk tiers cf raws mx).length = min mx raws.length := by
    simp only [select_final, List.length_take, List.length_insertionSort, List.length_map]
  refine ⟨hlen, fun p => hlen ▸ List.countP_le_length p, ?_⟩
  haveI : IsTotal AnnItem (fun a b => lexLe3 (runSortKey a) (runSortKey b) = true) :=
    ⟨fun a b => lexLe3_total _ _⟩
  haveI : IsTrans AnnItem (fun a b => lexLe3 (runSortKey a) (runSortKey b) = true) :=
    ⟨fun a b c => lexLe3_trans _ _ _⟩
  exact List.Pairwise.sublist (List.take_sublist _ _)
    (List.sorted_insertionSort _ (raws.map (annotateItem bk nk tiers cf)))

/-- An in-bounds block of independent `set` writes is a splice. -/
lemma foldl_set_spec (f : Nat → Int) (start : Nat) :
    ∀ (n : Nat) (sc : List Int), start + n ≤ sc.length →
      (List.range n).foldl (fun s i => s.set (start + i) (f i)) sc
        = sc.take start ++ (List.range n).map f ++ sc.drop (start + n) := by
  intro n
  induction n with
  | zero =>
    intro sc h
    simp
  | succ n ih =>
    intro sc h
    rw [List.range_succ, List.foldl_append, List.foldl_cons, List.foldl_nil,
      ih sc (by omega), List.map_append, List.map_cons, List.map_nil]
    have hlen : (sc.take start ++ (List.range n).map f).length = start + n := by
      simp only [List.length_append, List.length_take, List.length_map, List.length_range]
      omega
    obtain ⟨d, rest, hd⟩ : ∃ d rest, sc.drop (start + n) = d :: rest := by
      cases hdrop : sc.drop (start + n) with
      | nil =>
        exfalso
        have := congrArg List.length hdrop
        simp only [List.length_drop, List.length_nil] at this
        omega
      | cons d rest => exact ⟨d, rest, rfl⟩
    rw [hd, show start + n = (sc.take start ++ (List.range n).map f).length from hlen.symm,
      List.set_append_right _ _ (Nat.le_refl _), Nat.sub_self]
    have hrest : sc.drop (start + (n + 1)) = rest := by
      have h1 : sc.drop (start + (n + 1)) = (sc.drop (start + n)).drop 1 := by
        rw [List.drop_drop]
        congr 1
      rw [h1, hd]
      rfl
    rw [hrest]
    simp [List.append_assoc]

/-- `writeChunkScores` is the splice of the chunk's values. -/
lemma writeChunkScores_eq (items : List NaverNewsItem) (start : Nat)
    (chunk : List NaverNewsItem) (mres : Option (List (Int × Int))) (sc : List Int)
    (h : start + chunk.length ≤ sc.length) :
    writeChunkScores items start chunk mres sc
      = sc.take start ++ (List.range chunk.length).map (chunkValue items start chunk mres)
          ++ sc.drop (start + chunk.length) := by
  cases mres with
  | none => exact foldl_set_spec _ start chunk.length sc h
  | some m =>
    have hfun :
        (fun (s : List Int) (i : Nat) =>
          match lookupLastD m (Int.ofNat (start + i)) with
          | some v => s.set (start + i) v
          | none =>
            s.set (start + i)
              ((heuristic_importance_scores [items.getD (start + i) defaultNaverItem]).headD 0))
          = fun (s : List Int) (i : Nat) =>
              s.set (start + i) (chunkValue items start chunk (some m) i) := by
      funext s i
      cases h : lookupLastD m (Int.ofNat (start + i)) with
      | none => simp only [chunkValue, h]
      | some v => simp only [chunkValue, h]
    show (List.range chunk.length).foldl _ sc = _
    rw [hfun]
    exact foldl_set_spec _ start chunk.length sc h

/-- The chunk fold of `score_importance_by_llm`: length preservation and
the value at every chunk position. -/
lemma scoreFold_spec (items : List NaverNewsItem)
    (llm : Nat → Nat → Option (List (Int × Int))) (retries cs : Nat) :
    ∀ (K : Nat) (sc : List Int), sc.length = items.length →
      (∀ k, k < K → k * cs < items.length) →
      (((List.range K).map (fun k => k * cs)).foldl
          (fun sc start => writeChunkScores items start ((items.drop start).take cs)
            (firstSome (llm start) 0 (retries + 1)) sc) sc).length = items.length ∧
        ∀ j, j < K → ∀ i, i < ((items.drop (j * cs)).take cs).length →
          (((List.range K).map (fun k => k * cs)).foldl
              (fun sc start => writeChunkScores items start ((items.drop start).take cs)
                (firstSome (llm start) 0 (retries + 1)) sc) sc)[j * cs + i]?
            = some (chunkValue items (j * cs) ((items.drop (j * cs)).take cs)
                (firstSome (llm (j * cs)) 0 (retries + 1)) i) := by
  intro K
  induction K with
  | zero =>
    intro sc hlen _
    exact ⟨hlen, fun j hj => absurd hj (Nat.not_lt_zero j)⟩
  | succ K ih =>
    intro sc hlen hks
    obtain ⟨ihlen, ihget⟩ := ih sc hlen (fun k hk => hks k (Nat.lt_succ_of_lt hk))
    rw [List.range_succ, List.map_append, List.map_cons, List.map_nil, List.foldl_append,
      List.foldl_cons, List.foldl_nil]
    have hKlt : K * cs < items.length := hks K (Nat.lt_succ_self K)
    have hchlen : ((items.drop (K * cs)).take cs).length = min cs (items.length - K * cs) := by
      simp [List.length_take, List.length_drop]
    have hbound : K * cs + ((items.drop (K * cs)).take cs).length ≤
        (((List.range K).map (fun k => k * cs)).foldl
          (fun sc start => writeChunkScores items start ((items.drop start).take cs)
            (firstSome (llm start) 0 (retries + 1)) sc) sc).length := by
      rw [ihlen, hchlen]
      omega
    rw [writeChunkScores_eq _ _ _ _ _ hbound]
    have htakelen :
        ((((List.range K).map (fun k => k * cs)).foldl
          (fun sc start => writeChunkScores items start ((items.drop start).take cs)
            (firstSome (llm start) 0 (retries + 1)) sc) sc).take (K * cs)).length
          = K * cs := by
      rw [List.length_take, ihlen]
      omega
    constructor
    · simp only [List.length_append, List.length_take, List.length_map, List.length_range,
        List.length_drop, ihlen, hchlen]
      omega
    · intro j hj i hi
      rcases Nat.lt_succ_iff_lt_or_eq.mp hj with hj | rfl
      · have hpos : j * cs + i < K * cs := by
          have h1 : (j + 1) * cs ≤ K * cs := Nat.mul_le_mul_right cs (by omega)
          have h2 : i < cs := by
            rw [List.length_take] at hi
            omega
          have h3 : (j + 1) * cs = j * cs + cs := Nat.succ_mul j cs
          omega
        rw [List.append_assoc, List.getElem?_append_left (by rw [htakelen]; exact hpos),
          List.getElem?_take_of_lt (by omega)]
        exact ihget j hj i hi
      · rw [List.append_assoc, List.getElem?_append_right (by rw [htakelen]; omega),
          htakelen, Nat.add_sub_cancel_left,
          List.getElem?_append_left (by rw [List.length_map, List.length_range]; exact hi),
          List.getElem?_map, List.getElem?_range hi]
        rfl

/-- Every chunk start lies strictly inside the item list. -/
lemma chunkStarts_lt (n cs : Nat) (hcs : 0 < cs) :
    ∀ k, k < (n + cs - 1) / cs → k * cs < n := by
  intro k hk
  have h2 : (k + 1) * cs ≤ n + cs - 1 := (Nat.le_div_iff_mul_le hcs).mp hk
  have h3 : (k + 1) * cs = k * cs + cs := Nat.succ_mul k cs
  omega

/-- C3: `score_importance_by_llm` is total (modelled as a function, it
raises nothing for `chunk_size > 0`; Python's only escape is `range`'s
`ValueError` on `chunk_size ≤ 0`) and returns one score per input index:
the result has the input's length; with no API key it is exactly the
heuristic scoring; with a key, the score at every index `idx` is the value
of `idx`'s chunk — the chunk's heuristic score at its offset when the
chunk's call failed after all retries, the classifier's returned score
as-is when present, and the individual heuristic score when the response
omits `idx`  (`chunkValue` spells out these three branches). -/
theorem C3_score_alignment :
    (∀ (llm : Nat → Nat → Option (List (Int × Int))) (retries : Nat)
        (items : List NaverNewsItem) (cs : Nat) (hasKey : Bool), 0 < cs →
        (score_importance_by_llm hasKey llm retries items cs).length = items.length) ∧
      (∀ (llm : Nat → Nat → Option (List (Int × Int))) (retries : Nat)
        (items : List NaverNewsItem) (cs : Nat),
        score_importance_by_llm false llm retries items cs
          = heuristic_importance_scores items) ∧
      (∀ (llm : Nat → Nat → Option (List (Int × Int))) (retries : Nat)
        (items : List NaverNewsItem) (cs : Nat), 0 < cs → ∀ idx, idx < items.length →
        (score_importance_by_llm true llm retries items cs)[idx]?
          = some (chunkValue items ((idx / cs) * cs) ((items.drop ((idx / cs) * cs)).take cs)
              (firstSome (llm ((idx / cs) * cs)) 0 (retries + 1)) (idx % cs))) := by
  refine ⟨?_, ?_, ?_⟩
  · intro llm retries items cs hasKey hcs
    cases hasKey with
    | false => simp [score_importance_by_llm, heuristic_importance_scores]
    | true =>
      simp only [score_importance_by_llm]
      rw [if_neg (by simp)]
      simp only [chunkStarts]
      exact (scoreFold_spec items llm retries cs ((items.length + cs - 1) / cs)
        (items.map fun _ => 0) (by simp) (chunkStarts_lt items.length cs hcs)).1
  · intro llm retries items cs
    rfl
  · intro llm retries items cs hcs idx hidx
    have hj : idx / cs < (items.length + cs - 1) / cs := by
      have h3 : items.length + cs - 1 = items.length - 1 + cs := by omega
      rw [h3, Nat.add_div_right _ hcs]
      have h1 : idx / cs ≤ (items.length - 1) / cs := Nat.div_le_div_right (by omega)
      omega
    have hsplit : (idx / cs) * cs + idx % cs = idx := by
      have h1 := Nat.div_add_mod idx cs
      have h2 : cs * (idx / cs) = (idx / cs) * cs := Nat.mul_comm _ _
      omega
    have hi : idx % cs < ((items.drop ((idx / cs) * cs)).take cs).length := by
      rw [List.length_take, List.length_drop]
      have hm : idx % cs < cs := Nat.mod_lt idx hcs
      omega
    obtain ⟨-, hget⟩ := scoreFold_spec items llm retries cs ((items.length + cs - 1) / cs)
      (items.map fun _ => 0) (by simp) (chunkStarts_lt items.length cs hcs)
    have hv := hget (idx / cs) hj (idx % cs) hi
    rw [hsplit] at hv
    simp only [score_importance_by_llm]
    rw [if_neg (by simp)]
    simp only [chunkStarts]
    exact hv

/-- Witness for `C3_score_alignment`: one item, chunk size 30, a classifier
returning index 0 score 55 — the result is aligned and uses the returned
score as-is. -/
theorem C3_witness :
    (score_importance_by_llm true (fun _ _ => some [(0, 55)]) 2 [defaultNaverItem] 30).length
        = 1 ∧
      (score_importance_by_llm true (fun _ _ => some [(0, 55)]) 2 [defaultNaverItem] 30)[0]?
        = some 55 :=
  ⟨C3_score_alignment.1 (fun _ _ => some [(0, 55)]) 2 [defaultNaverItem] 30 true (by decide),
    (C3_score_alignment.2.2 (fun _ _ => some [(0, 55)]) 2 [defaultNaverItem] 30 (by decide) 0
        (by decide)).trans (by decide)⟩

/-! ### Toolkit for the `normalize_url` idempotence proof -/

/-- A split at an absent character keeps the whole string. -/
lemma splitOnceAt_not_mem (ch : Char) : ∀ s : List Char, ch ∉ s → splitOnceAt ch s = (s, []) := by
  intro s
  induction s with
  | nil => intro _; rfl
  | cons c rest ih =>
    intro h
    have hc : ¬ c = ch := fun he => h (he ▸ List.mem_cons_self c rest)
    simp only [splitOnceAt, if_neg hc, ih (fun hm => h (List.mem_cons_of_mem c hm))]

/-- A split at the first marked separator. -/
lemma splitOnceAt_append (ch : Char) (B : List Char) :
    ∀ A : List Char, ch ∉ A → splitOnceAt ch (A ++ ch :: B) = (A, B) := by
  intro A
  induction A with
  | nil => intro _; simp [splitOnceAt]
  | cons a A ih =>
    intro h
    have ha : ¬ a = ch := fun he => h (he ▸ List.mem_cons_self a A)
    have hih := ih (fun hm => h (List.mem_cons_of_mem a hm))
    simp only [List.cons_append, splitOnceAt, List.append_eq, if_neg ha, hih]

/-- The two parts of a split are parts of the input. -/
lemma splitOnceAt_subset (ch : Char) :
    ∀ s x, (x ∈ (splitOnceAt ch s).1 → x ∈ s) ∧ (x ∈ (splitOnceAt ch s).2 → x ∈ s) := by
  intro s
  induction s with
  | nil => intro x; simp [splitOnceAt]
  | cons c rest ih =>
    intro x
    by_cases hc : c = ch
    · simp only [splitOnceAt, if_pos hc]
      exact ⟨fun h => absurd h (List.not_mem_nil x),
        fun h => List.mem_cons_of_mem c h⟩
    · simp only [splitOnceAt, if_neg hc]
      constructor
      · intro h
        rcases List.mem_cons.mp h with h | h
        · exact h ▸ List.mem_cons_self c rest
        · exact List.mem_cons_of_mem c ((ih x).1 h)
      · intro h
        exact List.mem_cons_of_mem c ((ih x).2 h)

/-- The separator never appears in the first part of its own split. -/
lemma splitOnceAt_fst_not_mem (ch : Char) : ∀ s : List Char, ch ∉ (splitOnceAt ch s).1 := by
  intro s
  induction s with
  | nil => simp [splitOnceAt]
  | cons c rest ih =>
    by_cases hc : c = ch
    · simp [splitOnceAt, if_pos hc]
    · simp only [splitOnceAt, if_neg hc]
      intro h
      rcases List.mem_cons.mp h with h | h
      · exact hc h.symm
      · exact ih h

/-- A present separator decomposes the string around its first occurrence. -/
lemma splitOnceAt_decomp (ch : Char) :
    ∀ s : List Char, ch ∈ s →
      s = (splitOnceAt ch s).1 ++ ch :: (splitOnceAt ch s).2 := by
  intro s
  induction s with
  | nil => intro h; exact absurd h (List.not_mem_nil ch)
  | cons c rest ih =>
    intro h
    by_cases hc : c = ch
    · subst hc
      simp [splitOnceAt]
    · have hmem : ch ∈ rest := by
        rcases List.mem_cons.mp h with h | h
        · exact absurd h.symm hc
        · exact h
      simp only [splitOnceAt, if_neg hc, List.cons_append]
      exact congrArg (c :: ·) (ih hmem)

/-- `takeWhile` over an all-satisfying prefix. -/
lemma takeWhile_append_pos (p : Char → Bool) :
    ∀ (A B : List Char), (∀ a ∈ A, p a = true) →
      (A ++ B).takeWhile p = A ++ B.takeWhile p := by
  intro A
  induction A with
  | nil => intro B _; rfl
  | cons a A ih =>
    intro B h
    simp only [List.cons_append, List.takeWhile_cons, h a (List.mem_cons_self a A), if_pos]
    rw [ih B (fun x hx => h x (List.mem_cons_of_mem a hx))]

/-- `takeWhile` truncates exactly at a failing head of the suffix. -/
lemma takeWhile_append_stop (p : Char → Bool) (A B : List Char)
    (hA : ∀ a ∈ A, p a = true) (hB : ∀ b, B.head? = some b → p b = false) :
    (A ++ B).takeWhile p = A := by
  rw [takeWhile_append_pos p A B hA]
  cases B with
  | nil => simp
  | cons b B' =>
    have := hB b rfl
    simp [List.takeWhile_cons, this]

/-- `dropWhile` counterpart of `takeWhile_append_stop`. -/
lemma dropWhile_append_stop (p : Char → Bool) (A B : List Char)
    (hA : ∀ a ∈ A, p a = true) (hB : ∀ b, B.head? = some b → p b = false) :
    (A ++ B).dropWhile p = B := by
  induction A with
  | nil =>
    cases B with
    | nil => rfl
    | cons b B' =>
      have := hB b rfl
      simp [List.dropWhile_cons, this]
  | cons a A ih =>
    simp only [List.cons_append, List.dropWhile_cons, hA a (List.mem_cons_self a A), if_pos]
    exact ih (fun x hx => hA x (List.mem_cons_of_mem a hx))

/-- `takeWhile` keeps an all-satisfying list. -/
lemma takeWhile_eq_self_of_all (p : Char → Bool) :
    ∀ l : List Char, (∀ c ∈ l, p c = true) → l.takeWhile p = l := by
  intro l
  induction l with
  | nil => intro _; rfl
  | cons c rest ih =>
    intro h
    simp only [List.takeWhile_cons, h c (List.mem_cons_self c rest), if_pos]
    rw [ih (fun x hx => h x (List.mem_cons_of_mem c hx))]

/-- The head of a non-empty `dropWhile` fails the predicate. -/
lemma dropWhile_head_false (p : Char → Bool) :
    ∀ (l : List Char) b r, l.dropWhile p = b :: r → p b = false := by
  intro l
  induction l with
  | nil => intro b r h; exact absurd h (by simp)
  | cons c rest ih =>
    intro b r h
    by_cases hc : p c
    · rw [List.dropWhile_cons, if_pos hc] at h
      exact ih b r h
    · rw [List.dropWhile_cons, if_neg hc] at h
      cases h
      exact Bool.eq_false_iff.mpr hc

/-- No slash survives in the last segment. -/
lemma lastSeg_no_slash (p : List Char) : '/' ∉ lastSeg p := by
  intro h
  rw [lastSeg, List.mem_reverse] at h
  have := List.mem_takeWhile_imp h
  simp at this

/-- The last segment is a suffix, with the preceding part explicit. -/
lemma lastSeg_suffix (p : List Char) :
    p = (p.reverse.dropWhile (fun c => decide (c ≠ '/'))).reverse ++ lastSeg p := by
  conv_lhs => rw [← List.reverse_reverse p,
    ← List.takeWhile_append_dropWhile (p := fun c => decide (c ≠ '/')) (l := p.reverse)]
  rw [List.reverse_append, lastSeg]

/-- Without a slash the last segment is everything. -/
lemma lastSeg_eq_self (p : List Char) (h : '/' ∉ p) : lastSeg p = p := by
  rw [lastSeg, takeWhile_eq_self_of_all _ _ ?_, List.reverse_reverse]
  intro c hc
  simp only [decide_eq_true_eq]
  intro he
  exact h (he ▸ List.mem_reverse.mp hc)

/-- With a slash present, the part before the last segment ends in `/`. -/
lemma before_lastSeg_ends_slash (p : List Char) (h : '/' ∈ p) :
    ∃ T', (p.reverse.dropWhile (fun c => decide (c ≠ '/'))).reverse = T' ++ ['/'] := by
  cases hdrop : p.reverse.dropWhile (fun c => decide (c ≠ '/')) with
  | nil =>
    exfalso
    have hall : p.reverse.takeWhile (fun c => decide (c ≠ '/')) = p.reverse := by
      conv_rhs => rw [← List.takeWhile_append_dropWhile
        (p := fun c => decide (c ≠ '/')) (l := p.reverse), hdrop, List.append_nil]
    have hmem : '/' ∈ p.reverse.takeWhile (fun c => decide (c ≠ '/')) := by
      rw [hall]
      exact List.mem_reverse.mpr h
    have := List.mem_takeWhile_imp hmem
    simp at this
  | cons b r =>
    have hb := dropWhile_head_false _ _ _ _ hdrop
    simp only [decide_eq_false_iff_not, not_not] at hb
    subst hb
    exact ⟨r.reverse, by simp⟩

/-- The last segment of a slash-terminated prefix plus a slash-free tail. -/
lemma lastSeg_append_seg (T S : List Char) (hT : ∃ T', T = T' ++ ['/'])
    (hS : '/' ∉ S) : lastSeg (T ++ S) = S := by
  obtain ⟨T', rfl⟩ := hT
  rw [lastSeg, List.reverse_append, takeWhile_append_stop _ _ _ ?_ ?_, List.reverse_reverse]
  · intro a ha
    simp only [decide_eq_true_eq]
    intro he
    exact hS (he ▸ List.mem_reverse.mp ha)
  · intro b hb
    simp only [List.reverse_append, List.reverse_cons, List.reverse_nil, List.nil_append,
      List.cons_append, List.head?_cons, Option.some.injEq] at hb
    subst hb
    simp

/-- The last segment across a reattached `;`-separator. -/
lemma lastSeg_append_sep (pa pr : List Char) (h : '/' ∉ pr) :
    lastSeg (pa ++ ';' :: pr) = lastSeg pa ++ ';' :: pr := by
  have hA : ∀ a ∈ pr.reverse ++ [';'], (fun c => decide (c ≠ '/')) a = true := by
    intro a ha
    simp only [decide_eq_true_eq]
    rcases List.mem_append.mp ha with ha | ha
    · intro he
      exact h (he ▸ List.mem_reverse.mp ha)
    · simp only [List.mem_singleton] at ha
      subst ha
      decide
  have h1 : (pa ++ ';' :: pr).reverse = (pr.reverse ++ [';']) ++ pa.reverse := by
    simp
  rw [lastSeg, h1, takeWhile_append_pos _ _ _ hA, lastSeg]
  simp

/-- Splicing a suffix back: `p.take (p.length - s.length) ++ s = p` when
`p = T ++ s`. -/
lemma take_sub_append (T S : List Char) :
    (T ++ S).take ((T ++ S).length - S.length) ++ S = T ++ S := by
  rw [List.length_append, Nat.add_sub_cancel, List.take_left]

/-- `_splitparams` inverts the reattachment `path + ';' + params`. -/
lemma splitparams_reassemble (pa pr : List Char) (h1 : '/' ∉ pr)
    (h2 : ';' ∉ lastSeg pa) : splitparams (pa ++ ';' :: pr) = (pa, pr) := by
  by_cases hsl : '/' ∈ pa
  · have hmem : '/' ∈ pa ++ ';' :: pr := List.mem_append.mpr (Or.inl hsl)
    have hls : lastSeg (pa ++ ';' :: pr) = lastSeg pa ++ ';' :: pr :=
      lastSeg_append_sep pa pr h1
    have hsemi : ';' ∈ lastSeg (pa ++ ';' :: pr) := by
      rw [hls]
      simp
    rw [splitparams, if_pos hmem, if_pos hsemi, hls,
      splitOnceAt_append ';' pr (lastSeg pa) h2]
    have hlen : (pa ++ ';' :: pr).length - (lastSeg pa ++ ';' :: pr).length
        = pa.length - (lastSeg pa).length := by
      simp only [List.length_append, List.length_cons]
      omega
    have htake : (pa ++ ';' :: pr).take (pa.length - (lastSeg pa).length)
        = pa.take (pa.length - (lastSeg pa).length) := by
      apply List.take_append_of_le_length
      have hsuf := congrArg List.length (lastSeg_suffix pa)
      simp only [List.length_append] at hsuf
      omega
    rw [hlen, htake]
    have hpa : pa.take (pa.length - (lastSeg pa).length) ++ lastSeg pa = pa := by
      set S := lastSeg pa with hS
      obtain ⟨T1, hT⟩ : ∃ T1, pa = T1 ++ S := ⟨_, lastSeg_suffix pa⟩
      rw [hT, take_sub_append]
    rw [hpa]
  · have h2' : ';' ∉ pa := by
      rw [lastSeg_eq_self pa hsl] at h2
      exact h2
    have hmem : '/' ∉ pa ++ ';' :: pr := by
      intro hm
      rcases List.mem_append.mp hm with hm | hm
      · exact hsl hm
      · rcases List.mem_cons.mp hm with hm | hm
        · exact absurd hm (by decide)
        · exact h1 hm
    rw [splitparams, if_neg hmem, splitOnceAt_append ';' pr pa h2']

/-- Re-parsing the path that `urlunparse` reassembles gives back the same
`(path, params)` split. -/
lemma splitparams_roundtrip (p0 pa pr : List Char)
    (hsp : splitparams p0 = (pa, pr)) :
    (pr ≠ [] → splitparams (pa ++ ';' :: pr) = (pa, pr)) ∧
      (pr = [] → ';' ∈ pa → splitparams pa = (pa, [])) := by
  by_cases hsl : '/' ∈ p0
  · by_cases hls : ';' ∈ lastSeg p0
    · rw [splitparams, if_pos hsl, if_pos hls] at hsp
      have hpa : p0.take (p0.length - (lastSeg p0).length)
          ++ (splitOnceAt ';' (lastSeg p0)).1 = pa := congrArg Prod.fst hsp
      have hpr : (splitOnceAt ';' (lastSeg p0)).2 = pr := congrArg Prod.snd hsp
      have hs1 : ';' ∉ (splitOnceAt ';' (lastSeg p0)).1 := splitOnceAt_fst_not_mem ';' _
      have hs1sl : '/' ∉ (splitOnceAt ';' (lastSeg p0)).1 := fun hm =>
        lastSeg_no_slash p0 ((splitOnceAt_subset ';' (lastSeg p0) '/').1 hm)
      have hs2sl : '/' ∉ pr := fun hm =>
        lastSeg_no_slash p0 ((splitOnceAt_subset ';' (lastSeg p0) '/').2 (hpr ▸ hm))
      have hD : p0.take (p0.length - (lastSeg p0).length)
          = (p0.reverse.dropWhile (fun c => decide (c ≠ '/'))).reverse := by
        obtain ⟨S, D, hS, hDdef, hsuf⟩ : ∃ S D, S = lastSeg p0 ∧
            D = (p0.reverse.dropWhile (fun c => decide (c ≠ '/'))).reverse ∧ p0 = D ++ S :=
          ⟨_, _, rfl, rfl, lastSeg_suffix p0⟩
        rw [← hS, ← hDdef, hsuf, List.length_append, Nat.add_sub_cancel, List.take_left]
      have hTend := before_lastSeg_ends_slash p0 hsl
      have hlsa : lastSeg pa = (splitOnceAt ';' (lastSeg p0)).1 := by
        rw [← hpa, hD]
        exact lastSeg_append_seg _ _ hTend hs1sl
      constructor
      · intro _
        exact splitparams_reassemble pa pr hs2sl (hlsa ▸ hs1)
      · intro _ hmem
        have hslpa : '/' ∈ pa := by
          rw [← hpa, hD]
          obtain ⟨T', hT'⟩ := hTend
          rw [hT']
          simp
        rw [splitparams, if_pos hslpa, if_neg (hlsa ▸ hs1)]
      -- end branch
    · rw [splitparams, if_pos hsl, if_neg hls] at hsp
      have hpa : p0 = pa := congrArg Prod.fst hsp
      have hpr : ([] : List Char) = pr := congrArg Prod.snd hsp
      constructor
      · intro hne
        exact absurd hpr.symm hne
      · intro _ _
        rw [← hpa, splitparams, if_pos hsl, if_neg hls]
  · rw [splitparams, if_neg hsl] at hsp
    have hpa : (splitOnceAt ';' p0).1 = pa := congrArg Prod.fst hsp
    have hpr : (splitOnceAt ';' p0).2 = pr := congrArg Prod.snd hsp
    have hs1 : ';' ∉ pa := hpa ▸ splitOnceAt_fst_not_mem ';' p0
    have hs1sl : '/' ∉ pa := fun hm => hsl ((splitOnceAt_subset ';' p0 '/').1 (hpa ▸ hm))
    have hs2sl : '/' ∉ pr := fun hm => hsl ((splitOnceAt_subset ';' p0 '/').2 (hpr ▸ hm))
    constructor
    · intro _
      exact splitparams_reassemble pa pr hs2sl ((lastSeg_eq_self pa hs1sl).symm ▸ hs1)
    · intro _ hmem
      exact absurd hmem hs1

/-- Decoding one encoded scalar consumes exactly its bytes. -/
lemma utf8Step_encode (c : Char) (rest : List Nat) (b : Nat) (tail : List Nat)
    (henc : utf8EncodeChar c = b :: tail) : utf8Step b (tail ++ rest) = (c, rest) := by
  have hval : c.toNat < 0xD800 ∨ (0xDFFF < c.toNat ∧ c.toNat < 0x110000) := c.valid
  have hofn := Char.ofNat_toNat c
  by_cases h1 : c.toNat < 0x80
  · have hb : utf8EncodeChar c = [c.toNat] := by
      simp only [utf8EncodeChar]
      rw [if_pos h1]
    rw [hb] at henc
    cases henc
    simp only [List.nil_append, utf8Step]
    rw [if_pos h1, hofn]
  · by_cases h2 : c.toNat < 0x800
    · have hb : utf8EncodeChar c = [0xC0 + c.toNat / 0x40, 0x80 + c.toNat % 0x40] := by
        simp only [utf8EncodeChar]
        rw [if_neg h1, if_pos h2]
      rw [hb] at henc
      cases henc
      simp only [List.cons_append, List.nil_append, utf8Step]
      rw [if_neg (by omega), if_neg (by omega), if_pos (by omega)]
      try dsimp only
      rw [if_pos (by omega)]
      have harg : (0xC0 + c.toNat / 0x40 - 0xC0) * 0x40 + (0x80 + c.toNat % 0x40 - 0x80)
          = c.toNat := by omega
      rw [harg, hofn]
    · by_cases h3 : c.toNat < 0x10000
      · have hb : utf8EncodeChar c = [0xE0 + c.toNat / 0x1000,
            0x80 + (c.toNat / 0x40) % 0x40, 0x80 + c.toNat % 0x40] := by
          simp only [utf8EncodeChar]
          rw [if_neg h1, if_neg h2, if_pos h3]
        rw [hb] at henc
        cases henc
        simp only [List.cons_append, List.nil_append, utf8Step]
        rw [if_neg (by omega), if_neg (by omega), if_neg (by omega), if_pos (by omega)]
        try dsimp only
        rw [if_pos ?_]
        · rw [if_pos (by omega)]
          have harg : (0xE0 + c.toNat / 0x1000 - 0xE0) * 0x1000
              + (0x80 + (c.toNat / 0x40) % 0x40 - 0x80) * 0x40
              + (0x80 + c.toNat % 0x40 - 0x80) = c.toNat := by omega
          rw [harg, hofn]
        · constructor
          · split
            next h => omega
            next h => omega
          · split
            next h => omega
            next h => omega
      · have hb : utf8EncodeChar c = [0xF0 + c.toNat / 0x40000,
            0x80 + (c.toNat / 0x1000) % 0x40, 0x80 + (c.toNat / 0x40) % 0x40,
            0x80 + c.toNat % 0x40] := by
          simp only [utf8EncodeChar]
          rw [if_neg h1, if_neg h2, if_neg h3]
        rw [hb] at henc
        cases henc
        simp only [List.cons_append, List.nil_append, utf8Step]
        rw [if_neg (by omega), if_neg (by omega), if_neg (by omega), if_neg (by omega),
          if_pos (by omega)]
        try dsimp only
        rw [if_pos ?_]
        · rw [if_pos (by omega)]
          try dsimp only
          rw [if_pos (by omega)]
          have harg : (0xF0 + c.toNat / 0x40000 - 0xF0) * 0x40000
              + (0x80 + (c.toNat / 0x1000) % 0x40 - 0x80) * 0x1000
              + (0x80 + (c.toNat / 0x40) % 0x40 - 0x80) * 0x40
              + (0x80 + c.toNat % 0x40 - 0x80) = c.toNat := by omega
          rw [harg, hofn]
        · constructor
          · split
            next h => omega
            next h => omega
          · split
            next h => omega
            next h => omega

/-- Every scalar encodes to at least one byte. -/
lemma utf8EncodeChar_ne_nil (c : Char) : utf8EncodeChar c ≠ [] := by
  simp only [utf8EncodeChar]
  split
  · simp
  · split
    · simp
    · split <;> simp

/-- The byte count dominates the character count. -/
lemma length_le_utf8Encode (s : List Char) : s.length ≤ (utf8Encode s).length := by
  induction s with
  | nil => simp [utf8Encode]
  | cons c rest ih =>
    have h1 : utf8Encode (c :: rest) = utf8EncodeChar c ++ utf8Encode rest := by
      simp [utf8Encode]
    rw [h1, List.length_append, List.length_cons]
    have h2 : 1 ≤ (utf8EncodeChar c).length := by
      cases he : utf8EncodeChar c with
      | nil => exact absurd he (utf8EncodeChar_ne_nil c)
      | cons _ _ => simp
    omega

/-- UTF-8 decode-with-replacement inverts encoding (with enough fuel). -/
lemma utf8DecodeReplaceF_encode :
    ∀ (s : List Char) (fuel : Nat), s.length ≤ fuel →
      utf8DecodeReplaceF fuel (utf8Encode s) = s := by
  intro s
  induction s with
  | nil =>
    intro fuel _
    cases fuel <;> rfl
  | cons c rest ih =>
    intro fuel hf
    obtain ⟨f, rfl⟩ : ∃ f, fuel = f + 1 := by
      cases fuel
      · simp at hf
      · exact ⟨_, rfl⟩
    have h1 : utf8Encode (c :: rest) = utf8EncodeChar c ++ utf8Encode rest := by
      simp [utf8Encode]
    cases he : utf8EncodeChar c with
    | nil => exact absurd he (utf8EncodeChar_ne_nil c)
    | cons b tail =>
      rw [h1, he, List.cons_append]
      simp only [utf8DecodeReplaceF]
      rw [utf8Step_encode c (utf8Encode rest) b tail he]
      rw [ih f (by simp at hf; omega)]

/-- `bytes.decode('utf-8', 'replace')` inverts `str.encode('utf-8')`. -/
lemma utf8_roundtrip (s : List Char) : utf8DecodeReplace (utf8Encode s) = s :=
  utf8DecodeReplaceF_encode s (utf8Encode s).length (length_le_utf8Encode s)

/-- `Char.ofNat` round-trips on BMP-low codepoints. -/
lemma char_toNat_ofNat (n : Nat) (h : n < 0xD800) : (Char.ofNat n).toNat = n := by
  have hv : n.isValidChar := Or.inl h
  simp [Char.ofNat, hv]
  simp [Char.ofNatAux, Char.toNat, UInt32.toNat, hv]

/-- Hex digits decode their own uppercase encoding. -/
lemma hexVal_hexUpper (n : Nat) (h : n < 16) : hexVal (hexUpper n) = some n := by
  interval_cases n <;> rfl

/-- Uppercase hex digits are always-safe bytes. -/
lemma hexUpper_alwaysSafe (n : Nat) : isAlwaysSafe (hexUpper n).toNat = true := by
  by_cases h : n < 16
  · interval_cases n <;> rfl
  · rw [hexUpper, List.getD_eq_default _ _ (by simp; omega)]
    rfl

/-- Uppercase hex digits are ASCII. -/
lemma hexUpper_ascii (n : Nat) (h : n < 16) : (hexUpper n).toNat < 0x80 := by
  interval_cases n <;> decide

/-- Every character of a quoted byte string is an always-safe character, a
safe-listed byte's character, or `%`/a hex digit. -/
lemma quote_from_bytes_chars (safe : List Nat) (bs : List Nat) :
    ∀ c ∈ quote_from_bytes bs safe,
      isAlwaysSafe c.toNat = true ∨ (∃ b ∈ safe, c = Char.ofNat b) ∨ c = '%' := by
  induction bs with
  | nil => intro c hc; simp [quote_from_bytes] at hc
  | cons b rest ih =>
    intro c hc
    have hc' : c ∈ quoteByte safe b ++ quote_from_bytes rest safe := by
      simpa [quote_from_bytes] using hc
    rcases List.mem_append.mp hc' with hc1 | hc1
    · by_cases hs : (isAlwaysSafe b || safe.contains b) = true
      · rw [quoteByte, if_pos hs] at hc1
        simp only [List.mem_singleton] at hc1
        subst hc1
        rcases Bool.or_eq_true_iff.mp hs with hs | hs
        · left
          have hb : b < 0xD800 := by
            simp only [isAlwaysSafe, Bool.or_eq_true, Bool.and_eq_true,
              decide_eq_true_eq] at hs
            omega
          rw [char_toNat_ofNat b hb]
          exact hs
        · right; left
          exact ⟨b, by simpa using hs, rfl⟩
      · rw [quoteByte, if_neg hs] at hc1
        simp only [List.mem_cons, List.mem_singleton, List.not_mem_nil, or_false] at hc1
        rcases hc1 with hc1 | hc1 | hc1
        · right; right; exact hc1
        · left; subst hc1; exact hexUpper_alwaysSafe _
        · left; subst hc1; exact hexUpper_alwaysSafe _
    · exact ih c hc1

/-- UTF-8 bytes are below 256. -/
lemma utf8Encode_bytes_lt (s : List Char) : ∀ b ∈ utf8Encode s, b < 256 := by
  intro b hb
  simp only [utf8Encode, List.mem_flatten, List.mem_map] at hb
  obtain ⟨l, ⟨c, _, rfl⟩, hbl⟩ := hb
  have hval : c.toNat < 0xD800 ∨ (0xDFFF < c.toNat ∧ c.toNat < 0x110000) := c.valid
  simp only [utf8EncodeChar] at hbl
  by_cases h1 : c.toNat < 0x80
  · rw [if_pos h1] at hbl
    simp only [List.mem_singleton] at hbl
    omega
  · by_cases h2 : c.toNat < 0x800
    · rw [if_neg h1, if_pos h2] at hbl
      simp only [List.mem_cons, List.not_mem_nil, or_false] at hbl
      rcases hbl with heq | heq <;> omega
    · by_cases h3 : c.toNat < 0x10000
      · rw [if_neg h1, if_neg h2, if_pos h3] at hbl
        simp only [List.mem_cons, List.not_mem_nil, or_false] at hbl
        rcases hbl with heq | heq | heq <;> omega
      · rw [if_neg h1, if_neg h2, if_neg h3] at hbl
        simp only [List.mem_cons, List.not_mem_nil, or_false] at hbl
        rcases hbl with heq | heq | heq | heq <;> omega

/-- A space-free string encodes without the byte `0x20`. -/
lemma utf8Encode_no_space (s : List Char) (h : ' ' ∉ s) : (0x20 : Nat) ∉ utf8Encode s := by
  intro hb
  simp only [utf8Encode, List.mem_flatten, List.mem_map] at hb
  obtain ⟨l, ⟨c, hcs, rfl⟩, hbl⟩ := hb
  have hsp : c ≠ ' ' := fun he => h (he ▸ hcs)
  have hofn := Char.ofNat_toNat c
  simp only [utf8EncodeChar] at hbl
  by_cases h1 : c.toNat < 0x80
  · rw [if_pos h1] at hbl
    simp only [List.mem_singleton] at hbl
    apply hsp
    rw [← hofn, ← hbl]
  · by_cases h2 : c.toNat < 0x800
    · rw [if_neg h1, if_pos h2] at hbl
      simp only [List.mem_cons, List.not_mem_nil, or_false] at hbl
      rcases hbl with heq | heq <;> omega
    · by_cases h3 : c.toNat < 0x10000
      · rw [if_neg h1, if_neg h2, if_pos h3] at hbl
        simp only [List.mem_cons, List.not_mem_nil, or_false] at hbl
        rcases hbl with heq | heq | heq <;> omega
      · rw [if_neg h1, if_neg h2, if_neg h3] at hbl
        simp only [List.mem_cons, List.not_mem_nil, or_false] at hbl
        rcases hbl with heq | heq | heq | heq <;> omega

/-- Percent-decoding inverts quoting for in-range bytes and a `%`-free
ASCII safe list. -/
lemma unquoteBytesF_quote (safe : List Nat) (hsafe : ∀ b ∈ safe, b < 0x80 ∧ b ≠ 0x25) :
    ∀ (bs : List Nat), (∀ b ∈ bs, b < 256) →
      ∀ fuel, (quote_from_bytes bs safe).length ≤ fuel →
        unquoteBytesF fuel (quote_from_bytes bs safe) = bs := by
  intro bs
  induction bs with
  | nil =>
    intro _ fuel _
    cases fuel <;> rfl
  | cons b rest ih =>
    intro hlt fuel hfuel
    have hb : b < 256 := hlt b (List.mem_cons_self b rest)
    have hq : quote_from_bytes (b :: rest) safe
        = quoteByte safe b ++ quote_from_bytes rest safe := by
      simp [quote_from_bytes]
    rw [hq] at hfuel ⊢
    by_cases hs : (isAlwaysSafe b || safe.contains b) = true
    · have hb58 : b < 0xD800 := by omega
      have hbne : b ≠ 0x25 := by
        rcases Bool.or_eq_true_iff.mp hs with hs | hs
        · intro he
          subst he
          simp [isAlwaysSafe] at hs
        · exact (hsafe b (by simpa using hs)).2
      rw [quoteByte, if_pos hs] at hfuel ⊢
      simp only [List.singleton_append] at hfuel ⊢
      obtain ⟨f, rfl⟩ : ∃ f, fuel = f + 1 := by
        cases fuel
        · simp at hfuel
        · exact ⟨_, rfl⟩
      simp only [unquoteBytesF]
      rw [if_neg ?_, char_toNat_ofNat b hb58,
        ih (fun x hx => hlt x (List.mem_cons_of_mem b hx)) f (by simp at hfuel; omega)]
      intro he
      apply hbne
      rw [← char_toNat_ofNat b hb58, he]
      rfl
    · rw [quoteByte, if_neg hs] at hfuel ⊢
      simp only [List.cons_append, List.nil_append, List.length_cons] at hfuel ⊢
      obtain ⟨f, rfl⟩ : ∃ f, fuel = f + 1 := by
        cases fuel
        · omega
        · exact ⟨_, rfl⟩
      have hh1 : hexVal (hexUpper (b / 16)) = some (b / 16) := hexVal_hexUpper _ (by omega)
      have hh2 : hexVal (hexUpper (b % 16)) = some (b % 16) := hexVal_hexUpper _ (by omega)
      have hv : b / 16 * 16 + b % 16 = b := by omega
      simp only [unquoteBytesF, hh1, hh2, hv]
      simp [ih (fun x hx => hlt x (List.mem_cons_of_mem b hx)) f (by omega : (quote_from_bytes rest safe).length ≤ f)]

/-- Quoted output over an ASCII safe list is ASCII. -/
lemma quote_from_bytes_ascii (safe : List Nat) (hs : ∀ b ∈ safe, b < 0x80)
    (bs : List Nat) : ∀ c ∈ quote_from_bytes bs safe, c.toNat < 0x80 := by
  intro c hc
  rcases quote_from_bytes_chars safe bs c hc with h | ⟨b, hbs, rfl⟩ | rfl
  · simp only [isAlwaysSafe, Bool.or_eq_true, Bool.and_eq_true, decide_eq_true_eq] at h
    omega
  · have := hs b hbs
    rw [char_toNat_ofNat b (by omega)]
    omega
  · decide

/-- `pyUnquoteF` on nothing is nothing. -/
lemma pyUnquoteF_nil : ∀ f, pyUnquoteF f [] = [] := by
  intro f
  cases f <;> rfl

/-- `unquote` of a quoted byte string is its decoded bytes. -/
lemma pyUnquote_quote (bs : List Nat) (hb : ∀ b ∈ bs, b < 256)
    (safe : List Nat) (hs : ∀ b ∈ safe, b < 0x80 ∧ b ≠ 0x25) :
    pyUnquote (quote_from_bytes bs safe) = utf8DecodeReplace bs := by
  cases hQ : quote_from_bytes bs safe with
  | nil =>
    have hbs : bs = [] := by
      cases bs with
      | nil => rfl
      | cons b rest =>
        exfalso
        have : quote_from_bytes (b :: rest) safe
            = quoteByte safe b ++ quote_from_bytes rest safe := by simp [quote_from_bytes]
        rw [hQ] at this
        have hne : quoteByte safe b ≠ [] := by
          rw [quoteByte]
          split <;> simp
        cases hqb : quoteByte safe b with
        | nil => exact hne hqb
        | cons x xs => rw [hqb] at this; simp at this
    subst hbs
    rfl
  | cons c r =>
    have hascii : ∀ x ∈ c :: r, x.toNat < 0x80 := by
      rw [← hQ]
      exact quote_from_bytes_ascii safe (fun b hbs => (hs b hbs).1) bs
    rw [pyUnquote]
    simp only [List.length_cons, pyUnquoteF]
    rw [if_pos (hascii c (List.mem_cons_self c r))]
    have hchunk : (c :: r).takeWhile (fun x => decide (x.toNat < 0x80)) = c :: r :=
      takeWhile_eq_self_of_all _ _ (fun x hx => by simpa using hascii x hx)
    rw [hchunk, List.drop_length, pyUnquoteF_nil, List.append_nil]
    rw [← hQ]
    rw [unquoteBytesF_quote safe hs bs hb _ (Nat.le_refl _)]

/-- No `+` ever appears in quoted output over a safe list without `0x2B`. -/
lemma quote_no_plus (safe : List Nat) (hsafe : ∀ b ∈ safe, b < 0xD800 ∧ b ≠ 0x2B)
    (bs : List Nat) : '+' ∉ quote_from_bytes bs safe := by
  intro hmem
  rcases quote_from_bytes_chars safe bs '+' hmem with h | ⟨b, hbs, hofb⟩ | h
  · exact absurd h (by decide)
  · obtain ⟨hb, hbne⟩ := hsafe b hbs
    apply hbne
    have h1 : (Char.ofNat b).toNat = b := char_toNat_ofNat b hb
    rw [← hofb] at h1
    rw [← h1]
    rfl
  · exact absurd h (by decide)

/-- `replace('+', ' ')` after `quote_plus` recovers the space-safe quoting
of the UTF-8 bytes. -/
lemma replacePlus_quote_plus (s : List Char) :
    replacePlus (quote_plus s) = quote_from_bytes (utf8Encode s) [0x20] := by
  have hplus : '+' ∉ quote_from_bytes (utf8Encode s) [0x20] :=
    quote_no_plus [0x20] (by decide) (utf8Encode s)
  by_cases hsp : s.contains ' '
  · rw [quote_plus, if_pos hsp, pyQuote, replacePlus, List.map_map]
    have hpt : ∀ c ∈ quote_from_bytes (utf8Encode s) [0x20],
        ((fun c => if c = '+' then ' ' else c) ∘ (fun c => if c = ' ' then '+' else c)) c
          = id c := by
      intro c hc
      have hcp : c ≠ '+' := fun he => hplus (he ▸ hc)
      simp only [Function.comp, id]
      by_cases hcs : c = ' '
      · subst hcs
        rfl
      · rw [if_neg hcs, if_neg hcp]
    rw [List.map_congr_left hpt, List.map_id]
  · have hsp' : ' ' ∉ s := fun hmem => hsp (by simpa using hmem)
    have hplus0 : '+' ∉ quote_from_bytes (utf8Encode s) [] :=
      quote_no_plus [] (by simp) (utf8Encode s)
    rw [quote_plus, if_neg hsp, pyQuote, replacePlus]
    have ha : List.map (fun c => if c = '+' then ' ' else c)
        (quote_from_bytes (utf8Encode s) []) = quote_from_bytes (utf8Encode s) [] := by
      have hpt : ∀ c ∈ quote_from_bytes (utf8Encode s) [],
          (fun c => if c = '+' then ' ' else c) c = id c := by
        intro c hc
        have hcp : c ≠ '+' := fun he => hplus0 (he ▸ hc)
        simp only [id]
        rw [if_neg hcp]
      rw [List.map_congr_left hpt, List.map_id]
    rw [ha]
    unfold quote_from_bytes
    apply congrArg
    apply List.map_congr_left
    intro b hbm
    have hne : b ≠ 0x20 := fun he => (utf8Encode_no_space s hsp') (he ▸ hbm)
    have h1 : (([] : List Nat).contains b) = false := rfl
    have h2 : (([0x20] : List Nat).contains b) = false := by
      simp only [List.contains_cons, List.contains_nil, Bool.or_false]
      exact beq_eq_false_iff_ne.mpr (fun he => hne he)
    rw [quoteByte, quoteByte, h1, h2]

/-- `unquote(qs.replace('+', ' '))` inverts `quote_plus`. -/
lemma unquote_plus_roundtrip (s : List Char) :
    pyUnquote (replacePlus (quote_plus s)) = s := by
  rw [replacePlus_quote_plus,
    pyUnquote_quote (utf8Encode s) (utf8Encode_bytes_lt s) [0x20] (by decide),
    utf8_roundtrip]

/-- Characters of `quote_plus` output. -/
lemma quote_plus_chars (s : List Char) :
    ∀ c ∈ quote_plus s, isAlwaysSafe c.toNat = true ∨ c = '+' ∨ c = '%' := by
  intro c hc
  rw [quote_plus] at hc
  by_cases hsp : s.contains ' '
  · rw [if_pos hsp, pyQuote] at hc
    simp only [List.mem_map] at hc
    obtain ⟨c', hc', rfl⟩ := hc
    rcases quote_from_bytes_chars [0x20] (utf8Encode s) c' hc' with h | ⟨b, hbs, rfl⟩ | rfl
    · have hne : c' ≠ ' ' := by
        intro he
        rw [he] at h
        exact absurd h (by decide)
      rw [if_neg hne]
      left
      exact h
    · simp only [List.mem_singleton] at hbs
      subst hbs
      right
      left
      rfl
    · rw [if_neg (by decide)]
      right
      right
      rfl
  · rw [if_neg hsp, pyQuote] at hc
    rcases quote_from_bytes_chars [] (utf8Encode s) c hc with h | ⟨b, hbs, _⟩ | rfl
    · left
      exact h
    · simp at hbs
    · right
      right
      rfl

/-- `intercalate` over two or more pieces. -/
lemma intercalate_cons2 (s x y : List Char) (ys : List (List Char)) :
    List.intercalate s (x :: y :: ys) = x ++ s ++ List.intercalate s (y :: ys) := by
  simp [List.intercalate, List.intersperse]

/-- `intercalate` of a single piece. -/
lemma intercalate_single (s x : List Char) : List.intercalate s [x] = x := by
  simp [List.intercalate, List.intersperse]

/-- Membership in an intercalation: in a piece or the separator. -/
lemma mem_intercalate_sep (sep : Char) :
    ∀ (pieces : List (List Char)) (c : Char), c ∈ List.intercalate [sep] pieces →
      (∃ p ∈ pieces, c ∈ p) ∨ c = sep := by
  intro pieces
  induction pieces with
  | nil =>
    intro c hc
    simp [List.intercalate, List.intersperse] at hc
  | cons p rest ih =>
    intro c hc
    cases rest with
    | nil =>
      rw [intercalate_single] at hc
      exact Or.inl ⟨p, List.mem_cons_self p [], hc⟩
    | cons q qs =>
      rw [intercalate_cons2] at hc
      rcases List.mem_append.mp hc with hc1 | hc1
      · rcases List.mem_append.mp hc1 with hc2 | hc2
        · exact Or.inl ⟨p, List.mem_cons_self p _, hc2⟩
        · simp only [List.mem_singleton] at hc2
          exact Or.inr hc2
      · rcases ih c hc1 with ⟨p', hp', hcp'⟩ | hsep
        · exact Or.inl ⟨p', List.mem_cons_of_mem p hp', hcp'⟩
        · exact Or.inr hsep

/-- Characters of `urlencode` output. -/
lemma urlencode_chars (prs : List (List Char × List Char)) :
    ∀ c ∈ urlencode prs,
      isAlwaysSafe c.toNat = true ∨ c = '+' ∨ c = '%' ∨ c = '&' ∨ c = '=' := by
  intro c hc
  rw [urlencode] at hc
  rcases mem_intercalate_sep '&' _ c hc with ⟨p, hp, hcp⟩ | rfl
  · simp only [List.mem_map] at hp
    obtain ⟨kv, _, rfl⟩ := hp
    rcases List.mem_append.mp hcp with hc1 | hc1
    · rcases quote_plus_chars kv.1 c hc1 with h | h | h
      · exact Or.inl h
      · exact Or.inr (Or.inl h)
      · exact Or.inr (Or.inr (Or.inl h))
    · rcases List.mem_cons.mp hc1 with rfl | hc2
      · exact Or.inr (Or.inr (Or.inr (Or.inr rfl)))
      · rcases quote_plus_chars kv.2 c hc2 with h | h | h
        · exact Or.inl h
        · exact Or.inr (Or.inl h)
        · exact Or.inr (Or.inr (Or.inl h))
  · exact Or.inr (Or.inr (Or.inr (Or.inl rfl)))

/-- A split at an absent separator is the whole string. -/
lemma splitOnChar_not_mem (sep : Char) :
    ∀ s : List Char, sep ∉ s → splitOnChar sep s = [s] := by
  intro s
  induction s with
  | nil => intro _; rfl
  | cons c rest ih =>
    intro h
    have hc : ¬ c = sep := fun he => h (he ▸ List.mem_cons_self c rest)
    have hih := ih (fun hm => h (List.mem_cons_of_mem c hm))
    simp only [splitOnChar, if_neg hc, hih]

/-- A split at a marked separator peels the first piece. -/
lemma splitOnChar_append (sep : Char) (B : List Char) :
    ∀ A : List Char, sep ∉ A →
      splitOnChar sep (A ++ sep :: B) = A :: splitOnChar sep B := by
  intro A
  induction A with
  | nil =>
    intro _
    simp [splitOnChar]
  | cons a A ih =>
    intro h
    have ha : ¬ a = sep := fun he => h (he ▸ List.mem_cons_self a A)
    have hih := ih (fun hm => h (List.mem_cons_of_mem a hm))
    simp only [List.cons_append, splitOnChar, List.append_eq, if_neg ha, hih]

/-- Splitting inverts intercalation for separator-free, non-empty pieces. -/
lemma splitOnChar_intercalate (sep : Char) :
    ∀ pieces : List (List Char), pieces ≠ [] → (∀ p ∈ pieces, sep ∉ p) →
      splitOnChar sep (List.intercalate [sep] pieces) = pieces := by
  intro pieces
  induction pieces with
  | nil => intro h _; exact absurd rfl h
  | cons p rest ih =>
    intro _ hall
    cases rest with
    | nil =>
      rw [intercalate_single]
      exact splitOnChar_not_mem sep p (hall p (List.mem_cons_self p []))
    | cons q qs =>
      rw [intercalate_cons2, List.append_assoc, List.singleton_append,
        splitOnChar_append sep _ p (hall p (List.mem_cons_self p _)),
        ih (by simp) (fun x hx => hall x (List.mem_cons_of_mem p hx))]

/-- The pair-building fold of `parse_qsl` over non-empty fields is a map. -/
lemma qsl_foldl_map (f : List Char → List Char × List Char) :
    ∀ (pairs : List (List Char)) (acc : List (List Char × List Char)),
      (∀ nv ∈ pairs, nv ≠ []) →
      pairs.foldl (fun r nv => if nv = [] then r else r ++ [f nv]) acc
        = acc ++ pairs.map f := by
  intro pairs
  induction pairs with
  | nil => intro acc _; simp
  | cons nv rest ih =>
    intro acc hall
    simp only [List.foldl_cons, List.map_cons]
    rw [if_neg (hall nv (List.mem_cons_self nv rest)),
      ih _ (fun x hx => hall x (List.mem_cons_of_mem nv hx))]
    simp

/-- `parse_qsl` inverts `urlencode`. -/
lemma parse_qsl_urlencode (prs : List (List Char × List Char)) :
    parse_qsl (urlencode prs) = prs := by
  cases prs with
  | nil => rfl
  | cons kv0 rest =>
    have hpieces : ∀ kv : List Char × List Char,
        quote_plus kv.1 ++ '=' :: quote_plus kv.2 ≠ [] := by
      intro kv h
      have := congrArg List.length h
      simp at this
    have hsepfree : ∀ p ∈ (kv0 :: rest).map
        (fun kv => quote_plus kv.1 ++ '=' :: quote_plus kv.2), '&' ∉ p := by
      intro p hp hmem
      simp only [List.mem_map] at hp
      obtain ⟨kv, _, rfl⟩ := hp
      rcases List.mem_append.mp hmem with h1 | h1
      · rcases quote_plus_chars kv.1 '&' h1 with h | h | h
        · exact absurd h (by decide)
        · exact absurd h (by decide)
        · exact absurd h (by decide)
      · rcases List.mem_cons.mp h1 with h2 | h2
        · exact absurd h2 (by decide)
        · rcases quote_plus_chars kv.2 '&' h2 with h | h | h
          · exact absurd h (by decide)
          · exact absurd h (by decide)
          · exact absurd h (by decide)
    have hqs : urlencode (kv0 :: rest) ≠ [] := by
      rw [urlencode]
      cases hrest : rest.map (fun kv => quote_plus kv.1 ++ '=' :: quote_plus kv.2) with
      | nil =>
        simp only [List.map_cons, hrest, intercalate_single]
        exact hpieces kv0
      | cons y ys =>
        simp only [List.map_cons, hrest, intercalate_cons2]
        intro h
        have hlen := congrArg List.length h
        simp only [List.length_append, List.length_cons, List.length_nil] at hlen
        omega
    rw [parse_qsl, if_neg hqs]
    have hsplit : splitOnChar '&' (urlencode (kv0 :: rest))
        = (kv0 :: rest).map (fun kv => quote_plus kv.1 ++ '=' :: quote_plus kv.2) := by
      rw [urlencode]
      exact splitOnChar_intercalate '&' _ (by simp) hsepfree
    rw [hsplit]
    have hne : ∀ nv ∈ (kv0 :: rest).map
        (fun kv => quote_plus kv.1 ++ '=' :: quote_plus kv.2), nv ≠ [] := by
      intro nv hnv
      simp only [List.mem_map] at hnv
      obtain ⟨kv, _, rfl⟩ := hnv
      exact hpieces kv
    rw [show (fun (r : List (List Char × List Char)) (nv : List Char) =>
        if nv = [] then r
        else r ++ [(pyUnquote (replacePlus (splitOnceAt '=' nv).1),
          pyUnquote (replacePlus (splitOnceAt '=' nv).2))])
      = (fun r nv => if nv = [] then r
        else r ++ [(fun nv => (pyUnquote (replacePlus (splitOnceAt '=' nv).1),
          pyUnquote (replacePlus (splitOnceAt '=' nv).2))) nv]) from rfl]
    rw [qsl_foldl_map _ _ [] hne, List.nil_append, List.map_map]
    have hpt : ∀ kv ∈ kv0 :: rest,
        ((fun nv => (pyUnquote (replacePlus (splitOnceAt '=' nv).1),
          pyUnquote (replacePlus (splitOnceAt '=' nv).2)))
          ∘ (fun kv => quote_plus kv.1 ++ '=' :: quote_plus kv.2)) kv = id kv := by
      intro kv _
      simp only [Function.comp, id]
      have heq : '=' ∉ quote_plus kv.1 := by
        intro hmem
        rcases quote_plus_chars kv.1 '=' hmem with h | h | h
        · exact absurd h (by decide)
        · exact absurd h (by decide)
        · exact absurd h (by decide)
      rw [splitOnceAt_append '=' (quote_plus kv.2) (quote_plus kv.1) heq]
      rw [unquote_plus_roundtrip, unquote_plus_roundtrip]
    rw [List.map_congr_left hpt, List.map_id]

/-- The WHATWG strip and unsafe-byte removal keep a string whose characters
all exceed `0x20`. -/
lemma clean_id (u : List Char) (h : ∀ c ∈ u, 0x20 < c.toNat) :
    (u.dropWhile isC0OrSpace).filter (fun c => !(c = '\t' || c = '\r' || c = '\n')) = u := by
  have h1 : u.dropWhile isC0OrSpace = u := by
    cases u with
    | nil => rfl
    | cons c r =>
      rw [List.dropWhile_cons, if_neg]
      simp only [isC0OrSpace, Bool.not_eq_true, decide_eq_true_eq]
      have := h c (List.mem_cons_self c r)
      omega
  rw [h1]
  apply List.filter_eq_self.mpr
  intro c hc
  have hgt := h c hc
  have h9 : ¬ c = '\t' := fun he => by rw [he] at hgt; exact absurd hgt (by decide)
  have h13 : ¬ c = '\r' := fun he => by rw [he] at hgt; exact absurd hgt (by decide)
  have h10 : ¬ c = '\n' := fun he => by rw [he] at hgt; exact absurd hgt (by decide)
  simp [h9, h13, h10]

/-- The first `:` of `scheme ++ ':' ++ rest` sits at the scheme's length. -/
lemma findIdx_colon (v : List Char) :
    ∀ sch : List Char, ':' ∉ sch →
      (sch ++ ':' :: v).findIdx? (fun c => c = ':') = some sch.length := by
  intro sch
  induction sch with
  | nil => intro _; simp [List.findIdx?_cons]
  | cons a A ih =>
    intro h
    have ha : ¬ a = ':' := fun he => h (he ▸ List.mem_cons_self a A)
    have hih := ih (fun hm => h (List.mem_cons_of_mem a hm))
    rw [List.cons_append, List.findIdx?_cons, if_neg (by simpa using ha),
      List.findIdx?_succ, hih]
    rfl

/-- Dropping the `takeWhile` prefix is `dropWhile`. -/
lemma drop_takeWhile_length (p : Char → Bool) :
    ∀ l : List Char, l.drop (l.takeWhile p).length = l.dropWhile p := by
  intro l
  induction l with
  | nil => rfl
  | cons c r ih =>
    by_cases hc : p c
    · rw [List.takeWhile_cons, if_pos hc, List.dropWhile_cons, if_pos hc, List.length_cons,
        List.drop_succ_cons, ih]
    · rw [List.takeWhile_cons, if_neg hc, List.dropWhile_cons, if_neg hc, List.length_nil,
        List.drop_zero]

/-- Members of the last segment are members of the path. -/
lemma mem_of_mem_lastSeg (p : List Char) (x : Char) (h : x ∈ lastSeg p) : x ∈ p := by
  rw [lastSeg, List.mem_reverse] at h
  exact List.mem_reverse.mp ((List.takeWhile_sublist _).subset h)

/-- Both `_splitparams` parts draw from the path. -/
lemma splitparams_subset (p0 : List Char) (x : Char) :
    (x ∈ (splitparams p0).1 → x ∈ p0) ∧ (x ∈ (splitparams p0).2 → x ∈ p0) := by
  rw [splitparams]
  by_cases hsl : '/' ∈ p0
  · rw [if_pos hsl]
    by_cases hls : ';' ∈ lastSeg p0
    · rw [if_pos hls]
      constructor
      · intro hx
        rcases List.mem_append.mp hx with hx | hx
        · exact (List.take_sublist _ _).subset hx
        · exact mem_of_mem_lastSeg p0 x ((splitOnceAt_subset ';' (lastSeg p0) x).1 hx)
      · intro hx
        exact mem_of_mem_lastSeg p0 x ((splitOnceAt_subset ';' (lastSeg p0) x).2 hx)
    · rw [if_neg hls]
      exact ⟨fun hx => hx, fun hx => absurd hx (List.not_mem_nil x)⟩
  · rw [if_neg hsl]
    exact ⟨fun hx => (splitOnceAt_subset ';' p0 x).1 hx,
      fun hx => (splitOnceAt_subset ';' p0 x).2 hx⟩

/-- `urlencode` output characters exceed `0x20` and avoid the URL
delimiters `#`, `?`, `/`, `;`. -/
lemma urlencode_char_props (prs : List (List Char × List Char)) (c : Char)
    (hc : c ∈ urlencode prs) :
    0x20 < c.toNat ∧ c ≠ '#' ∧ c ≠ '?' ∧ c ≠ '/' ∧ c ≠ ';' := by
  rcases urlencode_chars prs c hc with h | rfl | rfl | rfl | rfl
  · simp only [isAlwaysSafe, Bool.or_eq_true, Bool.and_eq_true, decide_eq_true_eq] at h
    refine ⟨by omega, ?_, ?_, ?_, ?_⟩ <;>
      (intro he; rw [he] at h; revert h; decide)
  · exact ⟨by decide, by decide, by decide, by decide, by decide⟩
  · exact ⟨by decide, by decide, by decide, by decide, by decide⟩
  · exact ⟨by decide, by decide, by decide, by decide, by decide⟩
  · exact ⟨by decide, by decide, by decide, by decide, by decide⟩

/-- Dropping one past an appended prefix. -/
lemma drop_succ_append (c : Char) (X : List Char) :
    ∀ sch : List Char, (sch ++ c :: X).drop (sch.length + 1) = X := by
  intro sch
  induction sch with
  | nil => simp
  | cons a A ih => simpa using ih

/-- `urlsplit` on a well-formed `scheme://` URL: the scheme splits off and
the netloc is the maximal delimiter-free prefix of the remainder. -/
lemma urlsplitE_shape (bk nk : List Char → Bool) (sch v : List Char)
    (hcol : ':' ∉ sch) (hne : sch ≠ [])
    (hhead : isAsciiAlpha (charAt (sch ++ ':' :: '/' :: '/' :: v) 0) = true)
    (hallsch : sch.all isSchemeChar = true) (hlow : pyLower sch = sch)
    (hchars : ∀ c ∈ sch ++ ':' :: '/' :: '/' :: v, 0x20 < c.toNat) :
    ∀ nl r2 fr qr, nl = v.takeWhile netlocChar → r2 = v.dropWhile netlocChar →
      fr = (if '#' ∈ r2 then splitOnceAt '#' r2 else (r2, [])) →
      qr = (if '?' ∈ fr.1 then splitOnceAt '?' fr.1 else (fr.1, [])) →
      urlsplitE bk nk (sch ++ ':' :: '/' :: '/' :: v) =
        if ('[' ∈ nl ∧ ']' ∉ nl) ∨ (']' ∈ nl ∧ '[' ∉ nl) then Except.error ()
        else if '[' ∈ nl ∧ ']' ∈ nl ∧ ¬ bk (bracketedHostOf nl) then Except.error ()
        else if nl ≠ [] ∧ ¬ nl.all (fun c => decide (c.toNat < 0x80)) ∧ ¬ nk nl then
          Except.error ()
        else Except.ok (SplitResult.mk sch nl qr.1 qr.2 fr.2) := by
  intro nl r2 fr qr hnl hr2 hfr hqr
  subst hnl hr2 hfr hqr
  rw [urlsplitE]
  rw [clean_id _ hchars]
  rw [findIdx_colon ('/' :: '/' :: v) sch hcol]
  dsimp only
  have hcond : 0 < sch.length ∧
      isAsciiAlpha (charAt (sch ++ ':' :: '/' :: '/' :: v) 0) = true ∧
      ((sch ++ ':' :: '/' :: '/' :: v).take sch.length).all isSchemeChar = true := by
    refine ⟨List.length_pos.mpr hne, hhead, ?_⟩
    rw [List.take_left]
    exact hallsch
  rw [if_pos hcond]
  rw [List.take_left, hlow, drop_succ_append]
  dsimp only
  rw [if_pos (show List.take 2 ('/' :: '/' :: v) = ['/', '/'] from rfl)]
  simp only [List.drop_succ_cons, List.drop_zero, drop_takeWhile_length]

/-- For an absolute path (leading `/`), `_splitparams` keeps the leading
slash and the reattachment recovers the path. -/
lemma splitparams_path_shape (p0 pa pr : List Char) (hsp : splitparams p0 = (pa, pr))
    (hhead : ∀ b B, p0 = b :: B → b = '/') (hsemi : ';' ∈ p0) :
    (pa ++ ';' :: pr = p0 ∨ (pr = [] ∧ pa = p0)) ∧ (∀ b B, pa = b :: B → b = '/') := by
  obtain ⟨b0, B0, hp0⟩ : ∃ b0 B0, p0 = b0 :: B0 := by
    cases p0 with
    | nil => exact absurd hsemi (List.not_mem_nil ';')
    | cons x xs => exact ⟨x, xs, rfl⟩
  have hb0 : b0 = '/' := hhead b0 B0 hp0
  have hsl : '/' ∈ p0 := by
    rw [hp0, ← hb0]
    exact List.mem_cons_self b0 B0
  by_cases hls : ';' ∈ lastSeg p0
  · rw [splitparams, if_pos hsl, if_pos hls] at hsp
    have hpa : p0.take (p0.length - (lastSeg p0).length)
        ++ (splitOnceAt ';' (lastSeg p0)).1 = pa := congrArg Prod.fst hsp
    have hpr : (splitOnceAt ';' (lastSeg p0)).2 = pr := congrArg Prod.snd hsp
    have hdec := splitOnceAt_decomp ';' (lastSeg p0) hls
    have hlt : (lastSeg p0).length < p0.length := by
      by_contra hge
      push_neg at hge
      have hsuf := congrArg List.length (lastSeg_suffix p0)
      simp only [List.length_append] at hsuf
      have hD : (p0.reverse.dropWhile (fun c => decide (c ≠ '/'))).reverse = [] := by
        have : (p0.reverse.dropWhile (fun c => decide (c ≠ '/'))).reverse.length = 0 := by
          omega
        exact List.length_eq_zero.mp this
      have := lastSeg_suffix p0
      rw [hD, List.nil_append] at this
      exact lastSeg_no_slash p0 (this ▸ hsl)
    constructor
    · left
      rw [← hpa, ← hpr, List.append_assoc]
      have hre : (splitOnceAt ';' (lastSeg p0)).1 ++ ';' :: (splitOnceAt ';' (lastSeg p0)).2
          = lastSeg p0 := hdec.symm
      rw [hre]
      set S := lastSeg p0 with hS
      obtain ⟨T1, hT⟩ : ∃ T1, p0 = T1 ++ S := ⟨_, lastSeg_suffix p0⟩
      conv_rhs => rw [hT]
      rw [hT, take_sub_append]
    · intro b B hb
      rw [← hpa] at hb
      have hk : 1 ≤ p0.length - (lastSeg p0).length := by omega
      cases hk' : p0.length - (lastSeg p0).length with
      | zero => omega
      | succ k =>
        rw [hk', hp0] at hb
        simp only [List.take_succ_cons, List.cons_append, List.cons.injEq] at hb
        rw [← hb.1]
        exact hb0
  · rw [splitparams, if_pos hsl, if_neg hls] at hsp
    have hpa : p0 = pa := congrArg Prod.fst hsp
    have hpr : ([] : List Char) = pr := congrArg Prod.snd hsp
    refine ⟨Or.inr ⟨hpr.symm, hpa.symm⟩, ?_⟩
    intro b B hb
    exact hhead b B (hpa ▸ hb)

set_option maxHeartbeats 1600000 in
/-- Fixed-point half of C8: the `urlunparse` output that `normalize_url`
produces on a well-formed `scheme://` URL is itself unchanged by a further
`normalize_url` pass. -/
lemma normalize_fixed (bk nk : List Char → Bool) (sch nl P R f : List Char)
    (L : List (List Char × List Char))
    (hcol : ':' ∉ sch) (hne : sch ≠ [])
    (hheadalpha : ∀ b B, sch = b :: B → isAsciiAlpha b = true)
    (hallsch : sch.all isSchemeChar = true) (hlow : pyLower sch = sch)
    (hup : uses_params.contains sch = true) (hun : uses_netloc.contains sch = true)
    (hschars : ∀ c ∈ sch, 0x20 < c.toNat)
    (hnlc : ∀ c ∈ nl, netlocChar c = true)
    (hnlchars : ∀ c ∈ nl, 0x20 < c.toNat)
    (hPchars : ∀ c ∈ P, 0x20 < c.toNat) (hRchars : ∀ c ∈ R, 0x20 < c.toNat)
    (hfchars : ∀ c ∈ f, 0x20 < c.toNat)
    (hPhead : ∀ b B, P = b :: B → b = '/')
    (hPhash : '#' ∉ P) (hPq : '?' ∉ P) (hRhash : '#' ∉ R) (hRq : '?' ∉ R)
    (hPR0 : P = [] → R = []) (hnlP : nl = [] → P = [])
    (hrt : (R ≠ [] → splitparams (P ++ ';' :: R) = (P, R)) ∧
      (R = [] → ';' ∈ P → splitparams P = (P, [])))
    (hL : L.filter (fun kv => !isTrackingKey kv.1) = L)
    (he1 : ¬ (('[' ∈ nl ∧ ']' ∉ nl) ∨ (']' ∈ nl ∧ '[' ∉ nl)))
    (he2 : ¬ ('[' ∈ nl ∧ ']' ∈ nl ∧ ¬ bk (bracketedHostOf nl)))
    (he3 : ¬ (nl ≠ [] ∧ ¬ nl.all (fun c => decide (c.toNat < 0x80)) ∧ ¬ nk nl)) :
    normalize_url bk nk
        (urlunparse (ParseResult.mk sch nl P R (urlencode L) f))
      = urlunparse (ParseResult.mk sch nl P R (urlencode L) f) := by
  set q := urlencode L with hq
  have hqchars : ∀ c ∈ q, 0x20 < c.toNat ∧ c ≠ '#' ∧ c ≠ '?' ∧ c ≠ '/' ∧ c ≠ ';' :=
    fun c hc => urlencode_char_props L c (hq ▸ hc)
  set path' := (if R ≠ [] then P ++ ';' :: R else P) with hpath'
  have hpath'head : ∀ b B, path' = b :: B → b = '/' := by
    rw [hpath']
    by_cases hR : R ≠ []
    · rw [if_pos hR]
      intro b B hb
      cases hP : P with
      | nil => exact absurd (hPR0 hP) hR
      | cons p0 P2 =>
        rw [hP] at hb
        have hpb : p0 = b := by
          have := congrArg (fun l => List.head? l) hb
          simpa using this
        exact hpb ▸ hPhead p0 P2 hP
    · rw [if_neg hR]; exact hPhead
  have hpath'hash : '#' ∉ path' := by
    rw [hpath']
    by_cases hR : R ≠ []
    · rw [if_pos hR]
      intro h
      rcases List.mem_append.mp h with h | h
      · exact hPhash h
      · rcases List.mem_cons.mp h with h | h
        · exact absurd h (by decide)
        · exact hRhash h
    · rw [if_neg hR]; exact hPhash
  have hpath'q : '?' ∉ path' := by
    rw [hpath']
    by_cases hR : R ≠ []
    · rw [if_pos hR]
      intro h
      rcases List.mem_append.mp h with h | h
      · exact hPq h
      · rcases List.mem_cons.mp h with h | h
        · exact absurd h (by decide)
        · exact hRq h
    · rw [if_neg hR]; exact hPq
  have hpath'chars : ∀ c ∈ path', 0x20 < c.toNat := by
    rw [hpath']
    by_cases hR : R ≠ []
    · rw [if_pos hR]
      intro c h
      rcases List.mem_append.mp h with h | h
      · exact hPchars c h
      · rcases List.mem_cons.mp h with rfl | h
        · decide
        · exact hRchars c h
    · rw [if_neg hR]; exact hPchars
  set optQ := (if q ≠ [] then '?' :: q else ([] : List Char)) with hoptQ
  set optF := (if f ≠ [] then '#' :: f else ([] : List Char)) with hoptF
  set W := nl ++ (path' ++ (optQ ++ optF)) with hW
  have hcond : nl ≠ [] ∨ (sch ≠ [] ∧ uses_netloc.contains sch ∧ path'.take 2 ≠ ['/', '/']) := by
    by_cases hnl0 : nl = []
    · right
      refine ⟨hne, hun, ?_⟩
      have hP0 := hnlP hnl0
      have hR0 := hPR0 hP0
      rw [hpath', hP0, hR0]
      simp
    · left; exact hnl0
  have hp : (if path' ≠ [] ∧ path'.take 1 ≠ ['/'] then '/' :: path' else path') = path' := by
    cases hpp : path' with
    | nil => simp
    | cons b B =>
      have hb := hpath'head b B hpp
      rw [if_neg]
      intro h
      exact h.2 (by rw [hb]; rfl)
  have hout : urlunparse (ParseResult.mk sch nl P R q f) = sch ++ ':' :: '/' :: '/' :: W := by
    rw [urlunparse]
    dsimp only
    rw [← hpath', urlunsplit]
    dsimp only
    rw [if_pos hcond, hp, if_pos hne, hW, hoptQ, hoptF]
    by_cases hq0 : q ≠ [] <;> by_cases hf0 : f ≠ [] <;>
      simp [hq0, hf0, List.append_assoc]
  have hWchars : ∀ c ∈ W, 0x20 < c.toNat := by
    rw [hW]
    intro c hc
    rcases List.mem_append.mp hc with h | h
    · exact hnlchars c h
    rcases List.mem_append.mp h with h | h
    · exact hpath'chars c h
    rcases List.mem_append.mp h with h | h
    · rw [hoptQ] at h
      by_cases hq0 : q ≠ []
      · rw [if_pos hq0] at h
        rcases List.mem_cons.mp h with rfl | h
        · decide
        · exact (hqchars c h).1
      · rw [if_neg hq0] at h
        exact absurd h (List.not_mem_nil c)
    · rw [hoptF] at h
      by_cases hf0 : f ≠ []
      · rw [if_pos hf0] at h
        rcases List.mem_cons.mp h with rfl | h
        · decide
        · exact hfchars c h
      · rw [if_neg hf0] at h
        exact absurd h (List.not_mem_nil c)
  have hallchars : ∀ c ∈ sch ++ ':' :: '/' :: '/' :: W, 0x20 < c.toNat := by
    intro c hc
    rcases List.mem_append.mp hc with h | h
    · exact hschars c h
    rcases List.mem_cons.mp h with rfl | h
    · decide
    rcases List.mem_cons.mp h with rfl | h
    · decide
    rcases List.mem_cons.mp h with rfl | h
    · decide
    exact hWchars c h
  have hheadW : isAsciiAlpha (charAt (sch ++ ':' :: '/' :: '/' :: W) 0) = true := by
    cases hsch0 : sch with
    | nil => exact absurd hsch0 hne
    | cons b B =>
      have hb := hheadalpha b B hsch0
      simpa [charAt] using hb
  have hstop : ∀ b, (path' ++ (optQ ++ optF)).head? = some b → netlocChar b = false := by
    intro b hb
    cases hpp : path' with
    | cons p0 P2 =>
      rw [hpp] at hb
      simp only [List.cons_append, List.head?] at hb
      have hb' : p0 = b := by injection hb
      have h0 := hpath'head p0 P2 hpp
      rw [← hb', h0]
      decide
    | nil =>
      rw [hpp, List.nil_append] at hb
      rw [hoptQ] at hb
      by_cases hq0 : q ≠ []
      · rw [if_pos hq0] at hb
        simp only [List.cons_append, List.head?] at hb
        have hb' : '?' = b := by injection hb
        rw [← hb']
        decide
      · rw [if_neg hq0, List.nil_append, hoptF] at hb
        by_cases hf0 : f ≠ []
        · rw [if_pos hf0] at hb
          simp only [List.head?] at hb
          have hb' : '#' = b := by injection hb
          rw [← hb']
          decide
        · rw [if_neg hf0] at hb
          exact absurd hb (by simp)
  have hnlmem : ∀ c ∈ nl, netlocChar c = true := hnlc
  have hWtake : W.takeWhile netlocChar = nl := by
    rw [hW]
    exact takeWhile_append_stop netlocChar nl _ hnlmem hstop
  have hWdrop : W.dropWhile netlocChar = path' ++ (optQ ++ optF) := by
    rw [hW]
    exact dropWhile_append_stop netlocChar nl _ hnlmem hstop
  have hnoHashPQ : '#' ∉ path' ++ optQ := by
    intro h
    rcases List.mem_append.mp h with h | h
    · exact hpath'hash h
    · rw [hoptQ] at h
      by_cases hq0 : q ≠ []
      · rw [if_pos hq0] at h
        rcases List.mem_cons.mp h with h | h
        · exact absurd h (by decide)
        · exact (hqchars _ h).2.1 rfl
      · rw [if_neg hq0] at h
        exact absurd h (List.not_mem_nil _)
  have hfrW : (if '#' ∈ path' ++ (optQ ++ optF) then splitOnceAt '#' (path' ++ (optQ ++ optF))
      else (path' ++ (optQ ++ optF), [])) = (path' ++ optQ, f) := by
    by_cases hf0 : f ≠ []
    · rw [hoptF, if_pos hf0, ← List.append_assoc]
      rw [if_pos (by
        refine List.mem_append.mpr (Or.inr ?_)
        exact List.mem_cons_self _ _)]
      exact splitOnceAt_append '#' f (path' ++ optQ) hnoHashPQ
    · rw [hoptF, if_neg hf0, List.append_nil]
      rw [if_neg hnoHashPQ]
      have hf0' : f = [] := by
        by_contra hff
        exact hf0 hff
      rw [hf0']
  have hqrW : (if '?' ∈ path' ++ optQ then splitOnceAt '?' (path' ++ optQ)
      else (path' ++ optQ, [])) = (path', q) := by
    by_cases hq0 : q ≠ []
    · rw [hoptQ, if_pos hq0]
      rw [if_pos (by
        refine List.mem_append.mpr (Or.inr ?_)
        exact List.mem_cons_self _ _)]
      exact splitOnceAt_append '?' q path' hpath'q
    · rw [hoptQ, if_neg hq0, List.append_nil]
      rw [if_neg hpath'q]
      have hq0' : q = [] := by
        by_contra hqq
        exact hq0 hqq
      rw [hq0']
  have hsplit2 := urlsplitE_shape bk nk sch W hcol hne hheadW hallsch hlow hallchars
    nl (path' ++ (optQ ++ optF)) (path' ++ optQ, f) (path', q)
    hWtake.symm hWdrop.symm hfrW.symm hqrW.symm
  rw [if_neg he1, if_neg he2, if_neg he3] at hsplit2
  dsimp only at hsplit2
  have hparse2 : urlparseE bk nk (sch ++ ':' :: '/' :: '/' :: W)
      = Except.ok (ParseResult.mk sch nl P R q f) := by
    rw [urlparseE, hsplit2]
    dsimp only
    by_cases hsemi2 : ';' ∈ path'
    · rw [if_pos ⟨hup, hsemi2⟩]
      have hsp : splitparams path' = (P, R) := by
        by_cases hR : R ≠ []
        · rw [hpath', if_pos hR]
          exact hrt.1 hR
        · have hR0 : R = [] := by
            by_contra h
            exact hR h
          have hpP : path' = P := by rw [hpath', if_neg hR]
          rw [hpP] at hsemi2 ⊢
          rw [hrt.2 hR0 hsemi2, hR0]
      rw [hsp]
    · rw [if_neg (fun h => hsemi2 h.2)]
      have hR0 : R = [] := by
        by_contra hR
        apply hsemi2
        rw [hpath', if_pos hR]
        exact List.mem_append.mpr (Or.inr (List.mem_cons_self _ _))
      have hpP : path' = P := by rw [hpath', if_neg (by simp [hR0])]
      rw [hpP, hR0]
  have h0' : ¬ (sch ++ ':' :: '/' :: '/' :: W = []) := by simp
  have hquery : (parse_qsl q).filter (fun kv => !isTrackingKey kv.1) = L := by
    rw [hq, parse_qsl_urlencode]
    exact hL
  rw [hout, normalize_url, if_neg h0', hparse2]
  dsimp only
  rw [hquery, ← hq]
  exact hout

set_option maxHeartbeats 1600000 in
/-- Core of C8 (amended): on `scheme://`-URLs (scheme `http` or `https`
abstracted by its properties) whose characters all exceed `0x20` and whose
authority part does not start with a third `/`, `normalize_url` is
idempotent. -/
lemma normalize_core (bk nk : List Char → Bool) (sch v : List Char)
    (hcol : ':' ∉ sch) (hne : sch ≠ [])
    (hheadalpha : ∀ b B, sch = b :: B → isAsciiAlpha b = true)
    (hallsch : sch.all isSchemeChar = true) (hlow : pyLower sch = sch)
    (hup : uses_params.contains sch = true) (hun : uses_netloc.contains sch = true)
    (hv : ∀ b B, v = b :: B → b ≠ '/')
    (hvchars : ∀ c ∈ v, 0x20 < c.toNat) (hschars : ∀ c ∈ sch, 0x20 < c.toNat) :
    normalize_url bk nk (normalize_url bk nk (sch ++ ':' :: '/' :: '/' :: v))
      = normalize_url bk nk (sch ++ ':' :: '/' :: '/' :: v) := by
  have hcharsgen : ∀ X : List Char, (∀ c ∈ X, 0x20 < c.toNat) →
      ∀ c ∈ sch ++ ':' :: '/' :: '/' :: X, 0x20 < c.toNat := by
    intro X hX c hc
    rcases List.mem_append.mp hc with h | h
    · exact hschars c h
    · rcases List.mem_cons.mp h with rfl | h
      · decide
      · rcases List.mem_cons.mp h with rfl | h
        · decide
        · rcases List.mem_cons.mp h with rfl | h
          · decide
          · exact hX c h
  have hchars := hcharsgen v hvchars
  have hunegen : ∀ X : List Char, sch ++ ':' :: '/' :: '/' :: X ≠ [] := by
    intro X h
    have := congrArg List.length h
    simp at this
  have hheadgen : ∀ X : List Char,
      isAsciiAlpha (charAt (sch ++ ':' :: '/' :: '/' :: X) 0) = true := by
    intro X
    cases hsch0 : sch with
    | nil => exact absurd hsch0 hne
    | cons b B =>
      have hb := hheadalpha b B hsch0
      simpa [charAt] using hb
  have hsplit1 := urlsplitE_shape bk nk sch v hcol hne (hheadgen v) hallsch hlow hchars
    (v.takeWhile netlocChar) (v.dropWhile netlocChar)
    (if '#' ∈ v.dropWhile netlocChar then splitOnceAt '#' (v.dropWhile netlocChar)
     else (v.dropWhile netlocChar, []))
    (if '?' ∈ (if '#' ∈ v.dropWhile netlocChar
        then splitOnceAt '#' (v.dropWhile netlocChar)
        else (v.dropWhile netlocChar, [])).1
     then splitOnceAt '?' (if '#' ∈ v.dropWhile netlocChar
        then splitOnceAt '#' (v.dropWhile netlocChar)
        else (v.dropWhile netlocChar, [])).1
     else ((if '#' ∈ v.dropWhile netlocChar
        then splitOnceAt '#' (v.dropWhile netlocChar)
        else (v.dropWhile netlocChar, [])).1, []))
    rfl rfl rfl rfl
  set nl := v.takeWhile netlocChar with hnl
  set r2 := v.dropWhile netlocChar with hr2
  set fr := (if '#' ∈ r2 then splitOnceAt '#' r2 else (r2, ([] : List Char))) with hfr
  set qr := (if '?' ∈ fr.1 then splitOnceAt '?' fr.1 else (fr.1, ([] : List Char))) with hqr
  by_cases e1 : ('[' ∈ nl ∧ ']' ∉ nl) ∨ (']' ∈ nl ∧ '[' ∉ nl)
  · have herr : urlparseE bk nk (sch ++ ':' :: '/' :: '/' :: v) = Except.error () := by
      rw [urlparseE, hsplit1, if_pos e1]
    have hnorm : normalize_url bk nk (sch ++ ':' :: '/' :: '/' :: v)
        = sch ++ ':' :: '/' :: '/' :: v := by
      rw [normalize_url, if_neg (hunegen v), herr]
    rw [hnorm, hnorm]
  · by_cases e2 : '[' ∈ nl ∧ ']' ∈ nl ∧ ¬ bk (bracketedHostOf nl)
    · have herr : urlparseE bk nk (sch ++ ':' :: '/' :: '/' :: v) = Except.error () := by
        rw [urlparseE, hsplit1, if_neg e1, if_pos e2]
      have hnorm : normalize_url bk nk (sch ++ ':' :: '/' :: '/' :: v)
          = sch ++ ':' :: '/' :: '/' :: v := by
        rw [normalize_url, if_neg (hunegen v), herr]
      rw [hnorm, hnorm]
    · by_cases e3 : nl ≠ [] ∧ ¬ nl.all (fun c => decide (c.toNat < 0x80)) ∧ ¬ nk nl
      · have herr : urlparseE bk nk (sch ++ ':' :: '/' :: '/' :: v) = Except.error () := by
          rw [urlparseE, hsplit1, if_neg e1, if_neg e2, if_pos e3]
        have hnorm : normalize_url bk nk (sch ++ ':' :: '/' :: '/' :: v)
            = sch ++ ':' :: '/' :: '/' :: v := by
          rw [normalize_url, if_neg (hunegen v), herr]
        rw [hnorm, hnorm]
      · have hsp2 : urlsplitE bk nk (sch ++ ':' :: '/' :: '/' :: v)
            = Except.ok (SplitResult.mk sch nl qr.1 qr.2 fr.2) := by
          rw [hsplit1, if_neg e1, if_neg e2, if_neg e3]
        have hnlc : ∀ c ∈ nl, netlocChar c = true := by
          rw [hnl]
          intro c hc
          exact List.mem_takeWhile_imp hc
        have hnl_sub : ∀ c ∈ nl, c ∈ v := by
          rw [hnl]
          intro c hc
          exact (List.takeWhile_sublist _).subset hc
        have hr2_sub : ∀ c ∈ r2, c ∈ v := by
          rw [hr2]
          intro c hc
          exact (List.dropWhile_sublist _).subset hc
        have hr2head : ∀ b B, r2 = b :: B → netlocChar b = false := by
          rw [hr2]
          exact dropWhile_head_false netlocChar v
        have hfr_pre : ∃ T, r2 = fr.1 ++ T := by
          rw [hfr]
          by_cases h : '#' ∈ r2
          · rw [if_pos h]
            exact ⟨'#' :: (splitOnceAt '#' r2).2, splitOnceAt_decomp '#' r2 h⟩
          · rw [if_neg h]
            exact ⟨[], by simp⟩
        have hfr1_hash : '#' ∉ fr.1 := by
          rw [hfr]
          by_cases h : '#' ∈ r2
          · rw [if_pos h]
            exact splitOnceAt_fst_not_mem '#' r2
          · rw [if_neg h]
            exact h
        have hfr1_sub : ∀ c ∈ fr.1, c ∈ r2 := by
          rw [hfr]
          by_cases h : '#' ∈ r2
          · rw [if_pos h]
            intro c hc
            exact (splitOnceAt_subset '#' r2 c).1 hc
          · rw [if_neg h]
            intro c hc
            exact hc
        have hfr2_sub : ∀ c ∈ fr.2, c ∈ r2 := by
          rw [hfr]
          by_cases h : '#' ∈ r2
          · rw [if_pos h]
            intro c hc
            exact (splitOnceAt_subset '#' r2 c).2 hc
          · rw [if_neg h]
            intro c hc
            exact absurd hc (List.not_mem_nil c)
        have hqr_pre : ∃ T, fr.1 = qr.1 ++ T := by
          rw [hqr]
          by_cases h : '?' ∈ fr.1
          · rw [if_pos h]
            exact ⟨'?' :: (splitOnceAt '?' fr.1).2, splitOnceAt_decomp '?' fr.1 h⟩
          · rw [if_neg h]
            exact ⟨[], by simp⟩
        have hq1_noq : '?' ∉ qr.1 := by
          rw [hqr]
          by_cases h : '?' ∈ fr.1
          · rw [if_pos h]
            exact splitOnceAt_fst_not_mem '?' fr.1
          · rw [if_neg h]
            exact h
        have hq1_sub : ∀ c ∈ qr.1, c ∈ fr.1 := by
          rw [hqr]
          by_cases h : '?' ∈ fr.1
          · rw [if_pos h]
            intro c hc
            exact (splitOnceAt_subset '?' fr.1 c).1 hc
          · rw [if_neg h]
            intro c hc
            exact hc
        have hq2_sub : ∀ c ∈ qr.2, c ∈ fr.1 := by
          rw [hqr]
          by_cases h : '?' ∈ fr.1
          · rw [if_pos h]
            intro c hc
            exact (splitOnceAt_subset '?' fr.1 c).2 hc
          · rw [if_neg h]
            intro c hc
            exact absurd hc (List.not_mem_nil c)
        have hq1_hash : '#' ∉ qr.1 := fun h => hfr1_hash (hq1_sub _ h)
        have hq1head : ∀ b B, qr.1 = b :: B → b = '/' := by
          intro b B hb
          obtain ⟨T1, hT1⟩ := hqr_pre
          obtain ⟨T2, hT2⟩ := hfr_pre
          have hr2eq : r2 = b :: ((B ++ T1) ++ T2) := by
            rw [hT2, hT1, hb]
            simp [List.append_assoc]
          have hnb := hr2head b _ hr2eq
          have hbmem : b ∈ qr.1 := by
            rw [hb]
            exact List.mem_cons_self _ _
          simp only [netlocChar, Bool.not_eq_false', Bool.or_eq_true, decide_eq_true_eq] at hnb
          rcases hnb with (h | h) | h
          · exact h
          · exact absurd (h ▸ hbmem) hq1_noq
          · exact absurd (h ▸ hbmem) hq1_hash
        have hnl_empty : nl = [] → qr.1 = [] := by
          intro h0
          cases hq1c : qr.1 with
          | nil => rfl
          | cons b B =>
            have hb := hq1head b B hq1c
            obtain ⟨T1, hT1⟩ := hqr_pre
            obtain ⟨T2, hT2⟩ := hfr_pre
            have hr2eq : r2 = b :: ((B ++ T1) ++ T2) := by
              rw [hT2, hT1, hq1c]
              simp [List.append_assoc]
            have hveq : v = r2 := by
              have hvd := List.takeWhile_append_dropWhile (p := netlocChar) (l := v)
              rw [← hnl, ← hr2, h0] at hvd
              simpa using hvd.symm
            exact absurd hb (hv b _ (by rw [hveq, hr2eq]))
        have hq1chars : ∀ c ∈ qr.1, 0x20 < c.toNat :=
          fun c hc => hvchars c (hr2_sub c (hfr1_sub c (hq1_sub c hc)))
        have hfchars : ∀ c ∈ fr.2, 0x20 < c.toNat :=
          fun c hc => hvchars c (hr2_sub c (hfr2_sub c hc))
        have hnlchars : ∀ c ∈ nl, 0x20 < c.toNat := fun c hc => hvchars c (hnl_sub c hc)
        have hL : ((parse_qsl qr.2).filter (fun kv => !isTrackingKey kv.1)).filter
              (fun kv => !isTrackingKey kv.1)
            = (parse_qsl qr.2).filter (fun kv => !isTrackingKey kv.1) := by
          simp [List.filter_filter]
        by_cases hsemi : ';' ∈ qr.1
        · obtain ⟨P, R, hPR⟩ : ∃ P R, splitparams qr.1 = (P, R) := ⟨_, _, rfl⟩
          have hshape := splitparams_path_shape qr.1 P R hPR hq1head hsemi
          have hPhead := hshape.2
          have hparse1 : urlparseE bk nk (sch ++ ':' :: '/' :: '/' :: v)
              = Except.ok (ParseResult.mk sch nl P R qr.2 fr.2) := by
            rw [urlparseE, hsp2]
            dsimp only
            rw [if_pos ⟨hup, hsemi⟩, hPR]
          have hP_sub : ∀ c ∈ P, c ∈ qr.1 := by
            intro c hc
            exact (splitparams_subset qr.1 c).1 (by rw [hPR]; exact hc)
          have hR_sub : ∀ c ∈ R, c ∈ qr.1 := by
            intro c hc
            exact (splitparams_subset qr.1 c).2 (by rw [hPR]; exact hc)
          have hPR0 : P = [] → R = [] := by
            intro hP0
            rcases hshape.1 with h | h
            · rw [hP0] at h
              exact absurd (hq1head ';' R (by simpa using h.symm)) (by decide)
            · exact h.1
          have hnlP : nl = [] → P = [] := by
            intro h0
            exact absurd hsemi (by rw [hnl_empty h0]; exact List.not_mem_nil ';')
          have hrt := splitparams_roundtrip qr.1 P R hPR
          have hrt' : (R ≠ [] → splitparams (P ++ ';' :: R) = (P, R)) ∧
              (R = [] → ';' ∈ P → splitparams P = (P, [])) := hrt
          have hnorm1 : normalize_url bk nk (sch ++ ':' :: '/' :: '/' :: v)
              = urlunparse (ParseResult.mk sch nl P R
                  (urlencode ((parse_qsl qr.2).filter (fun kv => !isTrackingKey kv.1))) fr.2) := by
            rw [normalize_url, if_neg (hunegen v), hparse1]
          rw [hnorm1]
          exact normalize_fixed bk nk sch nl P R fr.2
            ((parse_qsl qr.2).filter (fun kv => !isTrackingKey kv.1))
            hcol hne hheadalpha hallsch hlow hup hun hschars hnlc hnlchars
            (fun c hc => hq1chars c (hP_sub c hc)) (fun c hc => hq1chars c (hR_sub c hc))
            hfchars hPhead
            (fun h => hq1_hash (hP_sub _ h)) (fun h => hq1_noq (hP_sub _ h))
            (fun h => hq1_hash (hR_sub _ h)) (fun h => hq1_noq (hR_sub _ h))
            hPR0 hnlP hrt' hL e1 e2 e3
        · have hparse1 : urlparseE bk nk (sch ++ ':' :: '/' :: '/' :: v)
              = Except.ok (ParseResult.mk sch nl qr.1 [] qr.2 fr.2) := by
            rw [urlparseE, hsp2]
            dsimp only
            rw [if_neg (fun h => hsemi h.2)]
          have hrt' : (([] : List Char) ≠ [] → splitparams (qr.1 ++ ';' :: []) = (qr.1, [])) ∧
              (([] : List Char) = [] → ';' ∈ qr.1 → splitparams qr.1 = (qr.1, [])) :=
            ⟨fun h => absurd rfl h, fun _ h => absurd h hsemi⟩
          have hnorm1 : normalize_url bk nk (sch ++ ':' :: '/' :: '/' :: v)
              = urlunparse (ParseResult.mk sch nl qr.1 []
                  (urlencode ((parse_qsl qr.2).filter (fun kv => !isTrackingKey kv.1))) fr.2) := by
            rw [normalize_url, if_neg (hunegen v), hparse1]
          rw [hnorm1]
          exact normalize_fixed bk nk sch nl qr.1 [] fr.2
            ((parse_qsl qr.2).filter (fun kv => !isTrackingKey kv.1))
            hcol hne hheadalpha hallsch hlow hup hun hschars hnlc hnlchars
            hq1chars (by simp) hfchars hq1head hq1_hash hq1_noq
            (by simp) (by simp) (fun _ => rfl) hnl_empty hrt' hL e1 e2 e3

/-- C8 (amended): `normalize_url` is not idempotent on arbitrary strings
(see `C8_counterexample`), but it is idempotent on every `http://` or
`https://` URL whose characters all exceed `0x20` (no C0 controls, no
spaces, no tabs/CR/LF) and whose authority marker `//` is not followed by a
third slash. -/
theorem C8_normalize_idempotent (bk nk : List Char → Bool) (u : List Char)
    (hpre : ("http://".toList.isPrefixOf u ∧ ¬ "http:///".toList.isPrefixOf u)
      ∨ ("https://".toList.isPrefixOf u ∧ ¬ "https:///".toList.isPrefixOf u))
    (hchars : ∀ c ∈ u, 0x20 < c.toNat) :
    normalize_url bk nk (normalize_url bk nk u) = normalize_url bk nk u := by
  rcases hpre with ⟨hp, hnp⟩ | ⟨hp, hnp⟩
  · obtain ⟨v, hv⟩ := List.isPrefixOf_iff_prefix.mp hp
    have hu : u = "http".toList ++ ':' :: '/' :: '/' :: v := by
      rw [← hv]
      rfl
    have hvchars : ∀ c ∈ v, 0x20 < c.toNat := by
      intro c hc
      exact hchars c (by rw [hu]; simp [hc])
    have hvhead : ∀ b B, v = b :: B → b ≠ '/' := by
      intro b B hb hb'
      apply hnp
      apply List.isPrefixOf_iff_prefix.mpr
      exact ⟨B, by rw [← hv, hb, hb']; rfl⟩
    rw [hu]
    exact normalize_core bk nk "http".toList v (by decide) (by decide)
      (by intro b B h; cases h; decide) (by decide) (by decide) (by decide) (by decide)
      hvhead hvchars (by decide)
  · obtain ⟨v, hv⟩ := List.isPrefixOf_iff_prefix.mp hp
    have hu : u = "https".toList ++ ':' :: '/' :: '/' :: v := by
      rw [← hv]
      rfl
    have hvchars : ∀ c ∈ v, 0x20 < c.toNat := by
      intro c hc
      exact hchars c (by rw [hu]; simp [hc])
    have hvhead : ∀ b B, v = b :: B → b ≠ '/' := by
      intro b B hb hb'
      apply hnp
      apply List.isPrefixOf_iff_prefix.mpr
      exact ⟨B, by rw [← hv, hb, hb']; rfl⟩
    rw [hu]
    exact normalize_core bk nk "https".toList v (by decide) (by decide)
      (by intro b B h; cases h; decide) (by decide) (by decide) (by decide) (by decide)
      hvhead hvchars (by decide)

set_option maxRecDepth 8000 in
/-- Witness for C8: the amended idempotence theorem applied to a concrete
tracking-parameter URL. -/
theorem C8_witness :
    normalize_url (fun _ => true) (fun _ => true)
        (normalize_url (fun _ => true) (fun _ => true)
          "http://example.com/a?utm_source=x&b=1".toList)
      = normalize_url (fun _ => true) (fun _ => true)
          "http://example.com/a?utm_source=x&b=1".toList :=
  C8_normalize_idempotent (fun _ => true) (fun _ => true) _
    (Or.inl ⟨by decide, by decide⟩) (by decide)
